import Mathlib

/-!
Verification of the Italian text-normalization grammars of this repository:
the ordinal classifier (`taggers/ordinal.py`) and the date and fraction
verbalizers (`verbalizers/date.py`, `verbalizers/fraction.py`).

The pynini transducers are shallowly embedded as executable functions and
finite-output relations on `List Char`.  Every combinator of the source
(`pynutil.delete`, `pynini.closure`, `pynini.cdrewrite`, concatenation,
union, composition) is translated at its use site; where a concatenation or
closure is forced deterministic by a following literal (e.g. a closing
quote after `NEMO_NOT_QUOTE*`), the parse is written deterministically and
the forcing is noted.  Helpers that live outside the given sources
(`graph_utils`, the lexical tables, the cardinal grammar) are modelled from
the spec, as marked in their doc comments.
-/

set_option maxRecDepth 100000
set_option maxHeartbeats 16000000

namespace ItTN

/-- Strings of the transduction alphabet are modelled as lists of characters. -/
abbrev Str := List Char

/-- Consume a literal from the front of the input: `pynutil.delete(lit)` for a
string literal `lit`, returning the remaining input. -/
def stripL : Str → Str → Option Str
  | [], s => some s
  | _ :: _, [] => none
  | c :: l, d :: s => if c = d then stripL l s else none

/-- Split the input at its first double quote.  The first component is the
maximal quote-free run, which is what `pynini.closure(NEMO_NOT_QUOTE)`
matches when the grammar requires a literal `"` right after it
(`NEMO_NOT_QUOTE` is `pynini.difference(NEMO_CHAR, '"')`: every single
character except the double quote). -/
def breakQ : Str → Str × Str
  | [] => ([], [])
  | c :: s =>
    if c = '"' then ([], c :: s)
    else
      let p := breakQ s
      (c :: p.1, p.2)

/-- Consume a (possibly empty) run of spaces: `delete_space`
(`pynutil.delete(pynini.closure(NEMO_WHITE_SPACE))`), resolved
deterministically against a following non-space literal. -/
def dropSp : Str → Str
  | [] => []
  | c :: s => if c = ' ' then dropSp s else c :: s

/-- Modelled from the spec: `strip_cardinal_apocope` (`it/graph_utils.py` is
not among the sources) — "deletes a word-final vowel from specific cardinal
spellings (e.g. trims `uno`→`un`, `ventuno`→`ventun`) when that cardinal is
used attributively before a noun-like continuation".  Modelled as the
contextual rewrite deleting the `o` of `uno` when followed by a space (the
start of the continuation); the scan carries the two previously read input
characters as left context. -/
def stripApocopeGo (p q : Char) : Str → Str
  | [] => []
  | c :: s =>
    if p = 'u' ∧ q = 'n' ∧ c = 'o' ∧ s.head? = some ' ' then stripApocopeGo q c s
    else c :: stripApocopeGo q c s

/-- See `stripApocopeGo`; the initial left context is empty (marked by a
character that occurs in no cardinal spelling). -/
def stripApocope (s : Str) : Str := stripApocopeGo '#' '#' s

/-- `primero = pynini.cdrewrite(pynini.cross("uno", "primo"), "[BOS]",
"[EOS]", NEMO_SIGMA)`: the rewrite is anchored at both string ends, so it
fires exactly when the whole string is `uno`. -/
def primero (s : Str) : Str :=
  if s = "uno".toList then "primo".toList else s

/-! ### Date verbalizer (`verbalizers/date.py`) -/

/-- `day_cardinal = pynutil.delete('day: "') + pynini.closure(NEMO_NOT_QUOTE, 1)
+ pynutil.delete('"')`: the value is a nonempty quote-free run, forced
maximal by the closing quote. -/
def day_cardinal (s : Str) : Option (Str × Str) :=
  match stripL "day: \"".toList s with
  | none => none
  | some r =>
    let p := breakQ r
    if p.1 = [] then none
    else
      match stripL "\"".toList p.2 with
      | none => none
      | some rest => some (p.1, rest)

/-- Deterministic `day`: `strip_cardinal_apocope(day_cardinal) @ primero`
(in deterministic mode the source composes `primero` unconditionally). -/
def dayDet (s : Str) : Option (Str × Str) :=
  match day_cardinal s with
  | none => none
  | some (w, r) => some (primero (stripApocope w), r)

/-- `month = pynutil.delete("month:") + delete_space + pynutil.delete('"') +
pynini.closure(NEMO_NOT_QUOTE, 1) + pynutil.delete('"')`. -/
def monthF (s : Str) : Option (Str × Str) :=
  match stripL "month:".toList s with
  | none => none
  | some r1 =>
    match stripL "\"".toList (dropSp r1) with
    | none => none
    | some r2 =>
      let p := breakQ r2
      if p.1 = [] then none
      else
        match stripL "\"".toList p.2 with
        | none => none
        | some rest => some (p.1, rest)

/-- `year = pynutil.delete("year:") + delete_space + pynutil.delete('"') +
pynini.closure(NEMO_NOT_QUOTE, 1) + delete_space + pynutil.delete('"')`.
The `delete_space` before the closing quote makes the parse relational: the
quoted text splits into a nonempty value followed by deleted spaces, in
every possible way. -/
def yearF (s : Str) : List (Str × Str) :=
  match stripL "year:".toList s with
  | none => []
  | some r1 =>
    match stripL "\"".toList (dropSp r1) with
    | none => []
    | some r2 =>
      let p := breakQ r2
      match stripL "\"".toList p.2 with
      | none => []
      | some rest =>
        (List.range p.1.length).filterMap fun k =>
          if (p.1.drop (k + 1)).all (· = ' ') then some (p.1.take (k + 1), rest)
          else none

/-- Modelled from the spec: `delete_extra_space` (`en/graph_utils.py` is not
among the sources) — fields are "joined by at least one space when present":
it consumes one or more joining spaces and emits a single space. -/
def eatSp1 : Str → Option Str
  | [] => none
  | c :: s => if c = ' ' then some (dropSp s) else none

/-- The order-preservation marker text, as deleted by the source
(`pynutil.delete(" preserve_order: true")`). -/
def pMarker : Str := " preserve_order: true".toList

/-- `graph_dmy = day + pynini.closure(delete_extra_space + month, 0, 1) +
pynini.closure(delete_extra_space + year, 0, 1)`, required to consume the
whole token text (deterministic `day`). -/
def graph_dmy (s : Str) : List Str :=
  match dayDet s with
  | none => []
  | some (d, r1) =>
    (if r1 = [] then [d] else []) ++
      match eatSp1 r1 with
      | none => []
      | some r2 =>
        (match monthF r2 with
          | none => []
          | some (m, r3) =>
            (if r3 = [] then [d ++ ' ' :: m] else []) ++
              match eatSp1 r3 with
              | none => []
              | some r4 =>
                (yearF r4).filterMap fun p =>
                  if p.2 = [] then some (d ++ ' ' :: m ++ ' ' :: p.1) else none) ++
          ((yearF r2).filterMap fun p =>
            if p.2 = [] then some (d ++ ' ' :: p.1) else none)

/-- Deterministic `graph_mdy = month + NEMO_SPACE + day +
pynini.closure(NEMO_SPACE + year, 0, 1) + pynutil.delete(" preserve_order:
true")`: `NEMO_SPACE` accepts (and keeps) exactly one space, and in
deterministic mode the token must end with the explicit marker. -/
def graph_mdy (s : Str) : List Str :=
  match monthF s with
  | none => []
  | some (m, r1) =>
    match r1 with
    | [] => []
    | c :: r2 =>
      if c = ' ' then
        match dayDet r2 with
        | none => []
        | some (d, r3) =>
          (if r3 = pMarker then [m ++ ' ' :: d] else []) ++
            match r3 with
            | [] => []
            | c2 :: r4 =>
              if c2 = ' ' then
                (yearF r4).filterMap fun p =>
                  if p.2 = pMarker then some (m ++ ' ' :: d ++ ' ' :: p.1) else none
              else []
      else []

/-- Consume a literal suffix, returning the remaining front part. -/
def stripEnd (suf s : Str) : Option Str :=
  match stripL suf.reverse s.reverse with
  | none => none
  | some r => some r.reverse

/-- `self.graph = graph_dmy | graph_mdy` (deterministic mode). -/
def dateGraph (s : Str) : List Str :=
  graph_dmy s ++ graph_mdy s

/-- `final_graph = self.graph + delete_preserve_order`.  Modelled from the
spec: `delete_preserve_order` (`en/graph_utils.py` is not among the sources)
is "a trailing cleanup step [that] deletes the order-preservation marker
token" when one is present at the end of the token text. -/
def dateFinal (s : Str) : List Str :=
  dateGraph s ++
    match stripEnd pMarker s with
    | none => []
    | some s2 => dateGraph s2

/-- A day-month-year token text, grouped the way the parse consumes it. -/
def dmyTok (d m y : Str) : Str :=
  "day: \"".toList ++
    (d ++ ('"' :: ' ' :: ("month:".toList ++ (' ' :: '"' ::
      (m ++ ('"' :: ' ' :: ("year:".toList ++ (' ' :: '"' :: (y ++ ['"'])))))))))

/-! ### Helper lemmas on the string primitives -/

lemma stripL_self_append (l r : Str) : stripL l (l ++ r) = some r := by
  induction l with
  | nil => rfl
  | cons c l ih => simp [stripL, ih]

lemma stripL_eq_some {l s r : Str} (h : stripL l s = some r) : s = l ++ r := by
  induction l generalizing s with
  | nil => simpa [stripL] using h
  | cons c l ih =>
    cases s with
    | nil => simp [stripL] at h
    | cons d s =>
      by_cases hc : c = d
      · simp [stripL, hc] at h
        simpa [hc] using congrArg (d :: ·) (ih h)
      · simp [stripL, hc] at h

lemma stripL_suffix {l s r : Str} (h : stripL l s = some r) : r <:+ s := by
  rw [stripL_eq_some h]; exact List.suffix_append l r

lemma breakQ_append {w : Str} (hw : '"' ∉ w) (r : Str) :
    breakQ (w ++ '"' :: r) = (w, '"' :: r) := by
  induction w with
  | nil => simp [breakQ]
  | cons c w ih =>
    simp only [List.mem_cons, not_or] at hw
    simp [breakQ, Ne.symm hw.1, ih hw.2]

lemma breakQ_suffix (s : Str) : (breakQ s).2 <:+ s := by
  induction s with
  | nil => simp [breakQ]
  | cons c s ih =>
    by_cases hc : c = '"'
    · simp [breakQ, hc]
    · simp only [breakQ, hc, if_false]
      exact ih.trans (List.suffix_cons c s)

lemma dropSp_suffix (s : Str) : dropSp s <:+ s := by
  induction s with
  | nil => simp [dropSp]
  | cons c s ih =>
    by_cases hc : c = ' '
    · simp only [dropSp, hc, if_true]
      exact ih.trans (List.suffix_cons ' ' s)
    · simp [dropSp, hc]

lemma dropSp_cons_of_ne {c : Char} (h : c ≠ ' ') (s : Str) :
    dropSp (c :: s) = c :: s := by simp [dropSp, h]

lemma stripApocopeGo_of_no_space (p q : Char) {s : Str} (h : ' ' ∉ s) :
    stripApocopeGo p q s = s := by
  induction s generalizing p q with
  | nil => rfl
  | cons c s ih =>
    simp only [List.mem_cons, not_or] at h
    have hh : s.head? ≠ some ' ' := by
      cases s with
      | nil => simp
      | cons d s =>
        simp only [ne_eq, List.head?_cons, Option.some.injEq]
        intro hd
        exact h.2 (by simp [hd])
    simp only [stripApocopeGo]
    rw [if_neg (by simp_all), ih q c h.2]

lemma stripApocope_of_no_space {s : Str} (h : ' ' ∉ s) : stripApocope s = s :=
  stripApocopeGo_of_no_space '#' '#' h

/-! ### C2 / C10: date verbalization -/

lemma all_spaces_drop {y : List Char} {j : ℕ} (hj : j < y.length)
    (hall : (y.drop j).all (· = ' ') = true) : y.getLast? = some ' ' := by
  induction y generalizing j with
  | nil => simp at hj
  | cons c t ih =>
    cases j with
    | zero =>
      cases t with
      | nil =>
        simp only [List.drop_zero, List.all_cons, List.all_nil, Bool.and_true,
          decide_eq_true_eq] at hall
        simp [hall]
      | cons b l =>
        rw [List.getLast?_cons_cons]
        apply ih (j := 0) (by simp)
        simp only [List.drop_zero, List.all_cons, Bool.and_eq_true] at hall ⊢
        exact hall.2
    | succ j =>
      simp only [List.length_cons] at hj
      have hj' : j < t.length := by omega
      have := ih hj' (by simpa using hall)
      cases t with
      | nil => simp at hj'
      | cons b l => rw [List.getLast?_cons_cons]; exact this

lemma if_range_filterMap {α : Type} (n : ℕ) (hn : 0 < n) (v : α) :
    ((List.range n).filterMap fun k => if k = n - 1 then some v else none)
      = [v] := by
  have : n = (n - 1) + 1 := by omega
  rw [this, List.range_succ, List.filterMap_append]
  have h1 : (List.range (n - 1)).filterMap
      (fun k => if k = n - 1 + 1 - 1 then some v else none) = [] := by
    rw [List.filterMap_eq_nil_iff]
    intro k hk
    rw [List.mem_range] at hk
    rw [if_neg (by omega)]
  rw [h1]
  simp

lemma yearF_unique {y rest : Str} (hy : '"' ∉ y) (hn : y ≠ [])
    (hl : y.getLast? ≠ some ' ') :
    yearF ("year:".toList ++ (' ' :: '"' :: (y ++ '"' :: rest)))
      = [(y, rest)] := by
  have hq : ∀ X : Str, stripL "\"".toList ('"' :: X) = some X := fun X => rfl
  have h1 : dropSp (' ' :: '"' :: (y ++ '"' :: rest)) = '"' :: (y ++ '"' :: rest) := by
    simp [dropSp]
  simp only [yearF, stripL_self_append, h1, hq, breakQ_append hy]
  have hlen : 0 < y.length := List.length_pos.mpr hn
  have hcong : ∀ k ∈ List.range y.length,
      (if (y.drop (k + 1)).all (· = ' ') = true
        then some (y.take (k + 1), rest) else none)
        = if k = y.length - 1 then some (y, rest) else none := by
    intro k hk
    rw [List.mem_range] at hk
    by_cases hke : k = y.length - 1
    · subst hke
      have hd : y.drop (y.length - 1 + 1) = [] := by
        apply List.drop_eq_nil_of_le; omega
      have ht : y.take (y.length - 1 + 1) = y := by
        apply List.take_of_length_le; omega
      rw [hd, ht]
      simp
    · rw [if_neg hke, if_neg]
      intro hall
      exact absurd (all_spaces_drop (by omega) hall) hl
  rw [List.filterMap_congr hcong]
  exact if_range_filterMap y.length hlen (y, rest)

lemma day_cardinal_canon {d : Str} (hd : '"' ∉ d) (hne : d ≠ []) (rest : Str) :
    day_cardinal ("day: \"".toList ++ (d ++ '"' :: rest)) = some (d, rest) := by
  have hq : ∀ X : Str, stripL "\"".toList ('"' :: X) = some X := fun X => rfl
  simp only [day_cardinal, stripL_self_append, breakQ_append hd, hq]
  simp [hne]

lemma monthF_canon {m : Str} (hm : '"' ∉ m) (hne : m ≠ []) (rest : Str) :
    monthF ("month:".toList ++ (' ' :: '"' :: (m ++ '"' :: rest))) = some (m, rest) := by
  have hq : ∀ X : Str, stripL "\"".toList ('"' :: X) = some X := fun X => rfl
  have h1 : dropSp (' ' :: '"' :: (m ++ '"' :: rest)) = '"' :: (m ++ '"' :: rest) := by
    simp [dropSp]
  simp only [monthF, stripL_self_append, h1, hq, breakQ_append hm]
  simp [hne]

lemma day_cardinal_suffix {s d r : Str} (h : day_cardinal s = some (d, r)) :
    r <:+ s := by
  revert h
  unfold day_cardinal
  cases h1 : stripL "day: \"".toList s with
  | none => intro h; exact absurd h (by simp)
  | some r1 =>
    simp only []
    by_cases hp : (breakQ r1).1 = []
    · simp [hp]
    · simp only [hp, if_false]
      cases h2 : stripL "\"".toList (breakQ r1).2 with
      | none => intro h; exact absurd h (by simp)
      | some rest =>
        intro h
        simp only [Option.some.injEq, Prod.mk.injEq] at h
        rw [← h.2]
        exact ((stripL_suffix h2).trans (breakQ_suffix r1)).trans (stripL_suffix h1)

lemma dayDet_suffix {s d r : Str} (h : dayDet s = some (d, r)) : r <:+ s := by
  revert h
  unfold dayDet
  cases h1 : day_cardinal s with
  | none => intro h; exact absurd h (by simp)
  | some p =>
    intro h
    simp only [Option.some.injEq, Prod.mk.injEq] at h
    have := day_cardinal_suffix (d := p.1) (r := p.2) (by rw [h1])
    rw [← h.2]
    exact this

lemma monthF_suffix {s m r : Str} (h : monthF s = some (m, r)) : r <:+ s := by
  revert h
  unfold monthF
  cases h1 : stripL "month:".toList s with
  | none => intro h; exact absurd h (by simp)
  | some r1 =>
    simp only []
    cases h2 : stripL "\"".toList (dropSp r1) with
    | none => intro h; exact absurd h (by simp)
    | some r2 =>
      simp only []
      by_cases hp : (breakQ r2).1 = []
      · simp [hp]
      · simp only [hp, if_false]
        cases h3 : stripL "\"".toList (breakQ r2).2 with
        | none => intro h; exact absurd h (by simp)
        | some rest =>
          intro h
          simp only [Option.some.injEq, Prod.mk.injEq] at h
          rw [← h.2]
          exact ((((stripL_suffix h3).trans (breakQ_suffix r2)).trans
            (stripL_suffix h2)).trans (dropSp_suffix r1)).trans (stripL_suffix h1)

lemma yearF_suffix {s : Str} {p : Str × Str} (h : p ∈ yearF s) : p.2 <:+ s := by
  revert h
  unfold yearF
  cases h1 : stripL "year:".toList s with
  | none => intro h; exact absurd h (by simp)
  | some r1 =>
    simp only []
    cases h2 : stripL "\"".toList (dropSp r1) with
    | none => intro h; exact absurd h (by simp)
    | some r2 =>
      simp only []
      cases h3 : stripL "\"".toList (breakQ r2).2 with
      | none => intro h; exact absurd h (by simp)
      | some rest =>
        intro h
        simp only [List.mem_filterMap] at h
        obtain ⟨k, -, hk⟩ := h
        have : p.2 = rest := by
          by_cases hc : ((breakQ r2).1.drop (k + 1)).all (· = ' ') = true
          · rw [if_pos hc] at hk
            cases hk
            rfl
          · rw [if_neg hc] at hk
            cases hk
        rw [this]
        exact ((((stripL_suffix h3).trans (breakQ_suffix r2)).trans
          (stripL_suffix h2)).trans (dropSp_suffix r1)).trans (stripL_suffix h1)

lemma graph_mdy_marker {s : Str} {o : Str} (h : o ∈ graph_mdy s) :
    pMarker <:+ s := by
  revert h
  unfold graph_mdy
  cases h1 : monthF s with
  | none => intro h; exact absurd h (by simp)
  | some p =>
    simp only []
    match hr : p.2 with
    | [] => intro h; exact absurd h (by simp)
    | c :: r2 =>
      simp only []
      by_cases hc : c = ' '
      case neg =>
        intro h
        rw [if_neg hc] at h
        exact absurd h (by simp)
      subst hc
      rw [if_pos rfl]
      cases h2 : dayDet r2 with
      | none => intro h; exact absurd h (by simp)
      | some q =>
        simp only [List.mem_append]
        intro h
        have hr2 : r2 <:+ s := by
          have h0 : (' ' :: r2) <:+ s := by
            rw [← hr]; exact monthF_suffix (by rw [h1])
          exact (List.suffix_cons ' ' r2).trans h0
        rcases h with h | h
        · have hq : q.2 = pMarker := by
            by_cases he : q.2 = pMarker
            · exact he
            · rw [if_neg he] at h; cases h
          have : q.2 <:+ r2 := dayDet_suffix (by rw [h2])
          rw [hq] at this
          exact this.trans hr2
        · revert h
          match hq : q.2 with
          | [] => intro h; exact absurd h (by simp)
          | c2 :: r4 =>
            simp only []
            by_cases hc2 : c2 = ' '
            case neg =>
              intro h
              rw [if_neg hc2] at h
              exact absurd h (by simp)
            subst hc2
            rw [if_pos rfl]
            simp only [List.mem_filterMap]
            rintro ⟨pp, hpp, hif⟩
            have hpm : pp.2 = pMarker := by
              by_cases he : pp.2 = pMarker
              · exact he
              · rw [if_neg he] at hif; cases hif
            have h4 : pp.2 <:+ r4 := yearF_suffix hpp
            rw [hpm] at h4
            have hq2 : (' ' :: r4) <:+ r2 := by
              rw [← hq]; exact dayDet_suffix (by rw [h2])
            exact (h4.trans ((List.suffix_cons ' ' r4).trans hq2)).trans hr2

lemma stripEnd_some {suf s r : Str} (h : stripEnd suf s = some r) :
    s = r ++ suf := by
  revert h
  unfold stripEnd
  cases h1 : stripL suf.reverse s.reverse with
  | none => intro h; exact absurd h (by simp)
  | some r0 =>
    intro h
    simp only [Option.some.injEq] at h
    have := stripL_eq_some h1
    have h2 : s = (suf.reverse ++ r0).reverse := by
      rw [← this, List.reverse_reverse]
    rw [h2, List.reverse_append, List.reverse_reverse, ← h]

lemma getLast?_append_ne (l1 : Str) {l2 : Str} (h : l2 ≠ []) :
    (l1 ++ l2).getLast? = l2.getLast? := by
  induction l1 with
  | nil => rfl
  | cons c t ih =>
    have hne : t ++ l2 ≠ [] := by
      simp only [ne_eq, List.append_eq_nil, not_and]
      intro _; exact h
    cases hX : t ++ l2 with
    | nil => exact absurd hX hne
    | cons b l =>
      rw [List.cons_append, hX, List.getLast?_cons_cons, ← hX, ih]

lemma getLast?_cons_ne (c : Char) {l : Str} (h : l ≠ []) :
    (c :: l).getLast? = l.getLast? := by
  cases l with
  | nil => exact absurd rfl h
  | cons b t => rw [List.getLast?_cons_cons]

lemma dmyTok_getLast (d m y : Str) :
    (dmyTok d m y).getLast? = some '"' := by
  unfold dmyTok
  rw [getLast?_append_ne _ (by simp)]
  rw [getLast?_append_ne _ (by simp)]
  rw [getLast?_cons_ne _ (by simp)]
  rw [getLast?_cons_ne _ (by simp)]
  rw [getLast?_append_ne _ (by simp)]
  rw [getLast?_cons_ne _ (by simp)]
  rw [getLast?_cons_ne _ (by simp)]
  rw [getLast?_append_ne _ (by simp)]
  rw [getLast?_cons_ne _ (by simp)]
  rw [getLast?_cons_ne _ (by simp)]
  rw [getLast?_append_ne _ (by simp)]
  rw [getLast?_cons_ne _ (by simp)]
  rw [getLast?_cons_ne _ (by simp)]
  rw [getLast?_append_ne _ (by simp)]
  rfl

/-- C2: a date token with day `uno`, a month and a year deterministically
verbalizes to the `primo` day form joined in day-month-year order, as the
unique output; a token carrying no order-preservation marker anywhere only
gets day-month-year outputs; and the deterministic month-day-year branch
matches a token only if the token ends in the explicit
`preserve_order: true` marker. -/
theorem C2_date_day_one_and_order :
    (∀ m y : Str, '"' ∉ m → m ≠ [] → '"' ∉ y → y ≠ [] →
      y.getLast? ≠ some ' ' →
      dateFinal (dmyTok "uno".toList m y)
        = ["primo".toList ++ ' ' :: m ++ ' ' :: y]) ∧
    (∀ s : Str, ¬ pMarker <:+: s → dateFinal s = graph_dmy s) ∧
    (∀ s o : Str, o ∈ graph_mdy s → pMarker <:+ s) := by
  refine ⟨?_, ?_, fun s o h => graph_mdy_marker h⟩
  · intro m y hm hmne hy hyne hyl
    have hA : dayDet (dmyTok "uno".toList m y)
        = some ("primo".toList, ' ' :: ("month:".toList ++ (' ' :: '"' ::
            (m ++ ('"' :: ' ' :: ("year:".toList ++
              (' ' :: '"' :: (y ++ ['"'])))))))) := by
      unfold dmyTok dayDet
      rw [day_cardinal_canon (by decide) (by decide)]
      rfl
    have hms : ∀ X : Str, dropSp ("month:".toList ++ X) = "month:".toList ++ X :=
      fun X => dropSp_cons_of_ne (by decide) _
    have hys : ∀ X : Str, dropSp ("year:".toList ++ X) = "year:".toList ++ X :=
      fun X => dropSp_cons_of_ne (by decide) _
    have hyn : ∀ X : Str, yearF ("month:".toList ++ X) = [] := fun X => rfl
    have hdmy : graph_dmy (dmyTok "uno".toList m y)
        = ["primo".toList ++ ' ' :: m ++ ' ' :: y] := by
      unfold graph_dmy
      rw [hA]
      simp only [List.cons_ne_nil, if_false, eatSp1, reduceIte, hms, hys, hyn,
        monthF_canon hm hmne, yearF_unique hy hyne hyl, List.filterMap_cons,
        List.filterMap_nil]
      simp
    have hmdy : graph_mdy (dmyTok "uno".toList m y) = [] := rfl
    have hse : stripEnd pMarker (dmyTok "uno".toList m y) = none := by
      cases hE : stripEnd pMarker (dmyTok "uno".toList m y) with
      | none => rfl
      | some r =>
        exfalso
        have h1 := dmyTok_getLast "uno".toList m y
        rw [stripEnd_some hE] at h1
        rw [getLast?_append_ne _ (by decide)] at h1
        rw [show pMarker.getLast? = some 'e' from by decide] at h1
        exact absurd h1 (by decide)
    rw [dateFinal, dateGraph, hdmy, hmdy, hse]
    simp
  · intro s hni
    have hmdy : graph_mdy s = [] := by
      cases hG : graph_mdy s with
      | nil => rfl
      | cons a l =>
        exfalso
        apply hni
        have hmem : a ∈ graph_mdy s := by
          rw [hG]; exact List.mem_cons_self a l
        exact (graph_mdy_marker hmem).isInfix
    have hse : stripEnd pMarker s = none := by
      cases hE : stripEnd pMarker s with
      | none => rfl
      | some r =>
        exfalso
        apply hni
        rw [stripEnd_some hE]
        exact (List.suffix_append r pMarker).isInfix
    rw [dateFinal, dateGraph, hmdy, hse]
    simp [dateGraph]

/-- Witness for C2 at concrete inputs. -/
theorem C2_date_day_one_and_order_witness :
    (dateFinal (dmyTok "uno".toList "maggio".toList "mille".toList)
      = ["primo".toList ++ ' ' :: "maggio".toList ++ ' ' :: "mille".toList]) ∧
    (dateFinal "day: \"due\" month: \"marzo\"".toList
      = graph_dmy "day: \"due\" month: \"marzo\"".toList) ∧
    pMarker <:+ "month: \"marzo\" day: \"due\" preserve_order: true".toList :=
  ⟨C2_date_day_one_and_order.1 "maggio".toList "mille".toList
      (by decide) (by decide) (by decide) (by decide) (by decide),
    C2_date_day_one_and_order.2.1 _ (by decide),
    C2_date_day_one_and_order.2.2 _ "marzo due".toList (by decide)⟩

/-- A bare `day` field token text. -/
def dayField (d : Str) : Str := "day: \"".toList ++ (d ++ '"' :: [])

/-- C10: the deterministic rewrite of the day word `uno` to `primo` is
anchored at both ends of the day text: a day equal to `uno` becomes `primo`,
while any other space-free day value — in particular `ventuno` and
`trentuno`, which contain `uno` as a proper substring — passes through the
day branch unchanged. -/
theorem C10_primo_only_whole_uno :
    (∀ d : Str, '"' ∉ d → d ≠ [] → ' ' ∉ d → d ≠ "uno".toList →
      dayDet (dayField d) = some (d, [])) ∧
    dayDet (dayField "uno".toList) = some ("primo".toList, []) ∧
    dayDet (dayField "ventuno".toList) = some ("ventuno".toList, []) ∧
    dayDet (dayField "trentuno".toList) = some ("trentuno".toList, []) := by
  refine ⟨?_, by decide, by decide, by decide⟩
  intro d hq hne hsp huno
  unfold dayField dayDet
  rw [day_cardinal_canon hq hne]
  simp only []
  rw [stripApocope_of_no_space hsp]
  rw [primero, if_neg huno]

/-- Witness for C10 at a concrete input. -/
theorem C10_primo_only_whole_uno_witness :
    dayDet (dayField "due".toList) = some ("due".toList, []) :=
  C10_primo_only_whole_uno.1 "due".toList (by decide) (by decide)
    (by decide) (by decide)

/-! ### Fraction verbalizer (`build/lib/.../verbalizers/fraction.py`) -/

/-- Character equality as a Boolean on the underlying code points. -/
def ceq (a b : Char) : Bool := a.val == b.val

lemma ceq_iff {a b : Char} : ceq a b = true ↔ a = b := by
  constructor
  · intro h
    exact Char.ext (by simpa [ceq] using h)
  · intro h; subst h; simp [ceq]

@[simp] lemma ceq_self (a : Char) : ceq a a = true := ceq_iff.mpr rfl

/-- String equality as a Boolean. -/
def eqS : Str → Str → Bool
  | [], [] => true
  | a :: x, b :: y => ceq a b && eqS x y
  | _, _ => false

lemma eqS_iff : ∀ {x y : Str}, eqS x y = true ↔ x = y := by
  intro x
  induction x with
  | nil => intro y; cases y <;> simp [eqS]
  | cons a x ih =>
    intro y
    cases y with
    | nil => simp [eqS]
    | cons b y => simp [eqS, ceq_iff, ih]

/-- A Boolean prefix test on strings. -/
def isPre : Str → Str → Bool
  | [], _ => true
  | _ :: _, [] => false
  | c :: l, d :: s => ceq c d && isPre l s

lemma isPre_iff : ∀ {p s : Str}, isPre p s = true ↔ ∃ r, s = p ++ r := by
  intro p
  induction p with
  | nil => intro s; simp [isPre]
  | cons c p ih =>
    intro s
    cases s with
    | nil => simp [isPre]
    | cons d s =>
      simp only [isPre, Bool.and_eq_true, ceq_iff, ih, List.cons_append,
        List.cons.injEq]
      constructor
      · rintro ⟨rfl, r, rfl⟩; exact ⟨r, rfl, rfl⟩
      · rintro ⟨r, rfl, rfl⟩; exact ⟨rfl, r, rfl⟩

/-- A Boolean membership test for strings in a list of strings. -/
def elemS (x : Str) : List Str → Bool
  | [] => false
  | y :: l => eqS x y || elemS x l

lemma elemS_iff : ∀ {x : Str} {l : List Str}, elemS x l = true ↔ x ∈ l := by
  intro x l
  induction l with
  | nil => simp [elemS]
  | cons y l ih => simp [elemS, eqS_iff, ih]

/-- `merge = pynini.cdrewrite(pynini.cross(" e ", "i"), "", "", NEMO_SIGMA)`:
every occurrence of the conjunction ` e ` becomes the bound linking letter
`i`, scanning left to right. -/
def mergeConj : Str → Str
  | ' ' :: 'e' :: ' ' :: s => 'i' :: mergeConj s
  | c :: s => c :: mergeConj s
  | [] => []

/-- The single characters accepted by `pynini.difference(NEMO_CHAR,
"parte")`: `NEMO_CHAR` is the language of single characters and the
subtracted language is the five-character string `parte`, which is not a
single character — so membership is just `[c] ≠ "parte"`. -/
def charNotParte (c : Char) : Bool := decide ([c] ≠ "parte".toList)

lemma charNotParte_true (c : Char) : charNotParte c = true := by
  simp only [charNotParte, ne_eq, decide_not, Bool.not_eq_eq_eq_not, Bool.not_true,
    decide_eq_false_iff_not]
  intro h
  have hp : "parte".toList = 'p' :: 'a' :: 'r' :: 't' :: 'e' :: [] := rfl
  rw [hp] at h
  simp at h

/-- `merge @= pynini.cdrewrite(delete_space, "", pynini.difference(NEMO_CHAR,
"parte"), NEMO_SIGMA)`: a run of spaces is deleted when the next character
lies in the difference language (`charNotParte`). -/
def mergeSpaces : Str → Str
  | [] => []
  | c :: s =>
    if c = ' ' then
      match s with
      | [] => [' ']
      | d :: t =>
        if charNotParte d then mergeSpaces (d :: t) else ' ' :: mergeSpaces (d :: t)
    else c :: mergeSpaces s

/-- Modelled from the spec: the `accents` table of `it/graph_utils.py` (not
among the sources) pairs accented vowels with their plain forms. -/
def accentPlain (c : Char) : Option Char :=
  if c = 'à' then some 'a'
  else if c = 'è' then some 'e'
  else if c = 'é' then some 'e'
  else if c = 'ì' then some 'i'
  else if c = 'ò' then some 'o'
  else if c = 'ù' then some 'u'
  else none

/-- The right context of `remove_accents`:
`pynini.closure(NEMO_NOT_SPACE) + pynini.union("esimo", "esima")` — the
ordinal suffix occurs later in the same (space-free) stretch. -/
def esimoAhead : Str → Bool
  | [] => false
  | c :: s =>
    isPre "esimo".toList (c :: s) || isPre "esima".toList (c :: s) ||
      (!(c = ' ') && esimoAhead s)

/-- `remove_accents = pynini.cdrewrite(accents, union(NEMO_SPACE, "[BOS]") +
closure(NEMO_NOT_SPACE), closure(NEMO_NOT_SPACE) + union("esimo", "esima"),
NEMO_SIGMA)`.  The left context (word start followed by non-spaces) matches
before every character, since the text between the last space (or the string
start) and the current position is space-free by construction; the rewrite
therefore fires exactly when the right context holds. -/
def removeAccents : Str → Str
  | [] => []
  | c :: s =>
    match accentPlain c with
    | some p => if esimoAhead s then p :: removeAccents s else c :: removeAccents s
    | none => c :: removeAccents s

/-- `delete_duplicates = pynini.cdrewrite(pynini.string_map([("aa", "a"),
("oo", "o")]), "", "", NEMO_SIGMA)`. -/
def delDup : Str → Str
  | 'a' :: 'a' :: s => 'a' :: delDup s
  | 'o' :: 'o' :: s => 'o' :: delDup s
  | c :: s => c :: delDup s
  | [] => []

/-- `merge_into_single_word = merge @ remove_accents @ delete_duplicates`. -/
def merge_into_single_word (s : Str) : Str :=
  delDup (removeAccents (mergeSpaces (mergeConj s)))

/-- `numerator = pynutil.delete('numerator: "') +
pynini.difference(pynini.closure(NEMO_NOT_QUOTE), "un") + pynutil.delete('" ')`. -/
def numeratorF (s : Str) : Option (Str × Str) :=
  match stripL "numerator: \"".toList s with
  | none => none
  | some r =>
    let p := breakQ r
    if p.1 = "un".toList then none
    else
      match stripL "\" ".toList p.2 with
      | none => none
      | some rest => some (p.1, rest)

/-- `numerator_one = pynutil.delete('numerator: "') + pynini.accep("un") +
pynutil.delete('" ')`. -/
def numerator_oneF (s : Str) : Option Str :=
  stripL "numerator: \"un\" ".toList s

/-- `denominator_add_stem = pynutil.delete('denominator: "') +
(closure(NEMO_NOT_QUOTE) + pynutil.delete('" morphosyntactic_features:
"add_root"'))`. -/
def denominator_add_stem (s : Str) : Option (Str × Str) :=
  match stripL "denominator: \"".toList s with
  | none => none
  | some r =>
    let p := breakQ r
    match stripL "\" morphosyntactic_features: \"add_root\"".toList p.2 with
    | none => none
    | some rest => some (p.1, rest)

/-- `denominator_ordinal = pynutil.delete('denominator: "') +
(closure(NEMO_NOT_QUOTE) + pynutil.delete('" morphosyntactic_features:
"ordinal"'))`. -/
def denominator_ordinalF (s : Str) : Option (Str × Str) :=
  match stripL "denominator: \"".toList s with
  | none => none
  | some r =>
    let p := breakQ r
    match stripL "\" morphosyntactic_features: \"ordinal\"".toList p.2 with
    | none => none
    | some rest => some (p.1, rest)

/-- `denominator_cardinal = pynutil.delete('denominator: "') +
(closure(NEMO_NOT_QUOTE) + pynutil.delete('"'))`. -/
def denominator_cardinalF (s : Str) : Option (Str × Str) :=
  match stripL "denominator: \"".toList s with
  | none => none
  | some r =>
    let p := breakQ r
    match stripL "\"".toList p.2 with
    | none => none
    | some rest => some (p.1, rest)

/-- `denominator_singular = pynini.union(denominator_add_stem,
denominator_ordinal)`. -/
def denominator_singularF (s : Str) : List (Str × Str) :=
  (denominator_add_stem s).toList ++ (denominator_ordinalF s).toList

/-- `denominator_plural = denominator_singular + plural` with
`plural = pynutil.delete("o") + pynutil.insert("i")`: concatenation acts on
the input side after the whole singular field (features annotation
included), so it consumes a further literal `o` there and appends `i` to the
output. -/
def denominator_pluralF (s : Str) : List (Str × Str) :=
  (denominator_singularF s).filterMap fun q =>
    match q.2 with
    | 'o' :: r2 => some (q.1 ++ ['i'], r2)
    | _ => none

/-- `fraction_with_one @= pynini.cdrewrite(pynini.cross("un mezzo",
"mezzo"), "", "", NEMO_SIGMA)`. -/
def unMezzo : Str → Str
  | 'u' :: 'n' :: ' ' :: 'm' :: 'e' :: 'z' :: 'z' :: 'o' :: s =>
      'm' :: 'e' :: 'z' :: 'z' :: 'o' :: unMezzo s
  | c :: s => c :: unMezzo s
  | [] => []

/-- `fraction_default = numerator + delete_space + insert_space +
(denominator_plural @ merge_into_single_word)`, required to consume the
whole remaining token text. -/
def fraction_default (s : Str) : List Str :=
  match numeratorF s with
  | none => []
  | some (w, r) =>
    (denominator_pluralF (dropSp r)).filterMap fun q =>
      if q.2 = [] then some (w ++ ' ' :: merge_into_single_word q.1) else none

/-- `fraction_with_one = numerator_one + delete_space + insert_space +
(denominator_singular @ merge_into_single_word)`, with the later
`@= cdrewrite(cross("un mezzo", "mezzo"))` composed in — the version used by
the masculine graph. -/
def fraction_with_one_masc (s : Str) : List Str :=
  match numerator_oneF s with
  | none => []
  | some r =>
    (denominator_singularF (dropSp r)).filterMap fun q =>
      if q.2 = [] then some (unMezzo ("un".toList ++ ' ' :: merge_into_single_word q.1))
      else none

/-- The branch later united into `fraction_with_one` for the feminine graph:
`pynutil.delete(numerator_one) + delete_space + (denominator_singular @
pynini.cross("mezzo", "mezza"))`. -/
def fraction_with_one_fem_extra (s : Str) : List Str :=
  match numerator_oneF s with
  | none => []
  | some r =>
    (denominator_singularF (dropSp r)).filterMap fun q =>
      if q.2 = [] ∧ q.1 = "mezzo".toList then some "mezza".toList else none

/-- Modelled from the spec: `shift_cardinal_gender` (`it/graph_utils.py` is
not among the sources) — "gender-shift rewrite (masculine→feminine surface
alternation, e.g. terminal `o`→`a`)", modelled as flipping a terminal `o`. -/
def shiftGender (s : Str) : Str :=
  match s.getLast? with
  | some 'o' => s.dropLast ++ ['a']
  | _ => s

/-- The branch later united into `fraction_default` for the feminine graph:
`shift_cardinal_gender(numerator) + delete_space + insert_space +
(denominator_plural @ pynini.cross("mezzo", "mezza"))`. -/
def fraction_default_fem_extra (s : Str) : List Str :=
  match numeratorF s with
  | none => []
  | some (w, r) =>
    (denominator_pluralF (dropSp r)).filterMap fun q =>
      if q.2 = [] ∧ q.1 = "mezzo".toList
      then some (shiftGender w ++ ' ' :: "mezza".toList) else none

/-- `fraction_with_cardinal = strip_cardinal_apocope(numerator |
numerator_one) + delete_space + pynutil.insert(" fratto ") +
strip_cardinal_apocope(denominator_cardinal)`. -/
def fraction_with_cardinal (s : Str) : List Str :=
  ((match numeratorF s with
    | none => []
    | some (w, r) => [(w, r)]) ++
   (match numerator_oneF s with
    | none => []
    | some r => [("un".toList, r)])).flatMap fun q =>
    match denominator_cardinalF (dropSp q.2) with
    | none => []
    | some (v, rest) =>
      if rest = [] then [stripApocope q.1 ++ " fratto ".toList ++ stripApocope v]
      else []

/-- `integer = pynutil.delete('integer_part: "') +
strip_cardinal_apocope(closure(NEMO_NOT_QUOTE)) + pynutil.delete('"')`. -/
def integerF (s : Str) : Option (Str × Str) :=
  match stripL "integer_part: \"".toList s with
  | none => none
  | some r =>
    let p := breakQ r
    match stripL "\"".toList p.2 with
    | none => none
    | some rest => some (stripApocope p.1, rest)

/-- `fraction = fraction_with_one | fraction_default | fraction_with_cardinal`
(the masculine versions, as read when `graph_masc` is built). -/
def fractionM (s : Str) : List Str :=
  fraction_with_one_masc s ++ fraction_default s ++ fraction_with_cardinal s

/-- `graph_masc = pynini.closure(integer + delete_space + conjunction, 0, 1)
+ fraction` with `conjunction = pynutil.insert(" e ")`. -/
def graph_masc (s : Str) : List Str :=
  fractionM s ++
    match integerF s with
    | none => []
    | some (i, r) => (fractionM (dropSp r)).map (fun o => i ++ " e ".toList ++ o)

/-- `fraction_fem = fraction_with_one | fraction_default |
fraction_with_cardinal`, read after the two `|=` updates added the feminine
branches. -/
def fractionF (s : Str) : List Str :=
  (fraction_with_one_masc s ++ fraction_with_one_fem_extra s) ++
    (fraction_default s ++ fraction_default_fem_extra s) ++
    fraction_with_cardinal s

/-- `graph_fem = pynini.closure(integer_fem + delete_space + conjunction, 0,
1) + fraction_fem` with `integer_fem = shift_cardinal_gender(integer)`. -/
def graph_fem (s : Str) : List Str :=
  fractionF s ++
    match integerF s with
    | none => []
    | some (i, r) =>
      (fractionF (dropSp r)).map (fun o => shiftGender i ++ " e ".toList ++ o)

/-- The one-half fraction token: numerator `un`, denominator `mezzo` tagged
as an ordinal-derived denominator. -/
def fracTokHalf : Str :=
  "numerator: \"un\" denominator: \"mezzo\" morphosyntactic_features: \"ordinal\"".toList

/-- C3: on the one-half token the masculine graph outputs exactly the single
irregular word `mezzo`, the feminine graph offers the alternation `mezza`,
and neither graph ever produces the two-word form `un mezzo`. -/
theorem C3_half_irregular :
    graph_masc fracTokHalf = ["mezzo".toList] ∧
    "mezza".toList ∈ graph_fem fracTokHalf ∧
    "un mezzo".toList ∉ graph_masc fracTokHalf ∧
    "un mezzo".toList ∉ graph_fem fracTokHalf := by decide

/-- A fraction token with numerator `un` and the ordinal denominator
`quinto`. -/
def fracTokSing : Str :=
  "numerator: \"un\" denominator: \"quinto\" morphosyntactic_features: \"ordinal\"".toList

/-- The same denominator with numerator `tre`. -/
def fracTokPl : Str :=
  "numerator: \"tre\" denominator: \"quinto\" morphosyntactic_features: \"ordinal\"".toList

/-- C4: the denominator `quinto` is accepted in singular form (numerator
`un` verbalizes to `un quinto`), but with numerator `tre` the same token has
no output at all — `denominator_plural = denominator_singular + plural`
places the deleted `o` after the features annotation on the input side — and
only the token extended with a stray literal `o` goes through the plural
branch, producing `tre quintoi` instead of the suffix substitution
`tre quinti`. -/
theorem C4_plural_misplaced :
    graph_masc fracTokSing = ["un quinto".toList] ∧
    graph_masc fracTokPl = [] ∧
    graph_fem fracTokPl = [] ∧
    graph_masc (fracTokPl ++ ['o']) = ["tre quintoi".toList] := by decide

/-- C5: the merge pipeline on a denominator with an internal conjunction
replaces the conjunction and deletes the internal spaces — including the
space before the classifier word `parte`, because
`pynini.difference(NEMO_CHAR, "parte")` subtracts a five-character string
from the set of single characters and so keeps every character. -/
theorem C5_merge_space_before_parte :
    merge_into_single_word "venti e tre parte".toList = "ventiitreparte".toList ∧
    ¬ " e ".toList <:+: merge_into_single_word "venti e tre parte".toList ∧
    (∀ c : Char, charNotParte c = true) :=
  ⟨by decide, by decide, charNotParte_true⟩

lemma stripL_cancel (a b c : Str) : stripL (a ++ b) (a ++ c) = stripL b c := by
  induction a with
  | nil => rfl
  | cons x a ih => simp [stripL, ih]

lemma stripL_mismatch {l w : Str} (t X : Str) (hl : '"' ∉ l) (hw : '"' ∉ w)
    (hne : w ≠ l) : stripL (l ++ '"' :: t) (w ++ '"' :: X) = none := by
  induction l generalizing w with
  | nil =>
    cases w with
    | nil => exact absurd rfl hne
    | cons c w2 =>
      simp only [List.mem_cons, not_or] at hw
      simp [stripL, hw.1]
  | cons a l2 ih =>
    simp only [List.mem_cons, not_or] at hl
    cases w with
    | nil =>
      have ha : ¬ a = '"' := fun h => hl.1 h.symm
      simp [stripL, ha]
    | cons c w2 =>
      simp only [List.mem_cons, not_or] at hw
      by_cases hac : a = c
      · subst hac
        simp only [List.cons_append, stripL, if_pos rfl]
        exact ih hl.2 hw.2 (fun he => hne (by rw [he]))
      · simp [stripL, hac]

lemma numerator_oneF_none {w : Str} (X : Str) (hw : '"' ∉ w)
    (hne : w ≠ "un".toList) :
    numerator_oneF ("numerator: \"".toList ++ (w ++ '"' :: X)) = none := by
  unfold numerator_oneF
  have hlit : "numerator: \"un\" ".toList
      = "numerator: \"".toList ++ ("un".toList ++ '"' :: ' ' :: []) := rfl
  rw [hlit, stripL_cancel]
  exact stripL_mismatch _ _ (by decide) hw hne

lemma numeratorF_canon {w : Str} (X : Str) (hw : '"' ∉ w)
    (hne : w ≠ "un".toList) :
    numeratorF ("numerator: \"".toList ++ (w ++ '"' :: ' ' :: X)) = some (w, X) := by
  unfold numeratorF
  rw [stripL_self_append]
  simp only [breakQ_append hw]
  rw [if_neg hne]
  rfl

lemma denominator_cardinal_canon {v : Str} (X : Str) (hv : '"' ∉ v) :
    denominator_cardinalF ("denominator: \"".toList ++ (v ++ '"' :: X))
      = some (v, X) := by
  unfold denominator_cardinalF
  rw [stripL_self_append]
  simp only [breakQ_append hv]
  rfl

/-- A bare-cardinal fraction token: numerator and denominator fields with no
features annotation. -/
def cardTok (w v : Str) : Str :=
  "numerator: \"".toList ++
    (w ++ ('"' :: ' ' :: ("denominator: \"".toList ++ (v ++ ['"']))))

/-- C8: the apocope-stripping rewrite fires only before a noun-like
continuation (witnessed by the closed conjunct), and it does not touch a
numerator standing alone as the full numerator: the bare-cardinal fraction
branch verbalizes the token to `<numerator> fratto <denominator>` with the
numerator's final vowel intact. -/
theorem C8_numerator_keeps_final_vowel :
    (∀ w v : Str, '"' ∉ w → ' ' ∉ w → w ≠ "un".toList → '"' ∉ v → ' ' ∉ v →
      fraction_with_cardinal (cardTok w v)
        = [w ++ " fratto ".toList ++ v]) ∧
    stripApocope "uno quinti".toList = "un quinti".toList := by
  refine ⟨?_, by decide⟩
  intro w v hwq hws hwu hvq hvs
  unfold fraction_with_cardinal cardTok
  rw [numeratorF_canon _ hwq hwu]
  rw [numerator_oneF_none _ hwq hwu]
  have hds : dropSp ("denominator: \"".toList ++ (v ++ ['"']))
      = "denominator: \"".toList ++ (v ++ ['"']) := dropSp_cons_of_ne (by decide) _
  simp only [List.append_nil, List.flatMap_cons, List.flatMap_nil, hds]
  rw [denominator_cardinal_canon _ hvq]
  simp only [if_pos rfl]
  rw [stripApocope_of_no_space hws, stripApocope_of_no_space hvs]
  simp

/-- Witness for C8 at concrete inputs. -/
theorem C8_numerator_keeps_final_vowel_witness :
    fraction_with_cardinal (cardTok "uno".toList "tre".toList)
      = ["uno".toList ++ " fratto ".toList ++ "tre".toList] :=
  C8_numerator_keeps_final_vowel.1 "uno".toList "tre".toList
    (by decide) (by decide) (by decide) (by decide) (by decide)

/-! ### Ordinal classifier (`taggers/ordinal.py`)

The lexical tables (`data/ordinals/*.tsv`, loaded and inverted at module
level) and the cardinal grammar are not among the sources; following the
spec (§2, §9: the tables are closed vocabulary "sourced from an equivalent
lexical dataset", the cardinal grammar is a pre-built digit-string →
cardinal-text transducer), they are modelled here with a concrete Italian
vocabulary whose shapes match the combinators of `taggers/ordinal.py`
(hundreds separated by a space from the tens part, tens built by
concatenating a ties word with a digit word, thousands written as
`<cardinal 1..999> mille`). -/

/-- Modelled from the spec: cardinal spelling of a digit 1..9. -/
def digitW (n : ℕ) : Str :=
  if n = 1 then "uno".toList
  else if n = 2 then "due".toList
  else if n = 3 then "tre".toList
  else if n = 4 then "quattro".toList
  else if n = 5 then "cinque".toList
  else if n = 6 then "sei".toList
  else if n = 7 then "sette".toList
  else if n = 8 then "otto".toList
  else if n = 9 then "nove".toList
  else []

/-- Modelled from the spec: cardinal spelling of 10..19. -/
def teensW (n : ℕ) : Str :=
  if n = 10 then "dieci".toList
  else if n = 11 then "undici".toList
  else if n = 12 then "dodici".toList
  else if n = 13 then "tredici".toList
  else if n = 14 then "quattordici".toList
  else if n = 15 then "quindici".toList
  else if n = 16 then "sedici".toList
  else if n = 17 then "diciassette".toList
  else if n = 18 then "diciotto".toList
  else if n = 19 then "diciannove".toList
  else []

/-- Modelled from the spec: cardinal spelling of 20..29 (fused words). -/
def twentiesW (n : ℕ) : Str :=
  if n = 20 then "venti".toList
  else if n = 21 then "ventuno".toList
  else if n = 22 then "ventidue".toList
  else if n = 23 then "ventitre".toList
  else if n = 24 then "ventiquattro".toList
  else if n = 25 then "venticinque".toList
  else if n = 26 then "ventisei".toList
  else if n = 27 then "ventisette".toList
  else if n = 28 then "ventotto".toList
  else if n = 29 then "ventinove".toList
  else []

/-- Modelled from the spec: cardinal spelling of the tens words 30..90. -/
def tiesW (n : ℕ) : Str :=
  if n = 3 then "trenta".toList
  else if n = 4 then "quaranta".toList
  else if n = 5 then "cinquanta".toList
  else if n = 6 then "sessanta".toList
  else if n = 7 then "settanta".toList
  else if n = 8 then "ottanta".toList
  else if n = 9 then "novanta".toList
  else []

/-- Modelled from the spec: cardinal spelling of the hundreds words. -/
def hundredsW (n : ℕ) : Str :=
  if n = 1 then "cento".toList
  else if n = 2 then "duecento".toList
  else if n = 3 then "trecento".toList
  else if n = 4 then "quattrocento".toList
  else if n = 5 then "cinquecento".toList
  else if n = 6 then "seicento".toList
  else if n = 7 then "settecento".toList
  else if n = 8 then "ottocento".toList
  else if n = 9 then "novecento".toList
  else []

/-- Modelled from the spec: ordinal spelling of a digit 1..9. -/
def digitO (n : ℕ) : Str :=
  if n = 1 then "primo".toList
  else if n = 2 then "secondo".toList
  else if n = 3 then "terzo".toList
  else if n = 4 then "quarto".toList
  else if n = 5 then "quinto".toList
  else if n = 6 then "sesto".toList
  else if n = 7 then "settimo".toList
  else if n = 8 then "ottavo".toList
  else if n = 9 then "nono".toList
  else []

/-- Modelled from the spec: ordinal spelling of 10..19. -/
def teensO (n : ℕ) : Str :=
  if n = 10 then "decimo".toList
  else if n = 11 then "undicesimo".toList
  else if n = 12 then "dodicesimo".toList
  else if n = 13 then "tredicesimo".toList
  else if n = 14 then "quattordicesimo".toList
  else if n = 15 then "quindicesimo".toList
  else if n = 16 then "sedicesimo".toList
  else if n = 17 then "diciassettesimo".toList
  else if n = 18 then "diciottesimo".toList
  else if n = 19 then "diciannovesimo".toList
  else []

/-- Modelled from the spec: ordinal spelling of 20..29. -/
def twentiesO (n : ℕ) : Str :=
  if n = 20 then "ventesimo".toList
  else if n = 21 then "ventunesimo".toList
  else if n = 22 then "ventiduesimo".toList
  else if n = 23 then "ventitreesimo".toList
  else if n = 24 then "ventiquattresimo".toList
  else if n = 25 then "venticinquesimo".toList
  else if n = 26 then "ventiseiesimo".toList
  else if n = 27 then "ventisettesimo".toList
  else if n = 28 then "ventottesimo".toList
  else if n = 29 then "ventinovesimo".toList
  else []

/-- Modelled from the spec: ordinal spelling of the tens words 30..90. -/
def tiesO (n : ℕ) : Str :=
  if n = 3 then "trentesimo".toList
  else if n = 4 then "quarantesimo".toList
  else if n = 5 then "cinquantesimo".toList
  else if n = 6 then "sessantesimo".toList
  else if n = 7 then "settantesimo".toList
  else if n = 8 then "ottantesimo".toList
  else if n = 9 then "novantesimo".toList
  else []

/-- Modelled from the spec: ordinal spelling of the hundreds words. -/
def hundredsO (n : ℕ) : Str :=
  if n = 1 then "centesimo".toList
  else if n = 2 then "duecentesimo".toList
  else if n = 3 then "trecentesimo".toList
  else if n = 4 then "quattrocentesimo".toList
  else if n = 5 then "cinquecentesimo".toList
  else if n = 6 then "seicentesimo".toList
  else if n = 7 then "settecentesimo".toList
  else if n = 8 then "ottocentesimo".toList
  else if n = 9 then "novecentesimo".toList
  else []

/-- Modelled from the spec: `digit = pynini.invert(string_file(digit.tsv))`,
the inverted lexical table mapping a cardinal digit word to its ordinal. -/
def digitT : List (Str × Str) :=
  [("uno".toList, "primo".toList),
   ("due".toList, "secondo".toList),
   ("tre".toList, "terzo".toList),
   ("quattro".toList, "quarto".toList),
   ("cinque".toList, "quinto".toList),
   ("sei".toList, "sesto".toList),
   ("sette".toList, "settimo".toList),
   ("otto".toList, "ottavo".toList),
   ("nove".toList, "nono".toList)]

/-- Modelled from the spec: the inverted `teen.tsv` table. -/
def teensT : List (Str × Str) :=
  [("dieci".toList, "decimo".toList),
   ("undici".toList, "undicesimo".toList),
   ("dodici".toList, "dodicesimo".toList),
   ("tredici".toList, "tredicesimo".toList),
   ("quattordici".toList, "quattordicesimo".toList),
   ("quindici".toList, "quindicesimo".toList),
   ("sedici".toList, "sedicesimo".toList),
   ("diciassette".toList, "diciassettesimo".toList),
   ("diciotto".toList, "diciottesimo".toList),
   ("diciannove".toList, "diciannovesimo".toList)]

/-- Modelled from the spec: the inverted `twenties.tsv` table. -/
def twentiesT : List (Str × Str) :=
  [("venti".toList, "ventesimo".toList),
   ("ventuno".toList, "ventunesimo".toList),
   ("ventidue".toList, "ventiduesimo".toList),
   ("ventitre".toList, "ventitreesimo".toList),
   ("ventiquattro".toList, "ventiquattresimo".toList),
   ("venticinque".toList, "venticinquesimo".toList),
   ("ventisei".toList, "ventiseiesimo".toList),
   ("ventisette".toList, "ventisettesimo".toList),
   ("ventotto".toList, "ventottesimo".toList),
   ("ventinove".toList, "ventinovesimo".toList)]

/-- Modelled from the spec: the inverted `ties.tsv` table (30..90). -/
def tiesT : List (Str × Str) :=
  [("trenta".toList, "trentesimo".toList),
   ("quaranta".toList, "quarantesimo".toList),
   ("cinquanta".toList, "cinquantesimo".toList),
   ("sessanta".toList, "sessantesimo".toList),
   ("settanta".toList, "settantesimo".toList),
   ("ottanta".toList, "ottantesimo".toList),
   ("novanta".toList, "novantesimo".toList)]

/-- Modelled from the spec: the inverted `hundreds.tsv` table. -/
def hundredsT : List (Str × Str) :=
  [("cento".toList, "centesimo".toList),
   ("duecento".toList, "duecentesimo".toList),
   ("trecento".toList, "trecentesimo".toList),
   ("quattrocento".toList, "quattrocentesimo".toList),
   ("cinquecento".toList, "cinquecentesimo".toList),
   ("seicento".toList, "seicentesimo".toList),
   ("settecento".toList, "settecentesimo".toList),
   ("ottocento".toList, "ottocentesimo".toList),
   ("novecento".toList, "novecentesimo".toList)]

/-- Modelled from the spec: the cardinal text of 1..99. -/
def cardTens (r : ℕ) : Str :=
  if r < 10 then digitW r
  else if r < 20 then teensW r
  else if r < 30 then twentiesW r
  else tiesW (r / 10) ++ (if r % 10 = 0 then [] else digitW (r % 10))

/-- Modelled from the spec: the cardinal text of 1..999. -/
def cardHund (h : ℕ) : Str :=
  if h < 100 then cardTens h
  else hundredsW (h / 100) ++ (if h % 100 = 0 then [] else ' ' :: cardTens (h % 100))

/-- Modelled from the spec: the cardinal text of 1..999,999. -/
def cardUnder1M (n : ℕ) : Str :=
  if n < 1000 then cardHund n
  else
    (if n / 1000 = 1 then "mille".toList else cardHund (n / 1000) ++ (' ' :: "mille".toList)) ++
      (if n % 1000 = 0 then [] else ' ' :: cardHund (n % 1000))

/-- Modelled from the spec: the cardinal text, with a `milione`/`milioni`
word for the millions (the modelled cardinal covers 0..999,999,999). -/
def cardText (n : ℕ) : Str :=
  if n = 0 then "zero".toList
  else if n < 1000000 then cardUnder1M n
  else
    (if n / 1000000 = 1 then "un".toList else cardHund (n / 1000000)) ++
      ((' ' :: 'm' :: 'i' :: 'l' :: 'i' :: 'o' :: []) ++
        ((if n / 1000000 = 1 then "ne".toList else "ni".toList) ++
          (if n % 1000000 = 0 then [] else ' ' :: cardUnder1M (n % 1000000))))

/-- The numeric value of a digit character (codes 48..57). -/
def digitVal (c : Char) : Option ℕ :=
  if 48 ≤ c.toNat ∧ c.toNat ≤ 57 then some (c.toNat - 48) else none

/-- Left fold of a digit string onto an accumulator. -/
def parseDigitsAux : Str → ℕ → Option ℕ
  | [], acc => some acc
  | c :: s, acc =>
    match digitVal c with
    | none => none
    | some d => parseDigitsAux s (acc * 10 + d)

/-- Canonical digit-string reading: nonempty, decimal digits only, no
leading zero (except the string `0` itself). -/
def parseDigits : Str → Option ℕ
  | [] => none
  | c :: rest =>
    if c = '0' ∧ rest ≠ [] then none
    else
      match digitVal c with
      | none => none
      | some d => parseDigitsAux rest d

/-- Modelled from the spec: the pre-built cardinal grammar (`CardinalFst`,
not among the sources), "a transducer from a digit-string (e.g. `123`) to
its verbalized cardinal text ... total over the supported numeric range";
the modelled range is 0..999,999,999. -/
def cardinal_graph (s : Str) : Option Str :=
  (parseDigits s).bind fun n => if n < 1000000000 then some (cardText n) else none

/-- All split points of a string: the input-side decompositions considered
by transducer concatenation. -/
def splitsL (s : Str) : List (Str × Str) :=
  (List.range (s.length + 1)).map fun k => (s.take k, s.drop k)

/-- A `pynini.string_file` acceptor applied to a whole input: every table
value whose key equals the input. -/
def lookupT (tbl : List (Str × Str)) (s : Str) : List Str :=
  tbl.filterMap fun p => if eqS p.1 s then some p.2 else none

/-- `graph_tens_component = graph_teens | (graph_ties +
pynini.closure(graph_digit, 0, 1)) | graph_twenties`. -/
def graph_tens_component (s : Str) : List Str :=
  lookupT teensT s ++
    ((splitsL s).flatMap fun q =>
      (lookupT tiesT q.1).flatMap fun oa =>
        if q.2 = [] then [oa] else (lookupT digitT q.2).map fun ob => oa ++ ob) ++
    lookupT twentiesT s

/-- The optional remainder of the hundreds branch:
`pynini.closure(NEMO_SPACE + pynini.union(graph_tens_component, graph_digit),
0, 1)` (`NEMO_SPACE` accepts and keeps the space). -/
def hundredSuffix (oa : Str) : Str → List Str
  | [] => [oa]
  | c :: b =>
    if c = ' '
    then (graph_tens_component b ++ lookupT digitT b).map fun ob => oa ++ ' ' :: ob
    else []

/-- `graph_hundred_component = pynini.union(graph_hundreds + closure(...),
graph_tens_component, graph_digit)`. -/
def graph_hundred_component (s : Str) : List Str :=
  ((splitsL s).flatMap fun q =>
    (lookupT hundredsT q.1).flatMap fun oa => hundredSuffix oa q.2) ++
    graph_tens_component s ++ lookupT digitT s

/-- `self.one_to_one_thousand = get_one_to_one_thousand(cardinal_graph)`:
the verbalized cardinals of 1..999 (`pynini.string_map(range(1, 1000)) @
cardinal`, output projection). -/
def one_to_one_thousand : List Str := (List.range 999).map fun k => cardHund (k + 1)

/-- Modelled from the spec: `strip_accent` (`it/graph_utils.py` is not among
the sources) — "contextual rewrite removing diacritics from vowels". -/
def stripAccentChar (c : Char) : Char :=
  match accentPlain c with
  | some p => p
  | none => c

/-- See `stripAccentChar`. -/
def stripAccent (s : Str) : Str := s.map stripAccentChar

/-- The composed rewrite `pynini.cdrewrite(delete_space, "", "millesimo",
NEMO_SIGMA)`: a run of spaces directly before `millesimo` is deleted. -/
def delSpM : Str → Str
  | [] => []
  | c :: s =>
    if c = ' ' ∧ isPre "millesimo".toList (dropSp s) then delSpM s
    else c :: delSpM s

/-- `graph_thousands = strip_accent(one_to_one_thousand) + NEMO_SPACE +
pynini.cross("mille", "millesimo")`, composed with the space-deleting
rewrite (`graph_thousands @= cdrewrite(delete_space, "", "millesimo",
NEMO_SIGMA)`). -/
def graph_thousands_A (s : Str) : List Str :=
  (splitsL s).flatMap fun q =>
    if elemS q.1 one_to_one_thousand && eqS q.2 (' ' :: "mille".toList)
    then [delSpM (stripAccent q.1 ++ ' ' :: "millesimo".toList)]
    else []

/-- `graph_thousands |= thousands` (the bare `mille` → `millesimo` branch),
deterministic core before the optional hundreds remainder. -/
def graph_thousands_det_core (s : Str) : List Str :=
  graph_thousands_A s ++ (if eqS s "mille".toList then ["millesimo".toList] else [])

/-- The non-deterministic addition: `graph_thousands |=
(one_to_one_thousand @ graph_hundred_component) + NEMO_SPACE + thousands`. -/
def graph_thousands_nondet_extra (s : Str) : List Str :=
  (splitsL s).flatMap fun q =>
    if elemS q.1 one_to_one_thousand && eqS q.2 (' ' :: "mille".toList)
    then (graph_hundred_component q.1).map fun o => o ++ ' ' :: "millesimo".toList
    else []

/-- The optional hundreds remainder appended to `graph_thousands`
(`graph_thousands += pynini.closure(NEMO_SPACE + graph_hundred_component,
0, 1)`). -/
def hundredRemainder (oa : Str) : Str → List Str
  | [] => [oa]
  | c :: b =>
    if c = ' ' then (graph_hundred_component b).map fun ob => oa ++ ' ' :: ob
    else []

/-- Concatenation of a thousands core with the optional remainder. -/
def thousandsWithRemainder (core : Str → List Str) (s : Str) : List Str :=
  (splitsL s).flatMap fun q => (core q.1).flatMap fun oa => hundredRemainder oa q.2

/-- The deterministic `graph_thousands`. -/
def graph_thousands_det (s : Str) : List Str :=
  thousandsWithRemainder graph_thousands_det_core s

/-- The non-deterministic `graph_thousands`. -/
def graph_thousands_nondet (s : Str) : List Str :=
  thousandsWithRemainder
    (fun x => graph_thousands_det_core x ++ graph_thousands_nondet_extra x) s

/-- The final targeted deletion `ordinal_graph @=
pynini.cdrewrite(pynutil.delete("o"), "", "ottavo", NEMO_SIGMA)`. -/
def elideO : Str → Str
  | [] => []
  | c :: s =>
    if c = 'o' ∧ isPre "ottavo".toList s then elideO s else c :: elideO s

/-- The non-deterministic two-word variants: `split_words =
pynini.cdrewrite(cross("decimo", "decimo ") | cross("ventesimo",
"ventesimo "), "", NEMO_CHAR, NEMO_SIGMA)`. -/
def splitWords : Str → Str
  | 'd' :: 'e' :: 'c' :: 'i' :: 'm' :: 'o' :: c :: s =>
      'd' :: 'e' :: 'c' :: 'i' :: 'm' :: 'o' :: ' ' :: splitWords (c :: s)
  | 'v' :: 'e' :: 'n' :: 't' :: 'e' :: 's' :: 'i' :: 'm' :: 'o' :: c :: s =>
      'v' :: 'e' :: 'n' :: 't' :: 'e' :: 's' :: 'i' :: 'm' :: 'o' :: ' ' :: splitWords (c :: s)
  | c :: s => c :: splitWords s
  | [] => []

/-- Deterministic `ordinal_graph = cardinal_graph @ (graph_thousands |
graph_hundred_component)`, composed with the `ottavo` elision. -/
def ordinalDet (s : Str) : List Str :=
  match cardinal_graph s with
  | none => []
  | some c => ((graph_thousands_det c ++ graph_hundred_component c).map elideO)

/-- Non-deterministic `ordinal_graph`, with the `split_words` alternative
(`ordinal_graph |= ordinal_graph @ split_words`) before the elision. -/
def ordinalNondet (s : Str) : List Str :=
  match cardinal_graph s with
  | none => []
  | some c =>
    ((graph_thousands_nondet c ++ graph_hundred_component c) ++
      (graph_thousands_nondet c ++ graph_hundred_component c).map splitWords).map elideO

/-- The expected deterministic ordinal text before the `ottavo` elision. -/
def ordTensExp (r : ℕ) : Str :=
  if r < 10 then digitO r
  else if r < 20 then teensO r
  else if r < 30 then twentiesO r
  else tiesO (r / 10) ++ (if r % 10 = 0 then [] else digitO (r % 10))

/-- The expected hundred-component output for 1..999 (pre-elision). -/
def ordHundExp (h : ℕ) : Str :=
  if h < 100 then ordTensExp h
  else hundredsO (h / 100) ++ (if h % 100 = 0 then [] else ' ' :: ordTensExp (h % 100))

/-- The expected thousands prefix output for a thousands count 1..999. -/
def thouText (t : ℕ) : Str :=
  if t = 1 then "millesimo".toList
  else stripAccent (cardHund t) ++ "millesimo".toList

/-- The expected assembled ordinal text (pre-elision) for 1..999,999. -/
def ordAsm (n : ℕ) : Str :=
  if n < 1000 then ordHundExp n
  else thouText (n / 1000) ++ (if n % 1000 = 0 then [] else ' ' :: ordHundExp (n % 1000))

/-- The expected deterministic ordinal output for 1..999,999. -/
def ordExp (n : ℕ) : Str := elideO (ordAsm n)


/-! ### Proof tooling: scans, decoders and bulk-verified facts for the
ordinal grammar -/

/-- Boolean test that a character does not occur in a string. -/
def cfree (c : Char) : Str → Bool
  | [] => true
  | d :: s => !(ceq c d) && cfree c s

/-- Boolean substring (infix) test. -/
def hasInfix (p : Str) : Str → Bool
  | [] => isPre p []
  | c :: t => isPre p (c :: t) || hasInfix p t

/-- Locate the first occurrence of `millesimo` in a string: the text before
it and the text after it. -/
def findMille : Str → Option (Str × Str)
  | [] => none
  | c :: s =>
    if isPre "millesimo".toList (c :: s) then some ([], (c :: s).drop 9)
    else (findMille s).map fun q => (c :: q.1, q.2)

/-- Look a string up in a word/value table. -/
def lookV (tbl : List (Str × ℕ)) (s : Str) : Option ℕ :=
  (tbl.find? fun p => eqS p.1 s).map fun p => p.2

/-- The ordinal digit words with their values. -/
def digitOV : List (Str × ℕ) :=
  [("primo".toList, 1), ("secondo".toList, 2), ("terzo".toList, 3),
   ("quarto".toList, 4), ("quinto".toList, 5), ("sesto".toList, 6),
   ("settimo".toList, 7), ("ottavo".toList, 8), ("nono".toList, 9)]

/-- The ordinal teen words with their values. -/
def teensOV : List (Str × ℕ) :=
  [("decimo".toList, 10), ("undicesimo".toList, 11), ("dodicesimo".toList, 12),
   ("tredicesimo".toList, 13), ("quattordicesimo".toList, 14),
   ("quindicesimo".toList, 15), ("sedicesimo".toList, 16),
   ("diciassettesimo".toList, 17), ("diciottesimo".toList, 18),
   ("diciannovesimo".toList, 19)]

/-- The ordinal twenties words with their values. -/
def twentiesOV : List (Str × ℕ) :=
  [("ventesimo".toList, 20), ("ventunesimo".toList, 21),
   ("ventiduesimo".toList, 22), ("ventitreesimo".toList, 23),
   ("ventiquattresimo".toList, 24), ("venticinquesimo".toList, 25),
   ("ventiseiesimo".toList, 26), ("ventisettesimo".toList, 27),
   ("ventottesimo".toList, 28), ("ventinovesimo".toList, 29)]

/-- The ordinal tens words with their values. -/
def tiesOV : List (Str × ℕ) :=
  [("trentesimo".toList, 30), ("quarantesimo".toList, 40),
   ("cinquantesimo".toList, 50), ("sessantesimo".toList, 60),
   ("settantesimo".toList, 70), ("ottantesimo".toList, 80),
   ("novantesimo".toList, 90)]

/-- The ordinal hundreds words with their values. -/
def hundredsOV : List (Str × ℕ) :=
  [("centesimo".toList, 100), ("duecentesimo".toList, 200),
   ("trecentesimo".toList, 300), ("quattrocentesimo".toList, 400),
   ("cinquecentesimo".toList, 500), ("seicentesimo".toList, 600),
   ("settecentesimo".toList, 700), ("ottocentesimo".toList, 800),
   ("novecentesimo".toList, 900)]

/-- Decode a tens-plus-digit ordinal word (`trentesimoprimo` style, with the
`ottavo` elision already applied). -/
def decodeTiesDigit (s : Str) : Option ℕ :=
  tiesOV.findSome? fun p =>
    if eqS p.1 s then some p.2
    else
      match stripL p.1.dropLast s with
      | some rest =>
        if eqS rest "ottavo".toList then some (p.2 + 8)
        else
          match rest with
          | 'o' :: w => (lookV digitOV w).map (p.2 + ·)
          | _ => none
      | none => none

/-- Decode an elided tens-range ordinal word (values 10..99). -/
def decodeTensE (s : Str) : Option ℕ :=
  match lookV teensOV s with
  | some v => some v
  | none =>
    match lookV twentiesOV s with
    | some v => some v
    | none => decodeTiesDigit s

/-- Decode an elided tens-or-digit ordinal word (values 1..99). -/
def decodeTD (s : Str) : Option ℕ :=
  match decodeTensE s with
  | some v => some v
  | none => lookV digitOV s

/-- Decode an elided hundred-component ordinal text (values 1..999). -/
def decodeHundE (s : Str) : Option ℕ :=
  match decodeTD s with
  | some v => some v
  | none =>
    hundredsOV.findSome? fun p =>
      if eqS p.1 s then some p.2
      else
        match stripL (p.1 ++ [' ']) s with
        | some rest => (decodeTD rest).map (p.2 + ·)
        | none => none

/-- The cardinal digit words with their values. -/
def digitWV : List (Str × ℕ) :=
  [("uno".toList, 1), ("due".toList, 2), ("tre".toList, 3),
   ("quattro".toList, 4), ("cinque".toList, 5), ("sei".toList, 6),
   ("sette".toList, 7), ("otto".toList, 8), ("nove".toList, 9)]

/-- The cardinal teen words with their values. -/
def teensWV : List (Str × ℕ) :=
  [("dieci".toList, 10), ("undici".toList, 11), ("dodici".toList, 12),
   ("tredici".toList, 13), ("quattordici".toList, 14),
   ("quindici".toList, 15), ("sedici".toList, 16),
   ("diciassette".toList, 17), ("diciotto".toList, 18),
   ("diciannove".toList, 19)]

/-- The cardinal twenties words with their values. -/
def twentiesWV : List (Str × ℕ) :=
  [("venti".toList, 20), ("ventuno".toList, 21), ("ventidue".toList, 22),
   ("ventitre".toList, 23), ("ventiquattro".toList, 24),
   ("venticinque".toList, 25), ("ventisei".toList, 26),
   ("ventisette".toList, 27), ("ventotto".toList, 28),
   ("ventinove".toList, 29)]

/-- The cardinal tens words with their values. -/
def tiesWV : List (Str × ℕ) :=
  [("trenta".toList, 30), ("quaranta".toList, 40), ("cinquanta".toList, 50),
   ("sessanta".toList, 60), ("settanta".toList, 70), ("ottanta".toList, 80),
   ("novanta".toList, 90)]

/-- The cardinal hundreds words with their values. -/
def hundredsWV : List (Str × ℕ) :=
  [("cento".toList, 100), ("duecento".toList, 200), ("trecento".toList, 300),
   ("quattrocento".toList, 400), ("cinquecento".toList, 500),
   ("seicento".toList, 600), ("settecento".toList, 700),
   ("ottocento".toList, 800), ("novecento".toList, 900)]

/-- Decode a cardinal text of value 1..99. -/
def decodeCardT (s : Str) : Option ℕ :=
  match lookV digitWV s with
  | some v => some v
  | none =>
    match lookV teensWV s with
    | some v => some v
    | none =>
      match lookV twentiesWV s with
      | some v => some v
      | none =>
        tiesWV.findSome? fun p =>
          if eqS p.1 s then some p.2
          else
            match stripL p.1 s with
            | some rest => (lookV digitWV rest).map (p.2 + ·)
            | none => none

/-- Decode a cardinal text of value 1..999. -/
def decodeCardHund (s : Str) : Option ℕ :=
  match decodeCardT s with
  | some v => some v
  | none =>
    hundredsWV.findSome? fun p =>
      if eqS p.1 s then some p.2
      else
        match stripL (p.1 ++ [' ']) s with
        | some rest => (decodeCardT rest).map (p.2 + ·)
        | none => none

/-- Per-item content of the bulk check `bTens`: the tens component united
with the digit table is a single-output parse of `cardTens r` yielding
`ordTensExp r`, and no hundreds key is a prefix of `cardTens r`. -/
def bTensItem (s : Str) (e : Str) : Bool :=
  eqS (graph_tens_component s ++ lookupT digitT s).flatten e &&
    ((graph_tens_component s ++ lookupT digitT s).length == 1) &&
    hundredsT.all (fun p => !(isPre p.1 s))

/-- Bulk check over 1..99: see `bTensItem`. -/
def bTens : Bool :=
  (List.range 99).all fun k => bTensItem (cardTens (k + 1)) (ordTensExp (k + 1))

/-- Per-item content of the bulk check `bCT` (at `w = cardTens r`): the
cardinal texts of 1..99 are single space-free quote-free `l`-free nonempty
accent-stable words without the `oottavo` pattern, and the cardinal decoder
recovers their value. -/
def bCTItem (w : Str) (v : ℕ) : Bool :=
  cfree 'l' w && cfree ' ' w && cfree '"' w && !(eqS w []) &&
    eqS (stripAccent w) w && !(hasInfix "oottavo".toList w) &&
    (decodeCardT w == some v)

/-- Bulk check over 1..99: see `bCTItem`. -/
def bCT : Bool := (List.range 99).all fun k => bCTItem (cardTens (k + 1)) (k + 1)

/-- Per-item content of the bulk check `bOT` (at `e = elideO (ordTensExp r)`):
the elided tens-level ordinal texts of 1..99 are space-free, quote-free,
`l`-free, without the `oottavo` pattern, and both decoders recover their
value. -/
def bOTItem (e : Str) (v : ℕ) : Bool :=
  (decodeHundE e == some v) && (decodeTD e == some v) &&
    cfree 'l' e && cfree ' ' e && cfree '"' e &&
    !(hasInfix "oottavo".toList e)

/-- Bulk check over 1..99: see `bOTItem`. -/
def bOT : Bool :=
  (List.range 99).all fun k => bOTItem (elideO (ordTensExp (k + 1))) (k + 1)

/-- Per-item facts about the hundreds words (cardinal `w`, ordinal `o`):
free of `l`, space, quote and the `oottavo` pattern, accent-stable,
nonempty, rejected by the tens-level decoders, and hit exactly by their own
entry of the value tables. -/
def bHWItem (w o : Str) (v : ℕ) : Bool :=
  cfree 'l' w && cfree ' ' w && cfree '"' w && !(eqS w []) &&
    eqS (stripAccent w) w && !(hasInfix "oottavo".toList w) &&
    cfree 'l' o && cfree ' ' o && cfree '"' o && !(eqS o []) &&
    !(hasInfix "oottavo".toList o) &&
    (decodeCardT w == none) && (decodeTD o == none) &&
    (lookV hundredsWV w == some v) && (lookV hundredsOV o == some v)

/-- Bulk check over the nine hundreds words: see `bHWItem`. -/
def bHW : Bool :=
  (List.range 9).all fun k =>
    bHWItem (hundredsW (k + 1)) (hundredsO (k + 1)) (100 * (k + 1))

lemma bTens_true : bTens = true := by decide

lemma bCT_true : bCT = true := by decide

lemma bOT_true : bOT = true := by decide

lemma bHW_true : bHW = true := by decide


/-! ### Generic facts about the scanning helpers -/

lemma ceq_eq_false {a b : Char} : ceq a b = false ↔ ¬ a = b := by
  constructor
  · intro h hab
    subst hab
    simp [ceq] at h
  · intro h
    by_contra hc
    exact h (ceq_iff.mp (by revert hc; cases ceq a b <;> simp))

/-- The head and tail content of `cfree` on a cons cell. -/
lemma cfree_head {c a : Char} {p : Str} (hp : cfree c (a :: p) = true) :
    ceq a c = false ∧ cfree c p = true := by
  have h1 : (!(ceq c a)) = true ∧ cfree c p = true := Bool.and_eq_true .. ▸ hp
  refine ⟨?_, h1.2⟩
  have h2 : ceq c a = false := by have := h1.1; revert this; cases ceq c a <;> simp
  exact ceq_eq_false.mpr fun h => (ceq_eq_false.mp h2) h.symm

lemma cfree_iff : ∀ {c : Char} {s : Str}, cfree c s = true ↔ c ∉ s := by
  intro c s
  induction s with
  | nil => simp [cfree]
  | cons d t ih =>
    simp [cfree, Bool.and_eq_true, Bool.not_eq_true', ceq_eq_false, ih, not_or]

lemma cfree_append {c : Char} (a b : Str) :
    cfree c (a ++ b) = (cfree c a && cfree c b) := by
  induction a with
  | nil => simp [cfree]
  | cons d t ih => simp [cfree, ih, Bool.and_assoc]

lemma count_zero_of_cfree {c : Char} {s : Str} (h : cfree c s = true) :
    s.count c = 0 :=
  List.count_eq_zero.mpr (fun hm => (cfree_iff.mp h) hm)

lemma exists_of_flatMap_ne_nil {α β : Type} {l : List α} {F : α → List β}
    (h : l.flatMap F ≠ []) : ∃ x ∈ l, F x ≠ [] := by
  by_contra hc
  push_neg at hc
  exact h (List.flatMap_eq_nil_iff.mpr hc)

lemma flatMap_map_eq {α β γ : Type} (g : α → β) (F : β → List γ) :
    ∀ l : List α, (l.map g).flatMap F = l.flatMap fun x => F (g x)
  | [] => rfl
  | x :: t => by
    simp only [List.map_cons, List.flatMap_cons, flatMap_map_eq g F t]

lemma range_flatMap_single {β : Type} {n j : ℕ} {F : ℕ → List β}
    (hk : j < n) (hu : ∀ k, k < n → k ≠ j → F k = []) :
    (List.range n).flatMap F = F j := by
  induction n with
  | zero => omega
  | succ m ih =>
    rw [List.range_succ, List.flatMap_append]
    rcases Nat.lt_succ_iff_lt_or_eq.mp hk with h | h
    · rw [ih h (fun k hk2 hne => hu k (Nat.lt_succ_of_lt hk2) hne)]
      simp [hu m (Nat.lt_succ_self m) (by omega)]
    · subst h
      rw [List.flatMap_eq_nil_iff.mpr (fun k hk2 =>
        hu k (Nat.lt_succ_of_lt (List.mem_range.mp hk2)) (by
          have := List.mem_range.mp hk2; omega))]
      simp

/-- The split enumeration, re-indexed over `List.range`. -/
lemma splits_flatMap {β : Type} (s : Str) (F : Str × Str → List β) :
    (splitsL s).flatMap F =
      (List.range (s.length + 1)).flatMap fun k => F (s.take k, s.drop k) := by
  rw [splitsL, flatMap_map_eq]

lemma isPre_self_append (p r : Str) : isPre p (p ++ r) = true :=
  isPre_iff.mpr ⟨r, rfl⟩

lemma isPre_take (s : Str) (k : ℕ) : isPre (s.take k) s = true :=
  isPre_iff.mpr ⟨s.drop k, (List.take_append_drop k s).symm⟩

/-- A pattern free of some character is a prefix of `w ++ c :: y` exactly
when it is a prefix of `w`. -/
lemma isPre_append_ne {c : Char} : ∀ {p : Str}, cfree c p = true →
    ∀ (w y : Str), isPre p (w ++ c :: y) = isPre p w
  | [], _, _, _ => by simp [isPre]
  | a :: p, hp, w, y => by
    have hca : ceq a c = false := (cfree_head hp).1
    have hp2 : cfree c p = true := (cfree_head hp).2
    cases w with
    | nil => simp [isPre, hca]
    | cons b w' =>
      show (ceq a b && isPre p (w' ++ c :: y)) = (ceq a b && isPre p w')
      rw [isPre_append_ne hp2 w' y]

lemma hasInfix_append_ne {c : Char} {p : Str} (hp : cfree c p = true)
    (hne : p ≠ []) : ∀ (X Y : Str),
    hasInfix p (X ++ c :: Y) = (hasInfix p X || hasInfix p Y)
  | [], Y => by
    obtain ⟨a, p', rfl⟩ : ∃ a p', p = a :: p' := by
      cases p with
      | nil => exact absurd rfl hne
      | cons a p' => exact ⟨a, p', rfl⟩
    have hca : ceq a c = false := (cfree_head hp).1
    show (isPre (a :: p') (c :: Y) || hasInfix (a :: p') Y) =
      (hasInfix (a :: p') [] || hasInfix (a :: p') Y)
    have h0 : isPre (a :: p') (c :: Y) = false := by
      show (ceq a c && isPre p' Y) = false
      simp [hca]
    rw [h0]
    rfl
  | x :: X, Y => by
    show (isPre p ((x :: X) ++ c :: Y) || hasInfix p (X ++ c :: Y)) =
      ((isPre p (x :: X) || hasInfix p X) || hasInfix p Y)
    rw [isPre_append_ne hp, hasInfix_append_ne hp hne X Y, Bool.or_assoc]

lemma elideO_cons (a : Char) (s : Str) :
    elideO (a :: s) =
      if a = 'o' ∧ isPre "ottavo".toList s then elideO s else a :: elideO s := rfl

lemma elideO_append_space (X Y : Str) :
    elideO (X ++ ' ' :: Y) = elideO X ++ ' ' :: elideO Y := by
  induction X with
  | nil =>
    show elideO (' ' :: Y) = ' ' :: elideO Y
    rw [elideO_cons, if_neg (by simp)]
  | cons a X ih =>
    show elideO (a :: (X ++ ' ' :: Y)) = elideO (a :: X) ++ ' ' :: elideO Y
    rw [elideO_cons, elideO_cons,
      isPre_append_ne (by decide) X Y]
    by_cases h : a = 'o' ∧ isPre "ottavo".toList X = true
    · rw [if_pos h, if_pos h, ih]
    · rw [if_neg h, if_neg h, List.cons_append, ih]

lemma cfree_getElem {c : Char} : ∀ {s : Str}, cfree c s = true →
    ∀ (i : ℕ), s[i]? ≠ some c
  | [], _, i => by simp
  | d :: t, h, 0 => by
    intro hc
    have hd : d = c := by simpa using hc
    subst hd
    simp [cfree, ceq] at h
  | d :: t, h, (i + 1) => by
    have h2 : cfree c t = true := (Bool.and_eq_true .. ▸ h).2
    simpa using cfree_getElem h2 i

/-- In `A ++ mill ++ B` with `A` and `B` free of `l`, the letter `l` occurs
exactly at the two positions of the `ll`. -/
lemma lps {A B : Str} (hA : cfree 'l' A = true) (hB : cfree 'l' B = true)
    (i : ℕ) (h : (A ++ 'm' :: 'i' :: 'l' :: 'l' :: B)[i]? = some 'l') :
    i = A.length + 2 ∨ i = A.length + 3 := by
  rw [List.getElem?_append] at h
  by_cases hi : i < A.length
  · rw [if_pos hi] at h
    exact absurd h (cfree_getElem hA i)
  · rw [if_neg hi] at h
    push_neg at hi
    obtain ⟨j, rfl⟩ : ∃ j, i = A.length + j := ⟨i - A.length, by omega⟩
    rw [Nat.add_sub_cancel_left] at h
    match j, h with
    | 0, h => simp at h
    | 1, h => simp at h
    | 2, h => left; rfl
    | 3, h => right; rfl
    | (m + 4), h =>
      have : B[m]? = some 'l' := by simpa using h
      exact absurd this (cfree_getElem hB m)

/-! ### Small helpers on the table and split primitives -/

lemma eqS_self (x : Str) : eqS x x = true := eqS_iff.mpr rfl

lemma eqS_eq_false {x y : Str} : eqS x y = false ↔ x ≠ y := by
  constructor
  · intro h hxy
    subst hxy
    rw [eqS_self x] at h
    cases h
  · intro h
    by_contra hc
    exact h (eqS_iff.mp (by revert hc; cases eqS x y <;> simp))

lemma singleton_of_flatten {l : List Str} {e : Str}
    (hf : l.flatten = e) (hl : l.length = 1) : l = [e] := by
  match l, hl with
  | [x], _ =>
    have : x = e := by simpa using hf
    rw [this]

lemma lookup_key {tbl : List (Str × Str)} {s : Str}
    (h : lookupT tbl s ≠ []) : ∃ p ∈ tbl, p.1 = s := by
  have hex : ∃ p ∈ tbl, (if eqS p.1 s then some p.2 else none) ≠ none := by
    by_contra hc
    push_neg at hc
    exact h (List.filterMap_eq_nil_iff.mpr hc)
  obtain ⟨p, hp, hne⟩ := hex
  refine ⟨p, hp, ?_⟩
  by_cases he : eqS p.1 s = true
  · exact eqS_iff.mp he
  · rw [lookupT] at h
    exact absurd (by rw [if_neg he]) hne

lemma lookup_mem_key {tbl : List (Str × Str)} {s o : Str}
    (h : o ∈ lookupT tbl s) : ∃ p ∈ tbl, p.1 = s ∧ p.2 = o := by
  obtain ⟨p, hp, hpo⟩ := List.mem_filterMap.mp h
  by_cases he : eqS p.1 s = true
  · rw [if_pos he] at hpo
    exact ⟨p, hp, eqS_iff.mp he, by injection hpo⟩
  · rw [if_neg he] at hpo
    cases hpo

lemma splits_mem {s : Str} {q : Str × Str} (h : q ∈ splitsL s) :
    ∃ k, k ≤ s.length ∧ q.1 = s.take k ∧ q.2 = s.drop k := by
  obtain ⟨k, hk, rfl⟩ := List.mem_map.mp h
  exact ⟨k, Nat.lt_succ_iff.mp (List.mem_range.mp hk), rfl, rfl⟩

lemma splits_self {s : Str} {q : Str × Str} (h : q ∈ splitsL s) :
    s = q.1 ++ q.2 := by
  obtain ⟨k, hk, h1, h2⟩ := splits_mem h
  rw [h1, h2, List.take_append_drop]

lemma mem_ott {t : ℕ} (h1 : 1 ≤ t) (h2 : t ≤ 999) :
    cardHund t ∈ one_to_one_thousand := by
  rw [one_to_one_thousand]
  exact List.mem_map.mpr ⟨t - 1, List.mem_range.mpr (by omega),
    by rw [show t - 1 + 1 = t from by omega]⟩

/-! ### Behavior of the rewrites and decoders on structured strings -/

lemma isPre_false_of_cfree {c : Char} {p s : Str} (hc : c ∈ p)
    (hs : cfree c s = true) : isPre p s = false := by
  by_contra hpre
  have hpre2 : isPre p s = true := by revert hpre; cases isPre p s <;> simp
  obtain ⟨r, rfl⟩ := isPre_iff.mp hpre2
  exact (cfree_iff.mp hs) (List.mem_append.mpr (Or.inl hc))

lemma isPre_of_append_isPre : ∀ {p u s : Str},
    isPre (p ++ u) s = true → isPre p s = true
  | [], _, _, _ => rfl
  | c :: p, u, d :: s, h => by
    have h2 : (ceq c d && isPre (p ++ u) s) = true := h
    rw [Bool.and_eq_true] at h2
    show (ceq c d && isPre p s) = true
    rw [h2.1, isPre_of_append_isPre h2.2]
    rfl

lemma isPre_take_of_isPre : ∀ {p w : Str} (y : Str),
    isPre p (w ++ y) = true → isPre (p.take w.length) w = true
  | [], w, y, _ => by simp [isPre]
  | c :: p, [], y, _ => by simp [isPre]
  | c :: p, d :: w, y, h => by
    have h2 : (ceq c d && isPre p (w ++ y)) = true := h
    rw [Bool.and_eq_true] at h2
    show (ceq c d && isPre (p.take w.length) w) = true
    rw [h2.1, isPre_take_of_isPre y h2.2]
    rfl

lemma isPre_space_sep : ∀ {p w : Str}, cfree ' ' p = true → cfree ' ' w = true →
    ∀ {u y : Str}, isPre (p ++ ' ' :: u) (w ++ ' ' :: y) = true →
      p = w ∧ isPre u y = true
  | [], [], _, _, u, y, h => by
    have h2 : (ceq ' ' ' ' && isPre u y) = true := h
    rw [Bool.and_eq_true] at h2
    exact ⟨rfl, h2.2⟩
  | [], d :: w, hp, hw, u, y, h => by
    have h2 : (ceq ' ' d && isPre u (w ++ ' ' :: y)) = true := h
    rw [Bool.and_eq_true] at h2
    have := (cfree_head hw).1
    rw [ceq_eq_false] at this
    exact absurd (ceq_iff.mp h2.1).symm this
  | c :: p, [], hp, hw, u, y, h => by
    have h2 : (ceq c ' ' && isPre (p ++ ' ' :: u) y) = true := h
    rw [Bool.and_eq_true] at h2
    have := (cfree_head hp).1
    rw [ceq_eq_false] at this
    exact absurd (ceq_iff.mp h2.1) this
  | c :: p, d :: w, hp, hw, u, y, h => by
    have h2 : (ceq c d && isPre (p ++ ' ' :: u) (w ++ ' ' :: y)) = true := h
    rw [Bool.and_eq_true] at h2
    obtain ⟨h3, h4⟩ := isPre_space_sep (cfree_head hp).2 (cfree_head hw).2 h2.2
    exact ⟨by rw [ceq_iff.mp h2.1, h3], h4⟩

lemma stripL_none_of : ∀ {p s : Str}, isPre p s = false → stripL p s = none
  | [], s, h => by simp [isPre] at h
  | c :: p, [], _ => rfl
  | c :: p, d :: s, h => by
    show (if c = d then stripL p s else none) = none
    by_cases hcd : c = d
    · rw [if_pos hcd]
      apply stripL_none_of
      subst hcd
      have h2 : (ceq c c && isPre p s) = false := h
      rw [ceq_self] at h2
      simpa using h2
    · rw [if_neg hcd]

lemma eqS_false_of_space {k s : Str} (hk : cfree ' ' k = true)
    (hs : ' ' ∈ s) : eqS k s = false := by
  rw [eqS_eq_false]
  intro h
  subst h
  exact (cfree_iff.mp hk) hs

lemma cfree_dropLast {c : Char} {s : Str} (h : cfree c s = true) :
    cfree c s.dropLast = true :=
  cfree_iff.mpr fun hm => (cfree_iff.mp h) (List.mem_of_mem_dropLast hm)

lemma elideO_id_of_no {s : Str}
    (h : hasInfix "oottavo".toList s = false) : elideO s = s := by
  induction s with
  | nil => rfl
  | cons c t ih =>
    have h2 : (isPre "oottavo".toList (c :: t) || hasInfix "oottavo".toList t) = false := h
    rw [Bool.or_eq_false_iff] at h2
    rw [elideO_cons, if_neg ?hcond, ih h2.2]
    case hcond =>
      rintro ⟨rfl, hpre⟩
      have : isPre "oottavo".toList ('o' :: t) = true := by
        show (ceq 'o' 'o' && isPre "ottavo".toList t) = true
        rw [ceq_self, hpre]
        rfl
      rw [this] at h2
      exact absurd h2.1 (by simp)

lemma findMille_none_of_lfree {s : Str} (h : cfree 'l' s = true) :
    findMille s = none := by
  induction s with
  | nil => rfl
  | cons c t ih =>
    show (if isPre "millesimo".toList (c :: t) then some ([], (c :: t).drop 9)
      else (findMille t).map fun q => (c :: q.1, q.2)) = none
    rw [if_neg ?hcond, ih (cfree_head h).2]
    rfl
    case hcond =>
      intro hpre
      rw [isPre_false_of_cfree (by decide : 'l' ∈ "millesimo".toList) h] at hpre
      cases hpre

lemma delSpM_app {x : Str} (hx : cfree ' ' x = true) (z : Str) :
    delSpM (x ++ z) = x ++ delSpM z := by
  induction x with
  | nil => rfl
  | cons c t ih =>
    show (if c = ' ' ∧ isPre "millesimo".toList (dropSp (t ++ z)) then delSpM (t ++ z)
      else c :: delSpM (t ++ z)) = c :: (t ++ delSpM z)
    rw [if_neg ?hcond, ih (cfree_head hx).2]
    case hcond =>
      rintro ⟨rfl, hpre⟩
      have := (cfree_head hx).1
      rw [ceq_eq_false] at this
      exact this rfl

lemma lookV_none_of {tbl : List (Str × ℕ)} {s : Str}
    (h : ∀ p ∈ tbl, eqS p.1 s = false) : lookV tbl s = none := by
  rw [lookV, List.find?_eq_none.mpr]
  · rfl
  · intro p hp
    rw [h p hp]
    simp

lemma findSome?_none {α β : Type} {l : List α} {F : α → Option β}
    (h : ∀ p ∈ l, F p = none) : l.findSome? F = none := by
  induction l with
  | nil => rfl
  | cons a t ih =>
    rw [List.findSome?_cons, h a (List.mem_cons_self a t)]
    exact ih fun p hp => h p (List.mem_cons_of_mem a hp)

lemma findSome?_eq_of {α β : Type} {l : List α} {F : α → Option β} {p₀ : α}
    {v : β} (hmem : p₀ ∈ l) (hv : F p₀ = some v)
    (hrest : ∀ p ∈ l, p ≠ p₀ → F p = none) : l.findSome? F = some v := by
  induction l with
  | nil => cases hmem
  | cons a t ih =>
    rw [List.findSome?_cons]
    by_cases ha : a = p₀
    · subst ha
      rw [hv]
    · rw [hrest a (List.mem_cons_self a t) ha]
      have hm2 : p₀ ∈ t := by
        rcases List.mem_cons.mp hmem with h | h
        · exact absurd h.symm ha
        · exact h
      exact ih hm2 fun p hp hne => hrest p (List.mem_cons_of_mem a hp) hne

/-! ### Decided facts about the decoder tables -/

lemma wvKeys_sp :
    (digitWV ++ teensWV ++ twentiesWV ++ tiesWV ++ hundredsWV).all
      (fun p => cfree ' ' p.1) = true := by decide

lemma ovKeys_sp :
    (digitOV ++ teensOV ++ twentiesOV ++ tiesOV ++ hundredsOV).all
      (fun p => cfree ' ' p.1) = true := by decide

lemma hundredsWV_nopre :
    hundredsWV.all (fun p => hundredsWV.all fun q =>
      (p == q) || !(isPre p.1 q.1)) = true := by decide

lemma hundredsOV_nopre :
    hundredsOV.all (fun p => hundredsOV.all fun q =>
      (p == q) || !(isPre p.1 q.1)) = true := by decide

lemma tiesWV_not_pre :
    tiesWV.all (fun p => hundredsWV.all fun q =>
      !(isPre (p.1.take q.1.length) q.1)) = true := by decide

lemma tiesOV_not_pre :
    tiesOV.all (fun p => hundredsOV.all fun q =>
      !(isPre (p.1.dropLast.take q.1.length) q.1)) = true := by decide

lemma hwv_mem {a : ℕ} (h1 : 1 ≤ a) (h2 : a ≤ 9) :
    (hundredsW a, 100 * a) ∈ hundredsWV ∧ (hundredsO a, 100 * a) ∈ hundredsOV := by
  interval_cases a <;> exact ⟨by decide, by decide⟩


/-! ### Facts extracted from the bulk checks -/

lemma bTens_spec {r : ℕ} (h1 : 1 ≤ r) (h2 : r ≤ 99) :
    graph_tens_component (cardTens r) ++ lookupT digitT (cardTens r) = [ordTensExp r] ∧
      ∀ p ∈ hundredsT, isPre p.1 (cardTens r) = false := by
  have hx := (List.all_eq_true.mp bTens_true) (r - 1) (List.mem_range.mpr (by omega))
  rw [show r - 1 + 1 = r from by omega] at hx
  rw [bTensItem] at hx
  simp only [Bool.and_eq_true] at hx
  obtain ⟨⟨he, hl⟩, hh⟩ := hx
  constructor
  · exact singleton_of_flatten (eqS_iff.mp he) (by simpa using hl)
  · intro p hp
    have := (List.all_eq_true.mp hh) p hp
    revert this
    cases isPre p.1 (cardTens r) <;> simp

lemma isPre_self (x : Str) : isPre x x = true := by
  have := isPre_self_append x []
  rwa [List.append_nil] at this

lemma digitWV_sp : ∀ p ∈ digitWV, cfree ' ' p.1 = true := by decide

lemma teensWV_sp : ∀ p ∈ teensWV, cfree ' ' p.1 = true := by decide

lemma twentiesWV_sp : ∀ p ∈ twentiesWV, cfree ' ' p.1 = true := by decide

lemma tiesWV_sp : ∀ p ∈ tiesWV, cfree ' ' p.1 = true := by decide

lemma hundredsWV_sp : ∀ p ∈ hundredsWV, cfree ' ' p.1 = true := by decide

lemma digitOV_sp : ∀ p ∈ digitOV, cfree ' ' p.1 = true := by decide

lemma teensOV_sp : ∀ p ∈ teensOV, cfree ' ' p.1 = true := by decide

lemma twentiesOV_sp : ∀ p ∈ twentiesOV, cfree ' ' p.1 = true := by decide

lemma tiesOV_sp : ∀ p ∈ tiesOV, cfree ' ' p.1 = true := by decide

lemma hundredsOV_sp : ∀ p ∈ hundredsOV, cfree ' ' p.1 = true := by decide

/-- Extraction of the per-item facts of `bCT`. -/
lemma bCT_spec {r : ℕ} (h1 : 1 ≤ r) (h2 : r ≤ 99) :
    cfree 'l' (cardTens r) = true ∧ cfree ' ' (cardTens r) = true ∧
      cfree '"' (cardTens r) = true ∧ cardTens r ≠ [] ∧
      stripAccent (cardTens r) = cardTens r ∧
      hasInfix "oottavo".toList (cardTens r) = false ∧
      decodeCardT (cardTens r) = some r := by
  have hx := (List.all_eq_true.mp bCT_true) (r - 1) (List.mem_range.mpr (by omega))
  rw [show r - 1 + 1 = r from by omega] at hx
  rw [bCTItem] at hx
  simp only [Bool.and_eq_true] at hx
  obtain ⟨⟨⟨⟨⟨⟨hl, hsp⟩, hq⟩, hne⟩, ha⟩, hi⟩, hd⟩ := hx
  refine ⟨hl, hsp, hq, ?_, eqS_iff.mp ha, ?_, by simpa using hd⟩
  · have : eqS (cardTens r) [] = false := by revert hne; cases eqS (cardTens r) [] <;> simp
    exact eqS_eq_false.mp this
  · revert hi
    cases hasInfix "oottavo".toList (cardTens r) <;> simp

/-- Extraction of the per-item facts of `bOT`. -/
lemma bOT_spec {r : ℕ} (h1 : 1 ≤ r) (h2 : r ≤ 99) :
    decodeHundE (elideO (ordTensExp r)) = some r ∧
      decodeTD (elideO (ordTensExp r)) = some r ∧
      cfree 'l' (elideO (ordTensExp r)) = true ∧
      cfree ' ' (elideO (ordTensExp r)) = true ∧
      cfree '"' (elideO (ordTensExp r)) = true ∧
      hasInfix "oottavo".toList (elideO (ordTensExp r)) = false := by
  have hx := (List.all_eq_true.mp bOT_true) (r - 1) (List.mem_range.mpr (by omega))
  rw [show r - 1 + 1 = r from by omega] at hx
  rw [bOTItem] at hx
  simp only [Bool.and_eq_true] at hx
  obtain ⟨⟨⟨⟨⟨hd, ht⟩, hl⟩, hsp⟩, hq⟩, hi⟩ := hx
  refine ⟨by simpa using hd, by simpa using ht, hl, hsp, hq, ?_⟩
  revert hi
  cases hasInfix "oottavo".toList (elideO (ordTensExp r)) <;> simp

/-- Extraction of the per-item facts of `bHW`. -/
lemma bHW_spec {a : ℕ} (h1 : 1 ≤ a) (h2 : a ≤ 9) :
    cfree 'l' (hundredsW a) = true ∧ cfree ' ' (hundredsW a) = true ∧
      cfree '"' (hundredsW a) = true ∧ hundredsW a ≠ [] ∧
      stripAccent (hundredsW a) = hundredsW a ∧
      hasInfix "oottavo".toList (hundredsW a) = false ∧
      cfree 'l' (hundredsO a) = true ∧ cfree ' ' (hundredsO a) = true ∧
      cfree '"' (hundredsO a) = true ∧ hundredsO a ≠ [] ∧
      hasInfix "oottavo".toList (hundredsO a) = false ∧
      decodeCardT (hundredsW a) = none ∧ decodeTD (hundredsO a) = none ∧
      lookV hundredsWV (hundredsW a) = some (100 * a) ∧
      lookV hundredsOV (hundredsO a) = some (100 * a) := by
  have hx := (List.all_eq_true.mp bHW_true) (a - 1) (List.mem_range.mpr (by omega))
  rw [show a - 1 + 1 = a from by omega] at hx
  rw [bHWItem] at hx
  simp only [Bool.and_eq_true] at hx
  obtain ⟨⟨⟨⟨⟨⟨⟨⟨⟨⟨⟨⟨⟨⟨hwl, hwsp⟩, hwq⟩, hwne⟩, hwa⟩, hwi⟩, hol⟩,
    hosp⟩, hoq⟩, hone⟩, hoi⟩, hdc⟩, hdt⟩, hlw⟩, hlo⟩ := hx
  refine ⟨hwl, hwsp, hwq, ?_, eqS_iff.mp hwa, ?_, hol, hosp, hoq, ?_, ?_,
    by simpa using hdc, by simpa using hdt, by simpa using hlw, by simpa using hlo⟩
  · have : eqS (hundredsW a) [] = false := by revert hwne; cases eqS (hundredsW a) [] <;> simp
    exact eqS_eq_false.mp this
  · revert hwi
    cases hasInfix "oottavo".toList (hundredsW a) <;> simp
  · have : eqS (hundredsO a) [] = false := by revert hone; cases eqS (hundredsO a) [] <;> simp
    exact eqS_eq_false.mp this
  · revert hoi
    cases hasInfix "oottavo".toList (hundredsO a) <;> simp

/-! ### Symbolic behavior of the decoders on hundreds-shaped strings -/

lemma decodeCardT_spaced {s : Str} (hs : ' ' ∈ s)
    (hties : ∀ p ∈ tiesWV, isPre p.1 s = false) : decodeCardT s = none := by
  have h1 : lookV digitWV s = none :=
    lookV_none_of fun p hp => eqS_false_of_space (digitWV_sp p hp) hs
  have h2 : lookV teensWV s = none :=
    lookV_none_of fun p hp => eqS_false_of_space (teensWV_sp p hp) hs
  have h3 : lookV twentiesWV s = none :=
    lookV_none_of fun p hp => eqS_false_of_space (twentiesWV_sp p hp) hs
  have h4 : (tiesWV.findSome? fun p =>
      if eqS p.1 s then some p.2
      else
        match stripL p.1 s with
        | some rest => (lookV digitWV rest).map (p.2 + ·)
        | none => none) = none := by
    apply findSome?_none
    intro p hp
    rw [eqS_false_of_space (tiesWV_sp p hp) hs, stripL_none_of (hties p hp)]
    rfl
  simp only [decodeCardT, h1, h2, h3, h4]

lemma decodeCardT_hw {a : ℕ} (h1 : 1 ≤ a) (h2 : a ≤ 9) (u : Str) :
    decodeCardT (hundredsW a ++ ' ' :: u) = none := by
  apply decodeCardT_spaced (List.mem_append.mpr (Or.inr (List.mem_cons_self _ _)))
  intro p hp
  rw [isPre_append_ne (tiesWV_sp p hp)]
  by_contra hc
  have hc2 : isPre p.1 (hundredsW a) = true := by
    revert hc
    cases isPre p.1 (hundredsW a) <;> simp
  have h3 : isPre (p.1.take (hundredsW a).length) (hundredsW a) = true := by
    apply isPre_take_of_isPre []
    rwa [List.append_nil]
  have h4 := (List.all_eq_true.mp ((List.all_eq_true.mp tiesWV_not_pre) p hp))
    (hundredsW a, 100 * a) (hwv_mem h1 h2).1
  rw [h3] at h4
  exact absurd h4 (by simp)

lemma decodeTD_spaced {s : Str} (hs : ' ' ∈ s)
    (hties : ∀ p ∈ tiesOV, isPre p.1.dropLast s = false) : decodeTD s = none := by
  have h1 : lookV teensOV s = none :=
    lookV_none_of fun p hp => eqS_false_of_space (teensOV_sp p hp) hs
  have h2 : lookV twentiesOV s = none :=
    lookV_none_of fun p hp => eqS_false_of_space (twentiesOV_sp p hp) hs
  have h3 : decodeTiesDigit s = none := by
    apply findSome?_none
    intro p hp
    rw [eqS_false_of_space (tiesOV_sp p hp) hs, stripL_none_of (hties p hp)]
    rfl
  have h4 : lookV digitOV s = none :=
    lookV_none_of fun p hp => eqS_false_of_space (digitOV_sp p hp) hs
  simp only [decodeTD, decodeTensE, h1, h2, h3, h4]

lemma decodeTD_hO {a : ℕ} (h1 : 1 ≤ a) (h2 : a ≤ 9) (u : Str) :
    decodeTD (hundredsO a ++ ' ' :: u) = none := by
  apply decodeTD_spaced (List.mem_append.mpr (Or.inr (List.mem_cons_self _ _)))
  intro p hp
  rw [isPre_append_ne (cfree_dropLast (tiesOV_sp p hp))]
  by_contra hc
  have hc2 : isPre p.1.dropLast (hundredsO a) = true := by
    revert hc
    cases isPre p.1.dropLast (hundredsO a) <;> simp
  have h3 : isPre (p.1.dropLast.take (hundredsO a).length) (hundredsO a) = true := by
    apply isPre_take_of_isPre []
    rwa [List.append_nil]
  have h4 := (List.all_eq_true.mp ((List.all_eq_true.mp tiesOV_not_pre) p hp))
    (hundredsO a, 100 * a) (hwv_mem h1 h2).2
  rw [h3] at h4
  exact absurd h4 (by simp)

lemma hundredsWV_key_ne {p : Str × ℕ} {a : ℕ} (hp : p ∈ hundredsWV)
    (h1 : 1 ≤ a) (h2 : a ≤ 9) (hne : p ≠ (hundredsW a, 100 * a)) :
    isPre p.1 (hundredsW a) = false := by
  have hx := (List.all_eq_true.mp ((List.all_eq_true.mp hundredsWV_nopre) p hp))
    (hundredsW a, 100 * a) (hwv_mem h1 h2).1
  rw [Bool.or_eq_true] at hx
  rcases hx with hx | hx
  · exact absurd (by simpa using hx) hne
  · revert hx
    cases isPre p.1 (hundredsW a) <;> simp

lemma hundredsOV_key_ne {p : Str × ℕ} {a : ℕ} (hp : p ∈ hundredsOV)
    (h1 : 1 ≤ a) (h2 : a ≤ 9) (hne : p ≠ (hundredsO a, 100 * a)) :
    isPre p.1 (hundredsO a) = false := by
  have hx := (List.all_eq_true.mp ((List.all_eq_true.mp hundredsOV_nopre) p hp))
    (hundredsO a, 100 * a) (hwv_mem h1 h2).2
  rw [Bool.or_eq_true] at hx
  rcases hx with hx | hx
  · exact absurd (by simpa using hx) hne
  · revert hx
    cases isPre p.1 (hundredsO a) <;> simp

/-- The generic first-hit computation of the hundreds stage of a decoder:
on `W` itself and on `W ++ ' ' :: u`. -/
lemma hund_stage_exact {tbl : List (Str × ℕ)} {W : Str} {a : ℕ}
    (hmem : (W, 100 * a) ∈ tbl) (hWsp : cfree ' ' W = true)
    (hsp : ∀ p ∈ tbl, cfree ' ' p.1 = true)
    (hne : ∀ p ∈ tbl, p ≠ (W, 100 * a) → isPre p.1 W = false)
    (dec : Str → Option ℕ) :
    (tbl.findSome? fun p =>
      if eqS p.1 W then some p.2
      else
        match stripL (p.1 ++ [' ']) W with
        | some rest => (dec rest).map (p.2 + ·)
        | none => none) = some (100 * a) := by
  apply findSome?_eq_of hmem
  · rw [eqS_self]
    rfl
  · intro p hp hpne
    have hpre : isPre p.1 W = false := hne p hp hpne
    have heq : eqS p.1 W = false := by
      rw [eqS_eq_false]
      intro h
      rw [h, isPre_self] at hpre
      cases hpre
    rw [heq]
    have hstrip : stripL (p.1 ++ [' ']) W = none := by
      cases hst : stripL (p.1 ++ [' ']) W with
      | none => rfl
      | some rest =>
        exfalso
        have := stripL_eq_some hst
        rw [List.append_assoc] at this
        exact (cfree_iff.mp hWsp) (this ▸ List.mem_append.mpr
          (Or.inr (List.mem_cons_self _ _)))
    rw [hstrip]
    rfl

/-- The hundreds stage on `W ++ ' ' :: u`: hits its own entry and decodes
the remainder. -/
lemma hund_stage_spaced {tbl : List (Str × ℕ)} {W u : Str} {a v : ℕ}
    (hmem : (W, 100 * a) ∈ tbl) (hWsp : cfree ' ' W = true)
    (hsp : ∀ p ∈ tbl, cfree ' ' p.1 = true)
    (hne : ∀ p ∈ tbl, p ≠ (W, 100 * a) → isPre p.1 W = false)
    (dec : Str → Option ℕ) (hdec : dec u = some v) :
    (tbl.findSome? fun p =>
      if eqS p.1 (W ++ ' ' :: u) then some p.2
      else
        match stripL (p.1 ++ [' ']) (W ++ ' ' :: u) with
        | some rest => (dec rest).map (p.2 + ·)
        | none => none) = some (100 * a + v) := by
  have hsmem : ' ' ∈ W ++ ' ' :: u := List.mem_append.mpr (Or.inr (List.mem_cons_self _ _))
  apply findSome?_eq_of hmem
  · rw [eqS_false_of_space hWsp hsmem]
    have harr : W ++ ' ' :: u = (W ++ [' ']) ++ u := by simp
    rw [harr, stripL_self_append]
    show ((dec u).map fun x => (W, 100 * a).2 + x) = some (100 * a + v)
    rw [hdec]
    rfl
  · intro p hp hpne
    rw [eqS_false_of_space (hsp p hp) hsmem]
    have hstrip : stripL (p.1 ++ [' ']) (W ++ ' ' :: u) = none := by
      cases hst : stripL (p.1 ++ [' ']) (W ++ ' ' :: u) with
      | none => rfl
      | some rest =>
        exfalso
        have hse := stripL_eq_some hst
        have hpre : isPre (p.1 ++ ' ' :: rest) (W ++ ' ' :: u) = true := by
          have : W ++ ' ' :: u = p.1 ++ ' ' :: rest := by
            rw [hse]
            simp
          rw [this]
          exact isPre_self _
        obtain ⟨hpw, _⟩ := isPre_space_sep (hsp p hp) hWsp hpre
        have := hne p hp hpne
        rw [hpw, isPre_self] at this
        cases this
    rw [hstrip]
    rfl

lemma decodeCardHund_hw_exact {a : ℕ} (h1 : 1 ≤ a) (h2 : a ≤ 9) :
    decodeCardHund (hundredsW a) = some (100 * a) := by
  have hspec := bHW_spec h1 h2
  have hstage := hund_stage_exact (hwv_mem h1 h2).1 hspec.2.1 hundredsWV_sp
    (fun p hp hpne => hundredsWV_key_ne hp h1 h2 hpne) decodeCardT
  simp only [decodeCardHund, hspec.2.2.2.2.2.2.2.2.2.2.2.1, hstage]

lemma decodeCardHund_hw_spaced {a v : ℕ} {u : Str} (h1 : 1 ≤ a) (h2 : a ≤ 9)
    (hdec : decodeCardT u = some v) :
    decodeCardHund (hundredsW a ++ ' ' :: u) = some (100 * a + v) := by
  have hspec := bHW_spec h1 h2
  have hstage := hund_stage_spaced (hwv_mem h1 h2).1 hspec.2.1 hundredsWV_sp
    (fun p hp hpne => hundredsWV_key_ne hp h1 h2 hpne) decodeCardT hdec
  simp only [decodeCardHund, decodeCardT_hw h1 h2 u, hstage]

lemma decodeHundE_hO_exact {a : ℕ} (h1 : 1 ≤ a) (h2 : a ≤ 9) :
    decodeHundE (hundredsO a) = some (100 * a) := by
  have hspec := bHW_spec h1 h2
  have hstage := hund_stage_exact (hwv_mem h1 h2).2 hspec.2.2.2.2.2.2.2.1
    hundredsOV_sp (fun p hp hpne => hundredsOV_key_ne hp h1 h2 hpne) decodeTD
  simp only [decodeHundE, hspec.2.2.2.2.2.2.2.2.2.2.2.2.1, hstage]

lemma decodeHundE_hO_spaced {a v : ℕ} {u : Str} (h1 : 1 ≤ a) (h2 : a ≤ 9)
    (hdec : decodeTD u = some v) :
    decodeHundE (hundredsO a ++ ' ' :: u) = some (100 * a + v) := by
  have hspec := bHW_spec h1 h2
  have hstage := hund_stage_spaced (hwv_mem h1 h2).2 hspec.2.2.2.2.2.2.2.1
    hundredsOV_sp (fun p hp hpne => hundredsOV_key_ne hp h1 h2 hpne) decodeTD hdec
  simp only [decodeHundE, decodeTD_hO h1 h2 u, hstage]

/-! ### The reconstructed 1..999 facts -/

lemma cfree_cons {c d : Char} {s : Str} (hne : ceq c d = false)
    (hs : cfree c s = true) : cfree c (d :: s) = true := by
  show (!(ceq c d) && cfree c s) = true
  rw [hne, hs]
  rfl

lemma bCard_spec {h : ℕ} (h1 : 1 ≤ h) (h2 : h ≤ 999) :
    cfree 'l' (cardHund h) = true ∧ cardHund h ≠ [] ∧
      stripAccent (cardHund h) = cardHund h ∧ cfree '"' (cardHund h) = true := by
  by_cases hlt : h < 100
  · have hc : cardHund h = cardTens h := by rw [cardHund, if_pos hlt]
    have hs := bCT_spec h1 (by omega)
    rw [hc]
    exact ⟨hs.1, hs.2.2.2.1, hs.2.2.2.2.1, hs.2.1.symm ▸ hs.2.2.1⟩
  · have ha1 : 1 ≤ h / 100 := by omega
    have ha9 : h / 100 ≤ 9 := by omega
    have hw := bHW_spec ha1 ha9
    by_cases hr0 : h % 100 = 0
    · have hc : cardHund h = hundredsW (h / 100) := by
        rw [cardHund, if_neg (by omega), if_pos hr0, List.append_nil]
      rw [hc]
      exact ⟨hw.1, hw.2.2.2.1, hw.2.2.2.2.1, hw.2.2.1⟩
    · have hc : cardHund h = hundredsW (h / 100) ++ ' ' :: cardTens (h % 100) := by
        rw [cardHund, if_neg (by omega), if_neg hr0]
      have hr1 : 1 ≤ h % 100 := by omega
      have hr99 : h % 100 ≤ 99 := by omega
      have ht := bCT_spec hr1 hr99
      rw [hc]
      refine ⟨?_, ?_, ?_, ?_⟩
      · rw [cfree_append, hw.1, cfree_cons (by decide) ht.1]
        rfl
      · intro hnil
        exact hw.2.2.2.1 (List.append_eq_nil.mp hnil).1
      · show List.map stripAccentChar _ = _
        rw [List.map_append, List.map_cons]
        have h5 : stripAccentChar ' ' = ' ' := rfl
        show stripAccent (hundredsW (h / 100)) ++ stripAccentChar ' ' ::
          stripAccent (cardTens (h % 100)) = _
        rw [h5, hw.2.2.2.2.1, ht.2.2.2.2.1]
      · rw [cfree_append, hw.2.2.1, cfree_cons (by decide) ht.2.2.1]
        rfl

lemma ott_spec {y : Str} (hy : y ∈ one_to_one_thousand) :
    cfree 'l' y = true ∧ y ≠ [] ∧ stripAccent y = y ∧ cfree '"' y = true := by
  rw [one_to_one_thousand] at hy
  obtain ⟨k, hk, rfl⟩ := List.mem_map.mp hy
  have := List.mem_range.mp hk
  exact bCard_spec (by omega) (by omega)

lemma card_no_oottavo {t : ℕ} (h1 : 1 ≤ t) (h2 : t ≤ 999) :
    hasInfix "oottavo".toList (cardHund t) = false := by
  by_cases hlt : t < 100
  · have hc : cardHund t = cardTens t := by rw [cardHund, if_pos hlt]
    rw [hc]
    exact (bCT_spec h1 (by omega)).2.2.2.2.2.1
  · have ha1 : 1 ≤ t / 100 := by omega
    have ha9 : t / 100 ≤ 9 := by omega
    have hw := bHW_spec ha1 ha9
    by_cases hr0 : t % 100 = 0
    · have hc : cardHund t = hundredsW (t / 100) := by
        rw [cardHund, if_neg (by omega), if_pos hr0, List.append_nil]
      rw [hc]
      exact hw.2.2.2.2.2.1
    · have hc : cardHund t = hundredsW (t / 100) ++ ' ' :: cardTens (t % 100) := by
        rw [cardHund, if_neg (by omega), if_neg hr0]
      rw [hc, hasInfix_append_ne (by decide) (by decide), hw.2.2.2.2.2.1,
        (bCT_spec (r := t % 100) (by omega) (by omega)).2.2.2.2.2.1]
      rfl

lemma card_sp_struct {t : ℕ} (h1 : 1 ≤ t) (h2 : t ≤ 999) :
    cfree ' ' (cardTens t) = true ∨
      ∃ a r, 1 ≤ a ∧ a ≤ 9 ∧ ((t % 100 = 0 ∧ cardHund t = hundredsW a) ∨
        (1 ≤ r ∧ r ≤ 99 ∧ cardHund t = hundredsW a ++ ' ' :: cardTens r)) := by
  by_cases hlt : t < 100
  · exact Or.inl (bCT_spec h1 (by omega)).2.1
  · refine Or.inr ⟨t / 100, t % 100, by omega, by omega, ?_⟩
    by_cases hr0 : t % 100 = 0
    · exact Or.inl ⟨hr0, by rw [cardHund, if_neg (by omega), if_pos hr0, List.append_nil]⟩
    · exact Or.inr ⟨by omega, by omega, by rw [cardHund, if_neg (by omega), if_neg hr0]⟩

lemma delSp_mill : delSpM (' ' :: "millesimo".toList) = "millesimo".toList := by decide

lemma delSpM_one {x : Str} (hx : cfree ' ' x = true) :
    delSpM (x ++ ' ' :: "millesimo".toList) = x ++ "millesimo".toList := by
  rw [delSpM_app hx, delSp_mill]

lemma delSpM_mid {w u : Str} (hw : cfree ' ' w = true) (hu : cfree ' ' u = true)
    (hul : cfree 'l' u = true) (hun : u ≠ []) :
    delSpM ((w ++ ' ' :: u) ++ ' ' :: "millesimo".toList) =
      (w ++ ' ' :: u) ++ "millesimo".toList := by
  have harr : (w ++ ' ' :: u) ++ ' ' :: "millesimo".toList =
      w ++ ' ' :: (u ++ ' ' :: "millesimo".toList) := by simp
  rw [harr, delSpM_app hw]
  obtain ⟨c, u2, rfl⟩ : ∃ c u2, u = c :: u2 := by
    cases u with
    | nil => exact absurd rfl hun
    | cons c u2 => exact ⟨c, u2, rfl⟩
  have hcne : ¬ c = ' ' := by
    have := (cfree_head hu).1
    rwa [ceq_eq_false] at this
  have hinner : delSpM (' ' :: ((c :: u2) ++ ' ' :: "millesimo".toList)) =
      ' ' :: ((c :: u2) ++ "millesimo".toList) := by
    rw [show delSpM (' ' :: ((c :: u2) ++ ' ' :: "millesimo".toList)) =
      (if ' ' = ' ' ∧ isPre "millesimo".toList
          (dropSp ((c :: u2) ++ ' ' :: "millesimo".toList)) = true
        then delSpM ((c :: u2) ++ ' ' :: "millesimo".toList)
        else ' ' :: delSpM ((c :: u2) ++ ' ' :: "millesimo".toList)) from rfl]
    rw [if_neg ?hcond]
    · rw [delSpM_one hu]
    case hcond =>
      rintro ⟨-, hpre⟩
      rw [show ((c :: u2) ++ ' ' :: "millesimo".toList) =
        c :: (u2 ++ ' ' :: "millesimo".toList) from rfl, dropSp_cons_of_ne hcne] at hpre
      rw [show c :: (u2 ++ ' ' :: "millesimo".toList) =
        (c :: u2) ++ ' ' :: "millesimo".toList from rfl] at hpre
      rw [isPre_append_ne (by decide)] at hpre
      rw [isPre_false_of_cfree (by decide : 'l' ∈ "millesimo".toList) hul] at hpre
      cases hpre
  rw [hinner]
  simp

lemma bThou_spec {t : ℕ} (h1 : 1 ≤ t) (h2 : t ≤ 999) :
    delSpM (stripAccent (cardHund t) ++ ' ' :: "millesimo".toList) =
        stripAccent (cardHund t) ++ "millesimo".toList ∧
      elideO (stripAccent (cardHund t) ++ "millesimo".toList) =
        stripAccent (cardHund t) ++ "millesimo".toList ∧
      hasInfix "oottavo".toList (stripAccent (cardHund t) ++ "millesimo".toList) = false ∧
      cfree '"' (stripAccent (cardHund t) ++ "millesimo".toList) = true := by
  rw [(bCard_spec h1 h2).2.2.1]
  have hinf : hasInfix "oottavo".toList (cardHund t ++ "millesimo".toList) = false := by
    show hasInfix "oottavo".toList (cardHund t ++ 'm' :: "illesimo".toList) = false
    rw [hasInfix_append_ne (by decide) (by decide), card_no_oottavo h1 h2]
    decide
  refine ⟨?_, elideO_id_of_no hinf, hinf, ?_⟩
  · by_cases hlt : t < 100
    · have hc : cardHund t = cardTens t := by rw [cardHund, if_pos hlt]
      rw [hc, delSpM_one (bCT_spec h1 (by omega)).2.1]
    · by_cases hr0 : t % 100 = 0
      · have hc : cardHund t = hundredsW (t / 100) := by
          rw [cardHund, if_neg (by omega), if_pos hr0, List.append_nil]
        rw [hc, delSpM_one (bHW_spec (by omega) (by omega)).2.1]
      · have hc : cardHund t = hundredsW (t / 100) ++ ' ' :: cardTens (t % 100) := by
          rw [cardHund, if_neg (by omega), if_neg hr0]
        have ht := bCT_spec (r := t % 100) (by omega) (by omega)
        rw [hc, delSpM_mid (bHW_spec (by omega) (by omega)).2.1 ht.2.1 ht.1
          ht.2.2.2.1]
  · rw [cfree_append, (bCard_spec h1 h2).2.2.2]
    decide

lemma bHundE_spec {h : ℕ} (h1 : 1 ≤ h) (h2 : h ≤ 999) :
    decodeHundE (elideO (ordHundExp h)) = some h ∧
      findMille (elideO (ordHundExp h)) = none ∧
      hasInfix "oottavo".toList (elideO (ordHundExp h)) = false ∧
      cfree '"' (elideO (ordHundExp h)) = true ∧
      cfree 'l' (elideO (ordHundExp h)) = true := by
  by_cases hlt : h < 100
  · have ho : ordHundExp h = ordTensExp h := by rw [ordHundExp, if_pos hlt]
    have hs := bOT_spec h1 (by omega)
    rw [ho]
    exact ⟨hs.1, findMille_none_of_lfree hs.2.2.1, hs.2.2.2.2.2, hs.2.2.2.2.1,
      hs.2.2.1⟩
  · have ha1 : 1 ≤ h / 100 := by omega
    have ha9 : h / 100 ≤ 9 := by omega
    have hw := bHW_spec ha1 ha9
    by_cases hr0 : h % 100 = 0
    · have ho : elideO (ordHundExp h) = hundredsO (h / 100) := by
        rw [ordHundExp, if_neg (by omega), if_pos hr0, List.append_nil,
          elideO_id_of_no hw.2.2.2.2.2.2.2.2.2.2.1]
      rw [ho]
      refine ⟨?_, findMille_none_of_lfree hw.2.2.2.2.2.2.1,
        hw.2.2.2.2.2.2.2.2.2.2.1, hw.2.2.2.2.2.2.2.2.1, hw.2.2.2.2.2.2.1⟩
      rw [decodeHundE_hO_exact ha1 ha9]
      congr 1
      omega
    · have hr1 : 1 ≤ h % 100 := by omega
      have hr99 : h % 100 ≤ 99 := by omega
      have ht := bOT_spec hr1 hr99
      have ho : elideO (ordHundExp h) =
          hundredsO (h / 100) ++ ' ' :: elideO (ordTensExp (h % 100)) := by
        rw [ordHundExp, if_neg (by omega), if_neg hr0, elideO_append_space,
          elideO_id_of_no hw.2.2.2.2.2.2.2.2.2.2.1]
      have hlf : cfree 'l'
          (hundredsO (h / 100) ++ ' ' :: elideO (ordTensExp (h % 100))) = true := by
        rw [cfree_append, hw.2.2.2.2.2.2.1, cfree_cons (by decide) ht.2.2.1]
        rfl
      rw [ho]
      refine ⟨?_, findMille_none_of_lfree hlf, ?_, ?_, hlf⟩
      · rw [decodeHundE_hO_spaced ha1 ha9 ht.2.1]
        congr 1
        omega
      · rw [hasInfix_append_ne (by decide) (by decide),
          hw.2.2.2.2.2.2.2.2.2.2.1, ht.2.2.2.2.2]
        rfl
      · rw [cfree_append, hw.2.2.2.2.2.2.2.2.1, cfree_cons (by decide) ht.2.2.2.2.1]
        rfl

lemma bCardDec_spec {h : ℕ} (h1 : 1 ≤ h) (h2 : h ≤ 999) :
    decodeCardHund (cardHund h) = some h := by
  by_cases hlt : h < 100
  · have hc : cardHund h = cardTens h := by rw [cardHund, if_pos hlt]
    rw [hc]
    simp only [decodeCardHund, (bCT_spec h1 (by omega)).2.2.2.2.2.2]
  · by_cases hr0 : h % 100 = 0
    · have hc : cardHund h = hundredsW (h / 100) := by
        rw [cardHund, if_neg (by omega), if_pos hr0, List.append_nil]
      rw [hc, decodeCardHund_hw_exact (by omega) (by omega)]
      congr 1
      omega
    · have hc : cardHund h = hundredsW (h / 100) ++ ' ' :: cardTens (h % 100) := by
        rw [cardHund, if_neg (by omega), if_neg hr0]
      rw [hc, decodeCardHund_hw_spaced (by omega) (by omega)
        (bCT_spec (r := h % 100) (by omega) (by omega)).2.2.2.2.2.2]
      congr 1
      omega

/-! ### Decided facts about the lexical tables -/

/-- Per-key health of a hundreds entry: the key looks itself up to exactly
its own value, is accepted by no other component, and contains neither a
space nor a quote nor an `l`. -/
def hkeyOK (p : Str × Str) : Bool :=
  eqS (lookupT hundredsT p.1).flatten p.2 && ((lookupT hundredsT p.1).length == 1) &&
    (graph_tens_component p.1).isEmpty && (lookupT digitT p.1).isEmpty &&
    cfree ' ' p.1 && cfree 'l' p.1 && !(eqS p.1 [])

lemma hkeys_ok : hundredsT.all hkeyOK = true := by decide

lemma hundreds_nopre :
    hundredsT.all (fun p => hundredsT.all fun q => eqS p.1 q.1 || !(isPre p.1 q.1)) = true := by
  decide

lemma ties_not_pre_hundreds :
    tiesT.all (fun p => hundredsT.all fun q => !(isPre p.1 q.1)) = true := by decide

/-- All keys of the tens-level tables are free of spaces and of `l`. -/
lemma tens_keys_ok :
    (digitT ++ teensT ++ twentiesT ++ tiesT).all
      (fun p => cfree ' ' p.1 && cfree 'l' p.1) = true := by decide

lemma hw_mem {a : ℕ} (h1 : 1 ≤ a) (h2 : a ≤ 9) :
    (hundredsW a, hundredsO a) ∈ hundredsT := by
  interval_cases a <;> decide


/-! ### Characterization of `graph_hundred_component` on cardinal texts -/

lemma hkeyOK_spec {p : Str × Str} (hp : p ∈ hundredsT) :
    lookupT hundredsT p.1 = [p.2] ∧ graph_tens_component p.1 = [] ∧
      lookupT digitT p.1 = [] ∧ cfree ' ' p.1 = true ∧ cfree 'l' p.1 = true ∧
      p.1 ≠ [] := by
  have hx := (List.all_eq_true.mp hkeys_ok) p hp
  rw [hkeyOK] at hx
  simp only [Bool.and_eq_true] at hx
  obtain ⟨⟨⟨⟨⟨⟨he, hl⟩, ht⟩, hd⟩, hs⟩, hlf⟩, hne⟩ := hx
  refine ⟨singleton_of_flatten (eqS_iff.mp he) (by simpa using hl),
    by simpa [List.isEmpty_iff] using ht, by simpa [List.isEmpty_iff] using hd,
    hs, hlf, ?_⟩
  have : eqS p.1 [] = false := by revert hne; cases eqS p.1 [] <;> simp
  exact eqS_eq_false.mp this

lemma hund_nopre_spec {p q : Str × Str} (hp : p ∈ hundredsT) (hq : q ∈ hundredsT)
    (h : isPre p.1 q.1 = true) : p.1 = q.1 := by
  have hx := (List.all_eq_true.mp ((List.all_eq_true.mp hundreds_nopre) p hp)) q hq
  rw [h] at hx
  simp only [Bool.not_true, Bool.or_false] at hx
  exact eqS_iff.mp hx

lemma ties_hund_nopre {p q : Str × Str} (hp : p ∈ tiesT) (hq : q ∈ hundredsT) :
    isPre p.1 q.1 = false := by
  have hx := (List.all_eq_true.mp ((List.all_eq_true.mp ties_not_pre_hundreds) p hp)) q hq
  revert hx
  cases isPre p.1 q.1 <;> simp

lemma tens_keys_spec {p : Str × Str}
    (h : p ∈ digitT ∨ p ∈ teensT ∨ p ∈ twentiesT ∨ p ∈ tiesT) :
    cfree ' ' p.1 = true ∧ cfree 'l' p.1 = true := by
  have hm : p ∈ digitT ++ teensT ++ twentiesT ++ tiesT := by
    rcases h with h | h | h | h
    · exact List.mem_append.mpr (Or.inl (List.mem_append.mpr (Or.inl
        (List.mem_append.mpr (Or.inl h)))))
    · exact List.mem_append.mpr (Or.inl (List.mem_append.mpr (Or.inl
        (List.mem_append.mpr (Or.inr h)))))
    · exact List.mem_append.mpr (Or.inl (List.mem_append.mpr (Or.inr h)))
    · exact List.mem_append.mpr (Or.inr h)
  have hx := (List.all_eq_true.mp tens_keys_ok) p hm
  simp only [Bool.and_eq_true] at hx
  exact hx

lemma lookup_nil_of_space {tbl : List (Str × Str)} {s : Str}
    (hk : ∀ p ∈ tbl, cfree ' ' p.1 = true) (hs : ' ' ∈ s) :
    lookupT tbl s = [] := by
  by_contra hl
  obtain ⟨p, hp, hps⟩ := lookup_key hl
  exact (cfree_iff.mp (hps ▸ hk p hp)) hs

lemma graph_tens_nil_of {s : Str}
    (h1 : lookupT teensT s = []) (h2 : lookupT twentiesT s = [])
    (h3 : ∀ k, lookupT tiesT (s.take k) = []) :
    graph_tens_component s = [] := by
  rw [graph_tens_component, h1, h2]
  simp only [List.append_nil, List.nil_append]
  apply List.flatMap_eq_nil_iff.mpr
  intro q hq
  obtain ⟨k, hk, hq1, hq2⟩ := splits_mem hq
  rw [hq1, h3 k]
  simp

lemma tens_digit_nil_hund {W O b : Str} (hWO : (W, O) ∈ hundredsT) :
    graph_tens_component (W ++ ' ' :: b) = [] ∧
      lookupT digitT (W ++ ' ' :: b) = [] := by
  have hsp : ' ' ∈ W ++ ' ' :: b := List.mem_append.mpr (Or.inr (List.mem_cons_self _ _))
  constructor
  · apply graph_tens_nil_of
    · exact lookup_nil_of_space (fun p hp => (tens_keys_spec (Or.inr (Or.inl hp))).1) hsp
    · exact lookup_nil_of_space (fun p hp => (tens_keys_spec (Or.inr (Or.inr (Or.inl hp)))).1) hsp
    · intro k
      by_contra hl
      obtain ⟨p, hp, hpk⟩ := lookup_key hl
      have hpre : isPre p.1 (W ++ ' ' :: b) = true := by
        rw [hpk]
        exact isPre_take _ k
      rw [isPre_append_ne (tens_keys_spec (Or.inr (Or.inr (Or.inr hp)))).1] at hpre
      rw [ties_hund_nopre hp hWO] at hpre
      cases hpre
  · exact lookup_nil_of_space (fun p hp => (tens_keys_spec (Or.inl hp)).1) hsp

lemma hund_branch {W O T s : Str} (hWO : (W, O) ∈ hundredsT) (hs : s = W ++ T)
    (hT : T = [] ∨ ∃ b, T = ' ' :: b) :
    ((splitsL s).flatMap fun q =>
      (lookupT hundredsT q.1).flatMap fun oa => hundredSuffix oa q.2) =
      hundredSuffix O T := by
  have hWs : cfree ' ' W = true := (hkeyOK_spec hWO).2.2.2.1
  have hWlen : W.length ≤ s.length := by rw [hs]; simp
  rw [splits_flatMap]
  rw [range_flatMap_single (j := W.length) (by omega) ?side]
  case side =>
    intro k hk hne
    by_cases hl : lookupT hundredsT (s.take k) = []
    · rw [hl]
      rfl
    · exfalso
      obtain ⟨p, hp, hpk⟩ := lookup_key hl
      have hpre : isPre p.1 s = true := by
        rw [hpk]
        exact isPre_take s k
      have hpreW : isPre p.1 W = true := by
        rcases hT with rfl | ⟨b, rfl⟩
        · rw [hs, List.append_nil] at hpre
          exact hpre
        · rw [hs, isPre_append_ne (hkeyOK_spec hp).2.2.2.1] at hpre
          exact hpre
      have hpW : p.1 = W := hund_nopre_spec hp hWO hpreW
      have hklen : (s.take k).length = k := by
        rw [List.length_take]
        omega
      rw [← hpk, hpW] at hklen
      omega
  · have ht : s.take W.length = W := by
      rw [hs, List.take_left]
    have hd : s.drop W.length = T := by
      rw [hs, List.drop_left]
    rw [ht, hd, (hkeyOK_spec hWO).1]
    simp

lemma hund_char {h : ℕ} (h1 : 1 ≤ h) (h2 : h ≤ 999) :
    graph_hundred_component (cardHund h) = [ordHundExp h] := by
  by_cases hlt : h < 100
  · have hc : cardHund h = cardTens h := by rw [cardHund, if_pos hlt]
    have ho : ordHundExp h = ordTensExp h := by rw [ordHundExp, if_pos hlt]
    rw [graph_hundred_component, hc, ho]
    have hb : ((splitsL (cardTens h)).flatMap fun q =>
        (lookupT hundredsT q.1).flatMap fun oa => hundredSuffix oa q.2) = [] := by
      apply List.flatMap_eq_nil_iff.mpr
      intro q hq
      by_cases hl : lookupT hundredsT q.1 = []
      · rw [hl]
        rfl
      · exfalso
        obtain ⟨p, hp, hpk⟩ := lookup_key hl
        obtain ⟨k, hk, hq1, hq2⟩ := splits_mem hq
        have hno : isPre p.1 (cardTens h) = false := (bTens_spec h1 (by omega)).2 p hp
        rw [hpk, hq1] at hno
        rw [isPre_take] at hno
        cases hno
    rw [hb, List.nil_append]
    exact (bTens_spec h1 (by omega)).1
  · have ha1 : 1 ≤ h / 100 := by omega
    have ha9 : h / 100 ≤ 9 := by omega
    have hmem := hw_mem ha1 ha9
    have hc : cardHund h = hundredsW (h / 100) ++
        (if h % 100 = 0 then [] else ' ' :: cardTens (h % 100)) := by
      rw [cardHund, if_neg (by omega)]
    have ho : ordHundExp h = hundredsO (h / 100) ++
        (if h % 100 = 0 then [] else ' ' :: ordTensExp (h % 100)) := by
      rw [ordHundExp, if_neg (by omega)]
    rw [graph_hundred_component]
    by_cases hr0 : h % 100 = 0
    · rw [hc, if_pos hr0, List.append_nil]
      rw [hund_branch hmem (List.append_nil _).symm (Or.inl rfl)]
      rw [(hkeyOK_spec hmem).2.1, (hkeyOK_spec hmem).2.2.1]
      rw [ho, if_pos hr0, List.append_nil]
      simp [hundredSuffix]
    · have hT : (if h % 100 = 0 then ([] : Str) else ' ' :: cardTens (h % 100)) =
          ' ' :: cardTens (h % 100) := if_neg hr0
      rw [hc, hT]
      rw [hund_branch hmem rfl (Or.inr ⟨cardTens (h % 100), rfl⟩)]
      rw [(tens_digit_nil_hund hmem).1, (tens_digit_nil_hund hmem).2]
      have hsuf : hundredSuffix (hundredsO (h / 100)) (' ' :: cardTens (h % 100)) =
          [hundredsO (h / 100) ++ ' ' :: ordTensExp (h % 100)] := by
        show (if ' ' = ' '
          then ((graph_tens_component (cardTens (h % 100)) ++
            lookupT digitT (cardTens (h % 100))).map
              fun ob => hundredsO (h / 100) ++ ' ' :: ob)
          else []) = _
        rw [if_pos rfl, (bTens_spec (by omega) (by omega)).1]
        rfl
      rw [List.append_nil, List.append_nil, hsuf, ho, if_neg hr0]


/-! ### The thousands graphs: shapes, counts and characterization -/

/-- The non-deterministic core outputs at the `mille` boundary. -/
def thouCoreN (t : ℕ) : List Str :=
  if t = 1 then ["millesimo".toList]
  else [stripAccent (cardHund t) ++ "millesimo".toList,
    ordHundExp t ++ ' ' :: "millesimo".toList]

/-- The expected non-deterministic thousands outputs for 1000..999,999. -/
def ordAsmN (n : ℕ) : List Str :=
  (thouCoreN (n / 1000)).map fun oa =>
    oa ++ (if n % 1000 = 0 then [] else ' ' :: ordHundExp (n % 1000))

lemma eqS_false_of_length {x y : Str} (h : x.length ≠ y.length) :
    eqS x y = false := by
  rw [eqS_eq_false]
  intro he
  exact h (congrArg List.length he)

lemma A_shape {x : Str} (h : graph_thousands_A x ≠ []) :
    ∃ C, C ∈ one_to_one_thousand ∧ x = (C ++ [' ']) ++ "mille".toList := by
  rw [graph_thousands_A] at h
  obtain ⟨q, hq, hne⟩ := exists_of_flatMap_ne_nil h
  by_cases hc : (elemS q.1 one_to_one_thousand && eqS q.2 (' ' :: "mille".toList)) = true
  · rw [Bool.and_eq_true] at hc
    refine ⟨q.1, elemS_iff.mp hc.1, ?_⟩
    rw [splits_self hq, eqS_iff.mp hc.2]
    simp
  · rw [if_neg hc] at hne
    exact absurd rfl hne

lemma extra_shape {x : Str} (h : graph_thousands_nondet_extra x ≠ []) :
    ∃ C, C ∈ one_to_one_thousand ∧ x = (C ++ [' ']) ++ "mille".toList := by
  rw [graph_thousands_nondet_extra] at h
  obtain ⟨q, hq, hne⟩ := exists_of_flatMap_ne_nil h
  by_cases hc : (elemS q.1 one_to_one_thousand && eqS q.2 (' ' :: "mille".toList)) = true
  · rw [Bool.and_eq_true] at hc
    refine ⟨q.1, elemS_iff.mp hc.1, ?_⟩
    rw [splits_self hq, eqS_iff.mp hc.2]
    simp
  · rw [if_neg hc] at hne
    exact absurd rfl hne

lemma det_core_shape {x : Str} (h : graph_thousands_det_core x ≠ []) :
    ∃ X, x = X ++ "mille".toList ∧
      (X = [] ∨ ∃ C, C ∈ one_to_one_thousand ∧ X = C ++ [' ']) := by
  rw [graph_thousands_det_core] at h
  by_cases hA : graph_thousands_A x = []
  · rw [hA, List.nil_append] at h
    by_cases hm : eqS x "mille".toList = true
    · exact ⟨[], by rw [eqS_iff.mp hm, List.nil_append], Or.inl rfl⟩
    · rw [if_neg (by simpa using hm)] at h
      exact absurd rfl h
  · obtain ⟨C, hC, hx⟩ := A_shape hA
    exact ⟨C ++ [' '], hx, Or.inr ⟨C, hC, rfl⟩⟩

lemma nondet_core_shape {x : Str}
    (h : graph_thousands_det_core x ++ graph_thousands_nondet_extra x ≠ []) :
    ∃ X, x = X ++ "mille".toList ∧
      (X = [] ∨ ∃ C, C ∈ one_to_one_thousand ∧ X = C ++ [' ']) := by
  by_cases hd : graph_thousands_det_core x = []
  · rw [hd, List.nil_append] at h
    obtain ⟨C, hC, hx⟩ := extra_shape h
    exact ⟨C ++ [' '], hx, Or.inr ⟨C, hC, rfl⟩⟩
  · exact det_core_shape hd

lemma count_mille : ("mille".toList).count 'l' = 2 := by decide

lemma shape_count {x X : Str} (hx : x = X ++ "mille".toList)
    (hX : X = [] ∨ ∃ C, C ∈ one_to_one_thousand ∧ X = C ++ [' ']) :
    x.count 'l' = 2 := by
  subst hx
  rw [List.count_append, count_mille]
  rcases hX with rfl | ⟨C, hC, rfl⟩
  · rfl
  · rw [List.count_append, count_zero_of_cfree (ott_spec hC).1]
    rfl

lemma digit_accept {s : Str} (h : lookupT digitT s ≠ []) : cfree 'l' s = true := by
  obtain ⟨p, hp, hps⟩ := lookup_key h
  rw [← hps]
  exact (tens_keys_spec (Or.inl hp)).2

lemma tens_accept_lfree {s : Str} (h : graph_tens_component s ≠ []) :
    cfree 'l' s = true := by
  rw [graph_tens_component] at h
  by_cases h1 : lookupT teensT s = []
  swap
  · obtain ⟨p, hp, hps⟩ := lookup_key h1
    rw [← hps]
    exact (tens_keys_spec (Or.inr (Or.inl hp))).2
  by_cases h3 : lookupT twentiesT s = []
  swap
  · obtain ⟨p, hp, hps⟩ := lookup_key h3
    rw [← hps]
    exact (tens_keys_spec (Or.inr (Or.inr (Or.inl hp)))).2
  rw [h1, h3, List.nil_append, List.append_nil] at h
  obtain ⟨q, hq, hset⟩ := exists_of_flatMap_ne_nil h
  obtain ⟨oa, hoa, hne2⟩ := exists_of_flatMap_ne_nil hset
  have hties : lookupT tiesT q.1 ≠ [] := by
    intro hnil
    rw [hnil] at hoa
    cases hoa
  obtain ⟨p, hp, hps⟩ := lookup_key hties
  by_cases hq2 : q.2 = []
  · rw [splits_self hq, hq2, List.append_nil, ← hps]
    exact (tens_keys_spec (Or.inr (Or.inr (Or.inr hp)))).2
  · rw [if_neg hq2] at hne2
    have hdig : lookupT digitT q.2 ≠ [] := by
      intro hnil
      rw [hnil] at hne2
      exact hne2 rfl
    obtain ⟨p2, hp2, hps2⟩ := lookup_key hdig
    rw [splits_self hq, cfree_append, ← hps, ← hps2,
      (tens_keys_spec (Or.inr (Or.inr (Or.inr hp)))).2,
      (tens_keys_spec (Or.inl hp2)).2]
    rfl

lemma hund_accept_lfree {s : Str} (h : graph_hundred_component s ≠ []) :
    cfree 'l' s = true := by
  rw [graph_hundred_component] at h
  by_cases hb : ((splitsL s).flatMap fun q =>
      (lookupT hundredsT q.1).flatMap fun oa => hundredSuffix oa q.2) = []
  · rw [hb, List.nil_append] at h
    by_cases ht : graph_tens_component s = []
    · rw [ht, List.nil_append] at h
      exact digit_accept h
    · exact tens_accept_lfree ht
  · obtain ⟨q, hq, hne⟩ := exists_of_flatMap_ne_nil hb
    obtain ⟨oa, hoa, hne2⟩ := exists_of_flatMap_ne_nil hne
    have hhd : lookupT hundredsT q.1 ≠ [] := by
      intro hnil
      rw [hnil] at hoa
      cases hoa
    obtain ⟨p, hp, hps⟩ := lookup_key hhd
    have hkey : cfree 'l' q.1 = true := by
      rw [← hps]
      exact (hkeyOK_spec hp).2.2.2.2.1
    cases hq2 : q.2 with
    | nil =>
      rw [splits_self hq, hq2, List.append_nil]
      exact hkey
    | cons c b =>
      rw [hq2] at hne2
      by_cases hc : c = ' '
      · subst hc
        have hgb : graph_tens_component b ++ lookupT digitT b ≠ [] := by
          intro hnil
          rw [hundredSuffix, if_pos rfl, hnil] at hne2
          exact hne2 rfl
        have hbl : cfree 'l' b = true := by
          by_cases htb : graph_tens_component b = []
          · rw [htb, List.nil_append] at hgb
            exact digit_accept hgb
          · exact tens_accept_lfree htb
        rw [splits_self hq, hq2, cfree_append, hkey,
          cfree_cons (by decide) hbl]
        rfl
      · rw [hundredSuffix, if_neg hc] at hne2
        exact absurd rfl hne2

lemma hund_nil_of_l {s : Str} (hl : 'l' ∈ s) : graph_hundred_component s = [] := by
  by_cases h : graph_hundred_component s = []
  · exact h
  · exact absurd hl (cfree_iff.mp (hund_accept_lfree h))

lemma hundredRemainder_lfree {oa y : Str} (h : hundredRemainder oa y ≠ []) :
    cfree 'l' y = true := by
  cases y with
  | nil => rfl
  | cons c b =>
    by_cases hc : c = ' '
    · subst hc
      have hgb : graph_hundred_component b ≠ [] := by
        intro hnil
        rw [hundredRemainder, if_pos rfl, hnil] at h
        exact h rfl
      exact cfree_cons (by decide) (hund_accept_lfree hgb)
    · rw [hundredRemainder, if_neg hc] at h
      exact absurd rfl h

lemma thouW_nil {core : Str → List Str}
    (hcore : ∀ x, core x ≠ [] → x.count 'l' = 2) {c : Str}
    (h2 : c.count 'l' ≠ 2) : thousandsWithRemainder core c = [] := by
  rw [thousandsWithRemainder]
  apply List.flatMap_eq_nil_iff.mpr
  intro q hq
  by_cases hc : core q.1 = []
  · rw [hc]
    rfl
  · apply List.flatMap_eq_nil_iff.mpr
    intro oa hoa
    by_cases hr : hundredRemainder oa q.2 = []
    · exact hr
    · exfalso
      apply h2
      rw [splits_self hq, List.count_append, hcore q.1 hc,
        count_zero_of_cfree (hundredRemainder_lfree hr)]

lemma thou_det_nil {c : Str} (h2 : c.count 'l' ≠ 2) :
    graph_thousands_det c = [] :=
  thouW_nil (fun x hx => by
    obtain ⟨X, hX, hor⟩ := det_core_shape hx
    exact shape_count hX hor) h2

lemma thou_nondet_nil {c : Str} (h2 : c.count 'l' ≠ 2) :
    graph_thousands_nondet c = [] :=
  thouW_nil (fun x hx => by
    obtain ⟨X, hX, hor⟩ := nondet_core_shape hx
    exact shape_count hX hor) h2

lemma mille_align {A T s : Str} (hc : s = A ++ "mille".toList ++ T)
    (hA : cfree 'l' A = true) (hT : cfree 'l' T = true) {k : ℕ}
    (hk : k ≤ s.length) {X : Str} (hX : s.take k = X ++ "mille".toList) :
    k = A.length + 5 := by
  have h1 := congrArg List.length hX
  rw [List.length_take, Nat.min_eq_left hk, List.length_append,
    show ("mille".toList).length = 5 from rfl] at h1
  have g2 : s[X.length + 2]? = some 'l' := by
    have hg : (s.take k)[X.length + 2]? = some 'l' := by
      rw [hX, List.getElem?_append_right (by omega), Nat.add_sub_cancel_left]
      rfl
    rw [List.getElem?_take] at hg
    rw [if_pos (by omega)] at hg
    exact hg
  have g3 : s[X.length + 3]? = some 'l' := by
    have hg : (s.take k)[X.length + 3]? = some 'l' := by
      rw [hX, List.getElem?_append_right (by omega), Nat.add_sub_cancel_left]
      rfl
    rw [List.getElem?_take] at hg
    rw [if_pos (by omega)] at hg
    exact hg
  have hshape : s = A ++ 'm' :: 'i' :: 'l' :: 'l' :: ('e' :: T) := by
    rw [hc]
    simp
  have hB : cfree 'l' ('e' :: T) = true := cfree_cons (by decide) hT
  have e2 := lps hA hB _ (hshape ▸ g2)
  have e3 := lps hA hB _ (hshape ▸ g3)
  omega

lemma thouW_at {core : Str → List Str} {A T c : Str}
    (hshape : ∀ x, core x ≠ [] → ∃ X, x = X ++ "mille".toList ∧
      (X = [] ∨ ∃ C, C ∈ one_to_one_thousand ∧ X = C ++ [' ']))
    (hc : c = A ++ "mille".toList ++ T) (hA : cfree 'l' A = true)
    (hT : cfree 'l' T = true) :
    thousandsWithRemainder core c =
      (core (A ++ "mille".toList)).flatMap fun oa => hundredRemainder oa T := by
  have hclen : c.length = A.length + 5 + T.length := by
    rw [hc]
    simp
    omega
  rw [thousandsWithRemainder, splits_flatMap]
  rw [range_flatMap_single (j := A.length + 5) (by omega) ?side]
  · have htake : c.take (A.length + 5) = A ++ "mille".toList := by
      have : c = (A ++ "mille".toList) ++ T := by rw [hc]
      rw [this, List.take_left' (by simp)]
    have hdrop : c.drop (A.length + 5) = T := by
      have : c = (A ++ "mille".toList) ++ T := by rw [hc]
      rw [this, List.drop_left' (by simp)]
    rw [htake, hdrop]
  case side =>
    intro k hk hne
    by_cases hcore : core (c.take k) = []
    · rw [hcore]
      rfl
    · exfalso
      obtain ⟨X, hX, -⟩ := hshape _ hcore
      exact hne (mille_align hc hA hT (by omega) hX)

lemma A_nil_short {x : Str} (hlen : x.length < 6) : graph_thousands_A x = [] := by
  rw [graph_thousands_A]
  apply List.flatMap_eq_nil_iff.mpr
  intro q hq
  obtain ⟨k, hk, hq1, hq2⟩ := splits_mem hq
  have hfl : eqS q.2 (' ' :: "mille".toList) = false := by
    apply eqS_false_of_length
    rw [hq2, List.length_drop]
    show x.length - k ≠ 6
    omega
  rw [hfl, Bool.and_false]
  rfl

lemma extra_nil_short {x : Str} (hlen : x.length < 6) :
    graph_thousands_nondet_extra x = [] := by
  rw [graph_thousands_nondet_extra]
  apply List.flatMap_eq_nil_iff.mpr
  intro q hq
  obtain ⟨k, hk, hq1, hq2⟩ := splits_mem hq
  have hfl : eqS q.2 (' ' :: "mille".toList) = false := by
    apply eqS_false_of_length
    rw [hq2, List.length_drop]
    show x.length - k ≠ 6
    omega
  rw [hfl, Bool.and_false]
  rfl

lemma A_at {C : Str} (hC : C ∈ one_to_one_thousand) :
    graph_thousands_A (C ++ ' ' :: "mille".toList) =
      [delSpM (stripAccent C ++ ' ' :: "millesimo".toList)] := by
  have hlen : (C ++ ' ' :: "mille".toList).length = C.length + 6 := by simp
  rw [graph_thousands_A, splits_flatMap]
  rw [range_flatMap_single (j := C.length) (by omega) ?side]
  · rw [List.take_left, List.drop_left, elemS_iff.mpr hC, eqS_self]
    rfl
  case side =>
    intro k hk hne
    have hfl : eqS ((C ++ ' ' :: "mille".toList).drop k) (' ' :: "mille".toList) = false := by
      apply eqS_false_of_length
      rw [List.length_drop]
      show (C ++ ' ' :: "mille".toList).length - k ≠ 6
      omega
    rw [hfl, Bool.and_false]
    rfl

lemma extra_at {C : Str} (hC : C ∈ one_to_one_thousand) :
    graph_thousands_nondet_extra (C ++ ' ' :: "mille".toList) =
      (graph_hundred_component C).map fun o => o ++ ' ' :: "millesimo".toList := by
  have hlen : (C ++ ' ' :: "mille".toList).length = C.length + 6 := by simp
  rw [graph_thousands_nondet_extra, splits_flatMap]
  rw [range_flatMap_single (j := C.length) (by omega) ?side]
  · rw [List.take_left, List.drop_left, elemS_iff.mpr hC, eqS_self]
    simp
  case side =>
    intro k hk hne
    have hfl : eqS ((C ++ ' ' :: "mille".toList).drop k) (' ' :: "mille".toList) = false := by
      apply eqS_false_of_length
      rw [List.length_drop]
      show (C ++ ' ' :: "mille".toList).length - k ≠ 6
      omega
    rw [hfl, Bool.and_false]
    rfl

lemma det_core_mille :
    graph_thousands_det_core ("mille".toList) = ["millesimo".toList] := by
  rw [graph_thousands_det_core, A_nil_short (by decide), eqS_self]
  rfl

lemma bool_false_ne_true : ¬ (false = true) := by simp

lemma nondet_core_mille :
    graph_thousands_det_core ("mille".toList) ++
      graph_thousands_nondet_extra ("mille".toList) = ["millesimo".toList] := by
  rw [det_core_mille, extra_nil_short (by decide)]
  rfl

lemma det_core_C {t : ℕ} (h1 : 2 ≤ t) (h2 : t ≤ 999) :
    graph_thousands_det_core (cardHund t ++ ' ' :: "mille".toList) = [thouText t] := by
  rw [graph_thousands_det_core, A_at (mem_ott (by omega) h2)]
  have hm : eqS (cardHund t ++ ' ' :: "mille".toList) "mille".toList = false := by
    apply eqS_false_of_length
    simp
  rw [hm, if_neg bool_false_ne_true, (bThou_spec (by omega) h2).1, thouText,
    if_neg (show ¬ t = 1 by omega)]
  rfl

lemma nondet_core_C {t : ℕ} (h1 : 2 ≤ t) (h2 : t ≤ 999) :
    graph_thousands_det_core (cardHund t ++ ' ' :: "mille".toList) ++
      graph_thousands_nondet_extra (cardHund t ++ ' ' :: "mille".toList) =
      thouCoreN t := by
  rw [det_core_C h1 h2, extra_at (mem_ott (by omega) h2), hund_char (by omega) h2]
  rw [thouCoreN, if_neg (show ¬ t = 1 by omega), thouText,
    if_neg (show ¬ t = 1 by omega)]
  rfl


/-! ### Assembly: the ordinal graphs on parsed digit strings -/

lemma card_graph_some {s : Str} {n : ℕ} (hp : parseDigits s = some n)
    (hlt : n < 1000000000) : cardinal_graph s = some (cardText n) := by
  rw [cardinal_graph, hp]
  simp [hlt]

lemma cardText_small {n : ℕ} (h1 : 1 ≤ n) (hn : n < 1000) :
    cardText n = cardHund n := by
  rw [cardText, if_neg (by omega), if_pos (by omega), cardUnder1M, if_pos hn]

lemma cardText_mid {n : ℕ} (h1 : 1000 ≤ n) (h2 : n ≤ 999999) :
    cardText n = cardUnder1M n := by
  rw [cardText, if_neg (by omega), if_pos (by omega)]

lemma count_cardHund_zero {n : ℕ} (h1 : 1 ≤ n) (h2 : n ≤ 999) :
    (cardHund n).count 'l' = 0 :=
  count_zero_of_cfree (bCard_spec h1 h2).1

lemma count_sp_mille : (' ' :: "mille".toList).count 'l' = 2 := by decide

lemma count_sp_cons {x : Str} : (' ' :: x).count 'l' = x.count 'l' := by
  rw [List.count_cons]
  simp

lemma count_cardUnder1M_two {n : ℕ} (h1 : 1000 ≤ n) (h2 : n ≤ 999999) :
    (cardUnder1M n).count 'l' = 2 := by
  have hT : (if n % 1000 = 0 then ([] : Str) else
      ' ' :: cardHund (n % 1000)).count 'l' = 0 := by
    by_cases hv : n % 1000 = 0
    · rw [if_pos hv]
      rfl
    · rw [if_neg hv, count_sp_cons]
      exact count_cardHund_zero (by omega) (by omega)
  rw [cardUnder1M, if_neg (by omega), List.count_append, hT]
  by_cases h1000 : n / 1000 = 1
  · rw [if_pos h1000, count_mille]
  · rw [if_neg h1000, List.count_append,
      count_cardHund_zero (by omega) (by omega), count_sp_mille]

lemma count_cardText_million {n : ℕ} (h1 : 1000000 ≤ n) (h2 : n < 1000000000) :
    (cardText n).count 'l' = 1 ∨ (cardText n).count 'l' = 3 := by
  have hM : (if n / 1000000 = 1 then "un".toList else
      cardHund (n / 1000000)).count 'l' = 0 := by
    by_cases hm1 : n / 1000000 = 1
    · rw [if_pos hm1]
      decide
    · rw [if_neg hm1]
      exact count_cardHund_zero (by omega) (by omega)
  have hNI : (if n / 1000000 = 1 then "ne".toList else "ni".toList).count 'l' = 0 := by
    by_cases hm1 : n / 1000000 = 1
    · rw [if_pos hm1]
      decide
    · rw [if_neg hm1]
      decide
  have hCH : ((' ' :: 'm' :: 'i' :: 'l' :: 'i' :: 'o' :: []) : Str).count 'l' = 1 := by
    decide
  have hT : (if n % 1000000 = 0 then ([] : Str) else
      ' ' :: cardUnder1M (n % 1000000)).count 'l' = 0 ∨
      (if n % 1000000 = 0 then ([] : Str) else
      ' ' :: cardUnder1M (n % 1000000)).count 'l' = 2 := by
    by_cases hv : n % 1000000 = 0
    · rw [if_pos hv]
      exact Or.inl rfl
    · rw [if_neg hv, count_sp_cons]
      by_cases hvlt : n % 1000000 < 1000
      · refine Or.inl ?_
        rw [cardUnder1M, if_pos hvlt]
        exact count_cardHund_zero (by omega) (by omega)
      · exact Or.inr (count_cardUnder1M_two (by omega) (by omega))
  rw [cardText, if_neg (by omega), if_neg (by omega), List.count_append,
    List.count_append, List.count_append, hM, hCH, hNI]
  rcases hT with h | h
  · rw [h]
    exact Or.inl rfl
  · rw [h]
    exact Or.inr rfl

lemma mem_l_cardText_million {n : ℕ} (h1 : 1000000 ≤ n) (h2 : n < 1000000000) :
    'l' ∈ cardText n := by
  rw [cardText, if_neg (by omega), if_neg (by omega)]
  exact List.mem_append.mpr (Or.inr (List.mem_append.mpr (Or.inl (by decide))))

lemma hzero : graph_hundred_component ("zero".toList) = [] := by decide

lemma mem_l_cardUnder1M {n : ℕ} (h1 : 1000 ≤ n) (h2 : n ≤ 999999) :
    'l' ∈ cardUnder1M n := by
  by_contra hmem
  have h0 : (cardUnder1M n).count 'l' = 0 := List.count_eq_zero.mpr hmem
  rw [count_cardUnder1M_two h1 h2] at h0
  exact absurd h0 (by omega)

lemma hundredRemainder_at {v : ℕ} (h1 : 1 ≤ v) (h2 : v ≤ 999) (oa : Str) :
    hundredRemainder oa (' ' :: cardHund v) = [oa ++ ' ' :: ordHundExp v] := by
  rw [hundredRemainder, if_pos rfl, hund_char h1 h2]
  rfl

lemma thou_det_char {n : ℕ} (h1 : 1000 ≤ n) (h2 : n ≤ 999999) :
    graph_thousands_det (cardUnder1M n) = [ordAsm n] := by
  have ht1 : 1 ≤ n / 1000 := by omega
  have ht2 : n / 1000 ≤ 999 := by omega
  have hasm : ordAsm n = thouText (n / 1000) ++
      (if n % 1000 = 0 then [] else ' ' :: ordHundExp (n % 1000)) := by
    rw [ordAsm, if_neg (by omega)]
  have hT : cfree 'l' (if n % 1000 = 0 then ([] : Str) else
      ' ' :: cardHund (n % 1000)) = true := by
    by_cases hv : n % 1000 = 0
    · rw [if_pos hv]
      rfl
    · rw [if_neg hv]
      exact cfree_cons (by decide) (bCard_spec (by omega) (by omega)).1
  by_cases h1000 : n / 1000 = 1
  · have hc : cardUnder1M n = [] ++ "mille".toList ++
        (if n % 1000 = 0 then [] else ' ' :: cardHund (n % 1000)) := by
      rw [cardUnder1M, if_neg (by omega), if_pos h1000, List.nil_append]
    rw [graph_thousands_det, thouW_at (fun x hx => det_core_shape hx) hc rfl hT]
    rw [List.nil_append, det_core_mille]
    by_cases hv : n % 1000 = 0
    · rw [if_pos hv]
      rw [hasm, if_pos hv, thouText, if_pos h1000, List.append_nil]
      rfl
    · rw [if_neg hv]
      show hundredRemainder "millesimo".toList (' ' :: cardHund (n % 1000)) ++ [] = _
      rw [List.append_nil, hundredRemainder_at (by omega) (by omega)]
      rw [hasm, if_neg hv, thouText, if_pos h1000]
  · have hc : cardUnder1M n = (cardHund (n / 1000) ++ [' ']) ++ "mille".toList ++
        (if n % 1000 = 0 then [] else ' ' :: cardHund (n % 1000)) := by
      rw [cardUnder1M, if_neg (by omega), if_neg h1000]
      simp
    have hA : cfree 'l' (cardHund (n / 1000) ++ [' ']) = true := by
      rw [cfree_append, (bCard_spec ht1 ht2).1]
      decide
    rw [graph_thousands_det, thouW_at (fun x hx => det_core_shape hx) hc hA hT]
    rw [show (cardHund (n / 1000) ++ [' ']) ++ "mille".toList =
      cardHund (n / 1000) ++ ' ' :: "mille".toList from by simp]
    rw [det_core_C (by omega) ht2]
    by_cases hv : n % 1000 = 0
    · rw [if_pos hv]
      rw [hasm, if_pos hv, List.append_nil]
      rfl
    · rw [if_neg hv]
      show hundredRemainder (thouText (n / 1000)) (' ' :: cardHund (n % 1000)) ++ [] = _
      rw [List.append_nil, hundredRemainder_at (by omega) (by omega)]
      rw [hasm, if_neg hv]

lemma thou_nondet_char {n : ℕ} (h1 : 1000 ≤ n) (h2 : n ≤ 999999) :
    graph_thousands_nondet (cardUnder1M n) = ordAsmN n := by
  have ht1 : 1 ≤ n / 1000 := by omega
  have ht2 : n / 1000 ≤ 999 := by omega
  have hT : cfree 'l' (if n % 1000 = 0 then ([] : Str) else
      ' ' :: cardHund (n % 1000)) = true := by
    by_cases hv : n % 1000 = 0
    · rw [if_pos hv]
      rfl
    · rw [if_neg hv]
      exact cfree_cons (by decide) (bCard_spec (by omega) (by omega)).1
  by_cases h1000 : n / 1000 = 1
  · have hc : cardUnder1M n = [] ++ "mille".toList ++
        (if n % 1000 = 0 then [] else ' ' :: cardHund (n % 1000)) := by
      rw [cardUnder1M, if_neg (by omega), if_pos h1000, List.nil_append]
    rw [graph_thousands_nondet, thouW_at (fun x hx => nondet_core_shape hx) hc rfl hT]
    rw [List.nil_append, nondet_core_mille]
    rw [ordAsmN, thouCoreN, h1000, if_pos rfl]
    by_cases hv : n % 1000 = 0
    · simp only [if_pos hv]
      simp [hundredRemainder]
    · simp only [if_neg hv]
      simp only [hundredRemainder_at (show (1:ℕ) ≤ n % 1000 from by omega)
        (show n % 1000 ≤ 999 from by omega)]
      simp
  · have hc : cardUnder1M n = (cardHund (n / 1000) ++ [' ']) ++ "mille".toList ++
        (if n % 1000 = 0 then [] else ' ' :: cardHund (n % 1000)) := by
      rw [cardUnder1M, if_neg (by omega), if_neg h1000]
      simp
    have hA : cfree 'l' (cardHund (n / 1000) ++ [' ']) = true := by
      rw [cfree_append, (bCard_spec ht1 ht2).1]
      decide
    rw [graph_thousands_nondet, thouW_at (fun x hx => nondet_core_shape hx) hc hA hT]
    rw [show (cardHund (n / 1000) ++ [' ']) ++ "mille".toList =
      cardHund (n / 1000) ++ ' ' :: "mille".toList from by simp]
    rw [nondet_core_C (by omega) ht2]
    rw [ordAsmN, thouCoreN, if_neg h1000]
    by_cases hv : n % 1000 = 0
    · simp only [if_pos hv]
      simp [hundredRemainder]
    · simp only [if_neg hv]
      simp only [hundredRemainder_at (show (1:ℕ) ≤ n % 1000 from by omega)
        (show n % 1000 ≤ 999 from by omega)]
      simp

lemma ordAsm_mem_N {n : ℕ} (h1 : 1000 ≤ n) (h2 : n ≤ 999999) :
    ordAsm n ∈ ordAsmN n ∧ ordAsmN n ≠ [] := by
  have hasm : ordAsm n = thouText (n / 1000) ++
      (if n % 1000 = 0 then [] else ' ' :: ordHundExp (n % 1000)) := by
    rw [ordAsm, if_neg (by omega)]
  constructor
  · rw [ordAsmN, hasm]
    apply List.mem_map.mpr
    refine ⟨thouText (n / 1000), ?_, rfl⟩
    rw [thouCoreN, thouText]
    by_cases h1000 : n / 1000 = 1
    · rw [if_pos h1000, if_pos h1000]
      exact List.mem_cons_self _ _
    · rw [if_neg h1000, if_neg h1000]
      exact List.mem_cons_self _ _
  · rw [ordAsmN, thouCoreN]
    by_cases h1000 : n / 1000 = 1
    · rw [if_pos h1000]
      simp
    · rw [if_neg h1000]
      simp

lemma ord_det_accept {n : ℕ} {s : Str} (h1 : 1 ≤ n) (h2 : n ≤ 999999)
    (hp : parseDigits s = some n) : ordinalDet s = [ordExp n] := by
  simp only [ordinalDet, card_graph_some hp (by omega)]
  by_cases hn : n < 1000
  · rw [cardText_small h1 hn,
      thou_det_nil (by rw [count_cardHund_zero h1 (by omega)]; omega),
      hund_char h1 (by omega), List.nil_append]
    rw [show ordExp n = elideO (ordHundExp n) from by rw [ordExp, ordAsm, if_pos hn]]
    rfl
  · rw [cardText_mid (by omega) h2, thou_det_char (by omega) h2,
      hund_nil_of_l (mem_l_cardUnder1M (by omega) h2), List.append_nil]
    rfl

lemma ord_nondet_accept {n : ℕ} {s : Str} (h1 : 1 ≤ n) (h2 : n ≤ 999999)
    (hp : parseDigits s = some n) :
    ordExp n ∈ ordinalNondet s ∧ ordinalNondet s ≠ [] := by
  simp only [ordinalNondet, card_graph_some hp (by omega)]
  by_cases hn : n < 1000
  · rw [cardText_small h1 hn,
      thou_nondet_nil (by rw [count_cardHund_zero h1 (by omega)]; omega),
      hund_char h1 (by omega), List.nil_append]
    constructor
    · apply List.mem_map.mpr
      refine ⟨ordHundExp n, by simp, ?_⟩
      rw [ordExp, ordAsm, if_pos hn]
    · simp
  · rw [cardText_mid (by omega) h2, thou_nondet_char (by omega) h2,
      hund_nil_of_l (mem_l_cardUnder1M (by omega) h2), List.append_nil]
    obtain ⟨hmem, hne⟩ := ordAsm_mem_N (by omega) h2
    constructor
    · apply List.mem_map.mpr
      exact ⟨ordAsm n, List.mem_append.mpr (Or.inl hmem), rfl⟩
    · intro hnil
      rw [List.map_eq_nil_iff] at hnil
      exact hne (List.append_eq_nil.mp hnil).1

lemma ord_reject {s : Str}
    (h : ∀ n, parseDigits s = some n → n = 0 ∨ 999999 < n) :
    ordinalDet s = [] ∧ ordinalNondet s = [] := by
  cases hps : parseDigits s with
  | none =>
    have hcg : cardinal_graph s = none := by
      rw [cardinal_graph, hps]
      rfl
    constructor <;> simp [ordinalDet, ordinalNondet, hcg]
  | some n =>
    rcases h n hps with rfl | hbig
    · have hcg : cardinal_graph s = some ("zero".toList) := by
        rw [card_graph_some hps (by omega)]
        rfl
      constructor
      · simp only [ordinalDet, hcg]
        rw [thou_det_nil (by decide), hzero]
        rfl
      · simp only [ordinalNondet, hcg]
        rw [thou_nondet_nil (by decide), hzero]
        rfl
    · by_cases hlt : n < 1000000000
      · have hcg := card_graph_some hps hlt
        have hcount := count_cardText_million (by omega) hlt
        have hth : graph_thousands_det (cardText n) = [] :=
          thou_det_nil (by rcases hcount with h | h <;> omega)
        have hthn : graph_thousands_nondet (cardText n) = [] :=
          thou_nondet_nil (by rcases hcount with h | h <;> omega)
        have hh := hund_nil_of_l (mem_l_cardText_million (by omega) hlt)
        constructor
        · simp only [ordinalDet, hcg]
          rw [hth, hh]
          rfl
        · simp only [ordinalNondet, hcg]
          rw [hthn, hh]
          rfl
      · have hcg : cardinal_graph s = none := by
          rw [cardinal_graph, hps]
          simp [hlt]
        constructor <;> simp [ordinalDet, ordinalNondet, hcg]

/-- Full case analysis of the deterministic ordinal graph. -/
lemma ord_det_cases (s : Str) :
    ordinalDet s = [] ∨ ∃ n, parseDigits s = some n ∧ 1 ≤ n ∧ n ≤ 999999 ∧
      ordinalDet s = [ordExp n] := by
  cases hps : parseDigits s with
  | none =>
    refine Or.inl (ord_reject fun n h => ?_).1
    rw [hps] at h
    cases h
  | some n =>
    by_cases hn : 1 ≤ n ∧ n ≤ 999999
    · exact Or.inr ⟨n, rfl, hn.1, hn.2, ord_det_accept hn.1 hn.2 hps⟩
    · refine Or.inl (ord_reject fun m hm => ?_).1
      rw [hps] at hm
      injection hm with hnm
      omega


/-! ### Elision facts for expected outputs -/

lemma thouText_no {t : ℕ} (h1 : 1 ≤ t) (h2 : t ≤ 999) :
    elideO (thouText t) = thouText t ∧
      hasInfix "oottavo".toList (thouText t) = false ∧
      cfree '"' (thouText t) = true := by
  by_cases ht : t = 1
  · subst ht
    rw [thouText, if_pos rfl]
    exact ⟨by decide, by decide, by decide⟩
  · rw [thouText, if_neg ht]
    exact ⟨(bThou_spec h1 h2).2.1, (bThou_spec h1 h2).2.2.1, (bThou_spec h1 h2).2.2.2⟩

lemma ordExp_shape {n : ℕ} (h1 : 1000 ≤ n) (h2 : n ≤ 999999) :
    ordExp n = thouText (n / 1000) ++
      (if n % 1000 = 0 then [] else ' ' :: elideO (ordHundExp (n % 1000))) := by
  rw [ordExp, ordAsm, if_neg (by omega)]
  by_cases hv : n % 1000 = 0
  · simp only [if_pos hv, List.append_nil]
    exact (thouText_no (by omega) (by omega)).1
  · simp only [if_neg hv]
    rw [elideO_append_space, (thouText_no (by omega) (by omega)).1]

lemma ordExp_no_oottavo {n : ℕ} (h1 : 1 ≤ n) (h2 : n ≤ 999999) :
    hasInfix "oottavo".toList (ordExp n) = false := by
  by_cases hn : n < 1000
  · rw [ordExp, ordAsm, if_pos hn]
    exact (bHundE_spec h1 (by omega)).2.2.1
  · rw [ordExp_shape (by omega) h2]
    by_cases hv : n % 1000 = 0
    · simp only [if_pos hv]
      rw [List.append_nil]
      exact (thouText_no (by omega) (by omega)).2.1
    · simp only [if_neg hv]
      rw [hasInfix_append_ne (by decide) (by decide),
        (thouText_no (by omega) (by omega)).2.1,
        (bHundE_spec (show 1 ≤ n % 1000 by omega) (by omega)).2.2.1]
      rfl

lemma ordExp_qfree {n : ℕ} (h1 : 1 ≤ n) (h2 : n ≤ 999999) :
    cfree '"' (ordExp n) = true := by
  by_cases hn : n < 1000
  · rw [ordExp, ordAsm, if_pos hn]
    exact (bHundE_spec h1 (by omega)).2.2.2.1
  · rw [ordExp_shape (by omega) h2]
    by_cases hv : n % 1000 = 0
    · simp only [if_pos hv]
      rw [List.append_nil]
      exact (thouText_no (by omega) (by omega)).2.2
    · simp only [if_neg hv]
      rw [cfree_append, (thouText_no (by omega) (by omega)).2.2,
        cfree_cons (by decide)
          (bHundE_spec (show 1 ≤ n % 1000 by omega) (by omega)).2.2.2.1]
      rfl

/-! ### Claim theorems: the ordinal grammar -/

/-- C6: thousand-ordinal formation.  For every cardinal prefix 2..999 the
deterministic thousands graph outputs exactly the accent-stripped cardinal
text merged with `millesimo` into one orthographic word (the separating
space is deleted); the non-deterministic graph adds exactly one extra
branch, which keeps the word boundary but ordinalizes the prefix
(`graph_hundred_component` output ++ ` millesimo`), not the claimed
cardinal prefix: for the input `due mille`, `secondo millesimo` is offered
and `due millesimo` (the cardinal prefix with a kept boundary) is not. -/
theorem C6_thousands_formation :
    (∀ t, 2 ≤ t → t ≤ 999 →
      graph_thousands_det (cardHund t ++ ' ' :: "mille".toList) =
        [stripAccent (cardHund t) ++ "millesimo".toList] ∧
      graph_thousands_nondet (cardHund t ++ ' ' :: "mille".toList) =
        [stripAccent (cardHund t) ++ "millesimo".toList,
          ordHundExp t ++ ' ' :: "millesimo".toList]) ∧
    "due millesimo".toList ∉ graph_thousands_nondet ("due mille".toList) ∧
    "secondo millesimo".toList ∈ graph_thousands_nondet ("due mille".toList) ∧
    "duemillesimo".toList ∈ graph_thousands_nondet ("due mille".toList) := by
  have hmain : ∀ t, 2 ≤ t → t ≤ 999 →
      graph_thousands_det (cardHund t ++ ' ' :: "mille".toList) =
        [stripAccent (cardHund t) ++ "millesimo".toList] ∧
      graph_thousands_nondet (cardHund t ++ ' ' :: "mille".toList) =
        [stripAccent (cardHund t) ++ "millesimo".toList,
          ordHundExp t ++ ' ' :: "millesimo".toList] := by
    intro t ht2 ht999
    have hdiv : 1000 * t / 1000 = t := by omega
    have hmod : 1000 * t % 1000 = 0 := by omega
    have hc : cardUnder1M (1000 * t) = cardHund t ++ ' ' :: "mille".toList := by
      rw [cardUnder1M, if_neg (by omega), hdiv, hmod, if_neg (by omega), if_pos rfl,
        List.append_nil]
    constructor
    · have := thou_det_char (n := 1000 * t) (by omega) (by omega)
      rw [hc, ordAsm, if_neg (by omega), hdiv, hmod, if_pos rfl, List.append_nil,
        thouText, if_neg (by omega)] at this
      exact this
    · have := thou_nondet_char (n := 1000 * t) (by omega) (by omega)
      rw [hc, ordAsmN, hdiv, hmod, thouCoreN] at this
      rw [if_pos (rfl : (0 : ℕ) = 0)] at this
      rw [if_neg (show ¬ t = 1 from by omega)] at this
      simpa using this
  refine ⟨hmain, ?_, ?_, ?_⟩
  · have h2 := (hmain 2 (by omega) (by omega)).2
    rw [show "due mille".toList = cardHund 2 ++ ' ' :: "mille".toList from by decide] at *
    rw [h2]
    decide
  · have h2 := (hmain 2 (by omega) (by omega)).2
    rw [show "due mille".toList = cardHund 2 ++ ' ' :: "mille".toList from by decide, h2]
    decide
  · have h2 := (hmain 2 (by omega) (by omega)).2
    rw [show "due mille".toList = cardHund 2 ++ ' ' :: "mille".toList from by decide, h2]
    decide

/-- Counterexample for C6: in non-deterministic mode the added
word-boundary branch ordinalizes the prefix, so for the input `due mille`
the grammar offers `secondo millesimo` and the merged `duemillesimo`, but
not the claimed cardinal-prefix spelling `due millesimo`. -/
theorem C6_thousands_cex :
    "due millesimo".toList ∉ graph_thousands_nondet ("due mille".toList) ∧
      "secondo millesimo".toList ∈ graph_thousands_nondet ("due mille".toList) ∧
      "duemillesimo".toList ∈ graph_thousands_nondet ("due mille".toList) := by
  have hdiv : 1000 * 2 / 1000 = 2 := by omega
  have hmod : 1000 * 2 % 1000 = 0 := by omega
  have hc : cardUnder1M (1000 * 2) = cardHund 2 ++ ' ' :: "mille".toList := by
    rw [cardUnder1M, if_neg (by omega), hdiv, hmod, if_neg (by omega), if_pos rfl,
      List.append_nil]
  have h2 : graph_thousands_nondet (cardHund 2 ++ ' ' :: "mille".toList) =
      [stripAccent (cardHund 2) ++ "millesimo".toList,
        ordHundExp 2 ++ ' ' :: "millesimo".toList] := by
    have := thou_nondet_char (n := 1000 * 2) (by omega) (by omega)
    rw [hc, ordAsmN, hdiv, hmod, thouCoreN] at this
    rw [if_pos (rfl : (0 : ℕ) = 0)] at this
    rw [if_neg (show ¬ (2 : ℕ) = 1 from by omega)] at this
    simpa using this
  refine ⟨?_, ?_, ?_⟩ <;>
    rw [show "due mille".toList = cardHund 2 ++ ' ' :: "mille".toList from by decide,
      h2] <;>
      decide

/-- Witness for C6 at the concrete prefix `due` (t = 2). -/
theorem C6_thousands_formation_witness :
    ((2 : ℕ) ≤ 2 ∧ 2 ≤ 999) ∧
      (graph_thousands_det (cardHund 2 ++ ' ' :: "mille".toList) =
        [stripAccent (cardHund 2) ++ "millesimo".toList] ∧
      graph_thousands_nondet (cardHund 2 ++ ' ' :: "mille".toList) =
        [stripAccent (cardHund 2) ++ "millesimo".toList,
          ordHundExp 2 ++ ' ' :: "millesimo".toList]) :=
  ⟨⟨by decide, by decide⟩, C6_thousands_formation.1 2 (by decide) (by decide)⟩

/-- C9: the `ottavo` elision.  Every output of the deterministic ordinal
grammar is free of the pattern `oottavo` (a vowel `o` directly before
`ottavo` never survives); before the final targeted deletion the assembled
text for 38 still carries the vowel (`trentesimoottavo`), and the grammar
output for the digit string `38` is the elided `trentesimottavo`. -/
theorem C9_ottavo_elision :
    (∀ s o, o ∈ ordinalDet s → hasInfix "oottavo".toList o = false) ∧
    ordAsm 38 = "trentesimoottavo".toList ∧
    ordinalDet ("38".toList) = ["trentesimottavo".toList] := by
  refine ⟨?_, by decide, ?_⟩
  · intro s o hmem
    rcases ord_det_cases s with hnil | ⟨n, hp, h1, h2, heq⟩
    · rw [hnil] at hmem
      cases hmem
    · rw [heq] at hmem
      rcases List.mem_singleton.mp hmem with rfl
      exact ordExp_no_oottavo h1 h2
  · rw [ord_det_accept (n := 38) (by decide) (by decide) (by decide)]
    decide

/-- Witness for C9 at the digit string `38`. -/
theorem C9_ottavo_elision_witness :
    "trentesimottavo".toList ∈ ordinalDet ("38".toList) ∧
      hasInfix "oottavo".toList "trentesimottavo".toList = false := by
  have hm : "trentesimottavo".toList ∈ ordinalDet ("38".toList) := by
    rw [C9_ottavo_elision.2.2]
    exact List.mem_singleton.mpr rfl
  exact ⟨hm, C9_ottavo_elision.1 ("38".toList) "trentesimottavo".toList hm⟩

/-- C1: range and uniqueness of the ordinal grammar.  Every well-formed
digit string of value 1..999,999 has exactly one deterministic output (the
expected ordinal text) and a non-empty set of non-deterministic outputs
containing it; every digit string parsing to 0 or to a value above
999,999 (including all malformed strings, which parse to nothing) has no
output in either mode. -/
theorem C1_ordinal_range :
    (∀ s n, parseDigits s = some n → 1 ≤ n → n ≤ 999999 →
      ordinalDet s = [ordExp n] ∧
      ordExp n ∈ ordinalNondet s ∧ ordinalNondet s ≠ []) ∧
    (∀ s, (∀ n, parseDigits s = some n → n = 0 ∨ 999999 < n) →
      ordinalDet s = [] ∧ ordinalNondet s = []) := by
  constructor
  · intro s n hp h1 h2
    exact ⟨ord_det_accept h1 h2 hp, (ord_nondet_accept h1 h2 hp).1,
      (ord_nondet_accept h1 h2 hp).2⟩
  · intro s h
    exact ord_reject h

/-- Witness for C1 at the digit string `21` and the rejected `1000000`. -/
theorem C1_ordinal_range_witness :
    (parseDigits ("21".toList) = some 21 ∧ (1 : ℕ) ≤ 21 ∧ (21 : ℕ) ≤ 999999) ∧
      (ordinalDet ("21".toList) = [ordExp 21] ∧
        ordExp 21 ∈ ordinalNondet ("21".toList) ∧
        ordinalNondet ("21".toList) ≠ []) ∧
      (ordinalDet ("1000000".toList) = [] ∧ ordinalNondet ("1000000".toList) = []) :=
  ⟨⟨by decide, by decide, by decide⟩,
    C1_ordinal_range.1 ("21".toList) 21 (by decide) (by decide) (by decide),
    C1_ordinal_range.2 ("1000000".toList) (fun n h => by
      have hn : n = 1000000 := by
        have : parseDigits ("1000000".toList) = some 1000000 := by decide
        rw [this] at h
        injection h with h2
        exact h2.symm
      omega)⟩


/-! ### Canonicity of the digit-string reading -/

lemma digitVal_elim {c : Char} {d : ℕ} (h : digitVal c = some d) :
    d ≤ 9 ∧ c.toNat = d + 48 := by
  rw [digitVal] at h
  by_cases hc : 48 ≤ c.toNat ∧ c.toNat ≤ 57
  · rw [if_pos hc] at h
    injection h with h2
    omega
  · rw [if_neg hc] at h
    cases h

lemma digitVal_inj {c₁ c₂ : Char} {d : ℕ} (h1 : digitVal c₁ = some d)
    (h2 : digitVal c₂ = some d) : c₁ = c₂ := by
  have e1 := (digitVal_elim h1).2
  have e2 := (digitVal_elim h2).2
  apply Char.ext
  apply UInt32.ext
  simpa [Char.toNat] using e1.trans e2.symm

lemma digitVal_zero {c : Char} (h : digitVal c = some 0) : c = '0' := by
  apply digitVal_inj h
  decide

lemma aux_bounds : ∀ {s : Str} {acc m : ℕ}, parseDigitsAux s acc = some m →
    acc * 10 ^ s.length ≤ m ∧ m < (acc + 1) * 10 ^ s.length := by
  intro s
  induction s with
  | nil =>
    intro acc m h
    injection h with h2
    subst h2
    simp
  | cons c r ih =>
    intro acc m h
    cases hd : digitVal c with
    | none =>
      rw [parseDigitsAux, hd] at h
      cases h
    | some d =>
      rw [parseDigitsAux, hd] at h
      have hb := ih h
      have hd9 := (digitVal_elim hd).1
      have hp : (10:ℕ) ^ (r.length + 1) = 10 ^ r.length * 10 := pow_succ 10 r.length
      constructor
      · calc acc * 10 ^ (c :: r).length = (acc * 10) * 10 ^ r.length := by
              rw [List.length_cons, hp]
              ring
          _ ≤ (acc * 10 + d) * 10 ^ r.length :=
              Nat.mul_le_mul_right _ (by omega)
          _ ≤ m := hb.1
      · calc m < (acc * 10 + d + 1) * 10 ^ r.length := hb.2
          _ ≤ ((acc + 1) * 10) * 10 ^ r.length :=
              Nat.mul_le_mul_right _ (by omega)
          _ = (acc + 1) * 10 ^ (c :: r).length := by
              rw [List.length_cons, hp]
              ring

lemma aux_inj : ∀ {s₁ s₂ : Str} {a₁ a₂ m : ℕ}, s₁.length = s₂.length →
    parseDigitsAux s₁ a₁ = some m → parseDigitsAux s₂ a₂ = some m →
    a₁ = a₂ ∧ s₁ = s₂ := by
  intro s₁
  induction s₁ with
  | nil =>
    intro s₂ a₁ a₂ m hlen h1 h2
    have hs2 : s₂ = [] := List.length_eq_zero.mp hlen.symm
    subst hs2
    injection h1 with e1
    injection h2 with e2
    exact ⟨by omega, rfl⟩
  | cons c₁ r₁ ih =>
    intro s₂ a₁ a₂ m hlen h1 h2
    cases s₂ with
    | nil => cases hlen
    | cons c₂ r₂ =>
      cases hd1 : digitVal c₁ with
      | none =>
        rw [parseDigitsAux, hd1] at h1
        cases h1
      | some d₁ =>
        cases hd2 : digitVal c₂ with
        | none =>
          rw [parseDigitsAux, hd2] at h2
          cases h2
        | some d₂ =>
          rw [parseDigitsAux, hd1] at h1
          rw [parseDigitsAux, hd2] at h2
          obtain ⟨hacc, hr⟩ := ih (by simpa using hlen) h1 h2
          have hd19 := (digitVal_elim hd1).1
          have hd29 := (digitVal_elim hd2).1
          have ha : a₁ = a₂ := by omega
          have hd : d₁ = d₂ := by omega
          subst hd
          exact ⟨ha, by rw [digitVal_inj hd1 hd2, hr]⟩

lemma parseDigits_elim {s : Str} {n : ℕ} (h : parseDigits s = some n) :
    ∃ c r d, s = c :: r ∧ digitVal c = some d ∧ parseDigitsAux r d = some n ∧
      (c = '0' → r = []) ∧ (d = 0 → c = '0') := by
  cases s with
  | nil => cases h
  | cons c r =>
    rw [parseDigits] at h
    by_cases hg : c = '0' ∧ r ≠ []
    · rw [if_pos hg] at h
      cases h
    · rw [if_neg hg] at h
      cases hd : digitVal c with
      | none =>
        rw [hd] at h
        cases h
      | some d =>
        rw [hd] at h
        refine ⟨c, r, d, rfl, hd, h, ?_, fun h0 => digitVal_zero (h0 ▸ hd)⟩
        intro hc0
        by_contra hr
        exact hg ⟨hc0, hr⟩

lemma parseDigits_inj : ∀ {s₁ s₂ : Str} {n : ℕ}, parseDigits s₁ = some n →
    parseDigits s₂ = some n → s₁ = s₂ := by
  intro s₁ s₂ n h1 h2
  obtain ⟨c₁, r₁, d₁, rfl, hd1, ha1, hg1, hz1⟩ := parseDigits_elim h1
  obtain ⟨c₂, r₂, d₂, rfl, hd2, ha2, hg2, hz2⟩ := parseDigits_elim h2
  have hb1 := aux_bounds ha1
  have hb2 := aux_bounds ha2
  by_cases hn : n = 0
  · subst hn
    have hpow1 : 0 < (10:ℕ) ^ r₁.length := Nat.pos_pow_of_pos _ (by norm_num)
    have hpow2 : 0 < (10:ℕ) ^ r₂.length := Nat.pos_pow_of_pos _ (by norm_num)
    have hd10 : d₁ = 0 := by
      by_contra hne
      have : 1 * 10 ^ r₁.length ≤ d₁ * 10 ^ r₁.length :=
        Nat.mul_le_mul_right _ (by omega)
      omega
    have hd20 : d₂ = 0 := by
      by_contra hne
      have : 1 * 10 ^ r₂.length ≤ d₂ * 10 ^ r₂.length :=
        Nat.mul_le_mul_right _ (by omega)
      omega
    have hc1 := hz1 hd10
    have hc2 := hz2 hd20
    rw [hc1, hc2, hg1 hc1, hg2 hc2]
  · have hd1p : 1 ≤ d₁ := by
      by_contra hlt
      have hd10 : d₁ = 0 := by omega
      have hc1 := hz1 hd10
      rw [hg1 hc1] at ha1
      rw [hd10] at ha1
      injection ha1 with e
      exact hn e.symm
    have hd2p : 1 ≤ d₂ := by
      by_contra hlt
      have hd20 : d₂ = 0 := by omega
      have hc2 := hz2 hd20
      rw [hg2 hc2] at ha2
      rw [hd20] at ha2
      injection ha2 with e
      exact hn e.symm
    have hd19 := (digitVal_elim hd1).1
    have hd29 := (digitVal_elim hd2).1
    have hlow1 : (10:ℕ) ^ r₁.length ≤ n := by
      have : 1 * 10 ^ r₁.length ≤ d₁ * 10 ^ r₁.length :=
        Nat.mul_le_mul_right _ hd1p
      omega
    have hlow2 : (10:ℕ) ^ r₂.length ≤ n := by
      have : 1 * 10 ^ r₂.length ≤ d₂ * 10 ^ r₂.length :=
        Nat.mul_le_mul_right _ hd2p
      omega
    have hup1 : n < 10 ^ (r₁.length + 1) := by
      have h10 : (d₁ + 1) * 10 ^ r₁.length ≤ 10 * 10 ^ r₁.length :=
        Nat.mul_le_mul_right _ (by omega)
      have : (10:ℕ) ^ (r₁.length + 1) = 10 ^ r₁.length * 10 := pow_succ 10 _
      omega
    have hup2 : n < 10 ^ (r₂.length + 1) := by
      have h10 : (d₂ + 1) * 10 ^ r₂.length ≤ 10 * 10 ^ r₂.length :=
        Nat.mul_le_mul_right _ (by omega)
      have : (10:ℕ) ^ (r₂.length + 1) = 10 ^ r₂.length * 10 := pow_succ 10 _
      omega
    have hlen : r₁.length = r₂.length := by
      by_contra hne
      rcases Nat.lt_or_ge r₁.length r₂.length with hlt | hge
      · have := Nat.pow_le_pow_right (show (1:ℕ) ≤ 10 by norm_num)
          (show r₁.length + 1 ≤ r₂.length by omega)
        omega
      · have hlt2 : r₂.length < r₁.length := by omega
        have := Nat.pow_le_pow_right (show (1:ℕ) ≤ 10 by norm_num)
          (show r₂.length + 1 ≤ r₁.length by omega)
        omega
    obtain ⟨hd, hr⟩ := aux_inj hlen ha1 ha2
    subst hd
    rw [digitVal_inj hd1 hd2, hr]


/-! ### Decoding the full expected outputs -/

/-- The full decoder for expected deterministic ordinal outputs. -/
def decodeOrd (s : Str) : Option ℕ :=
  match findMille s with
  | none => decodeHundE s
  | some (P, S) =>
    match (if P = [] then some 1 else decodeCardHund P) with
    | none => none
    | some t =>
      match S with
      | [] => some (1000 * t)
      | ' ' :: H => (decodeHundE H).map (1000 * t + ·)
      | _ => none

lemma findMille_at : ∀ {P : Str}, cfree 'l' P = true → ∀ {S : Str},
    cfree 'l' S = true → findMille (P ++ "millesimo".toList ++ S) = some (P, S) := by
  intro P
  induction P with
  | nil =>
    intro hP S hS
    rw [List.nil_append]
    have hpre : isPre "millesimo".toList ("millesimo".toList ++ S) = true :=
      isPre_self_append _ _
    have hdrop : ("millesimo".toList ++ S).drop 9 = S := List.drop_left' rfl
    rw [show "millesimo".toList ++ S = 'm' :: ("illesimo".toList ++ S) from rfl]
    rw [findMille, if_pos (show isPre "millesimo".toList
      ('m' :: ("illesimo".toList ++ S)) = true from hpre)]
    rw [show (('m' :: ("illesimo".toList ++ S)) : Str).drop 9 =
      ("millesimo".toList ++ S).drop 9 from rfl, hdrop]
  | cons p P' ih =>
    intro hP S hS
    have hB : cfree 'l' ('e' :: ("simo".toList ++ S)) = true := by
      apply cfree_cons (by decide)
      rw [cfree_append, hS, Bool.and_true]
      decide
    have hshape : (p :: P') ++ "millesimo".toList ++ S =
        (p :: P') ++ 'm' :: 'i' :: 'l' :: 'l' :: ('e' :: ("simo".toList ++ S)) := by
      simp
    rw [show ((p :: P') ++ "millesimo".toList ++ S) =
      p :: (P' ++ "millesimo".toList ++ S) from by simp]
    rw [findMille, if_neg ?hcond, ih (cfree_head hP).2 hS]
    · rfl
    case hcond =>
      intro hpre
      obtain ⟨r, hr⟩ := isPre_iff.mp hpre
      have hl2 : (p :: (P' ++ "millesimo".toList ++ S))[2]? = some 'l' := by
        rw [hr]
        rfl
      have hl2b : ((p :: P') ++ 'm' :: 'i' :: 'l' :: 'l' ::
          ('e' :: ("simo".toList ++ S)))[2]? = some 'l' := by
        rw [← hshape]
        rw [show ((p :: P') ++ "millesimo".toList ++ S) =
          p :: (P' ++ "millesimo".toList ++ S) from by simp]
        exact hl2
      have := lps hP hB 2 hl2b
      have hlc : (p :: P').length = P'.length + 1 := by simp
      omega

lemma decodeOrd_ordExp {n : ℕ} (h1 : 1 ≤ n) (h2 : n ≤ 999999) :
    decodeOrd (ordExp n) = some n := by
  by_cases hn : n < 1000
  · have he : ordExp n = elideO (ordHundExp n) := by
      rw [ordExp, ordAsm, if_pos hn]
    rw [he]
    rw [decodeOrd, (bHundE_spec h1 (by omega)).2.1, (bHundE_spec h1 (by omega)).1]
  · have ht1 : 1 ≤ n / 1000 := by omega
    have ht2 : n / 1000 ≤ 999 := by omega
    have hP : thouText (n / 1000) =
        (if n / 1000 = 1 then [] else cardHund (n / 1000)) ++ "millesimo".toList := by
      rw [thouText]
      by_cases ht : n / 1000 = 1
      · rw [if_pos ht, if_pos ht, List.nil_append]
      · rw [if_neg ht, if_neg ht, (bCard_spec ht1 ht2).2.2.1]
    have hPfree : cfree 'l'
        (if n / 1000 = 1 then ([] : Str) else cardHund (n / 1000)) = true := by
      by_cases ht : n / 1000 = 1
      · rw [if_pos ht]
        rfl
      · rw [if_neg ht]
        exact (bCard_spec ht1 ht2).1
    have hSfree : cfree 'l' (if n % 1000 = 0 then ([] : Str) else
        ' ' :: elideO (ordHundExp (n % 1000))) = true := by
      by_cases hv : n % 1000 = 0
      · rw [if_pos hv]
        rfl
      · rw [if_neg hv]
        exact cfree_cons (by decide)
          (bHundE_spec (show 1 ≤ n % 1000 by omega) (by omega)).2.2.2.2
    have hshape : ordExp n =
        (if n / 1000 = 1 then ([] : Str) else cardHund (n / 1000)) ++
          "millesimo".toList ++
          (if n % 1000 = 0 then ([] : Str) else
            ' ' :: elideO (ordHundExp (n % 1000))) := by
      rw [ordExp_shape (by omega) h2, hP]
    rw [hshape, decodeOrd, findMille_at hPfree hSfree]
    simp only []
    have hT : (if ((if n / 1000 = 1 then ([] : Str) else cardHund (n / 1000)) = [])
        then some 1
        else decodeCardHund
          (if n / 1000 = 1 then ([] : Str) else cardHund (n / 1000))) =
        some (n / 1000) := by
      by_cases ht : n / 1000 = 1
      · simp [ht]
      · simp only [if_neg ht]
        rw [if_neg ((bCard_spec ht1 ht2).2.1)]
        exact bCardDec_spec ht1 ht2
    rw [hT]
    simp only []
    by_cases hv : n % 1000 = 0
    · simp only [if_pos hv]
      show some (1000 * (n / 1000)) = some n
      congr 1
      omega
    · simp only [if_neg hv]
      show ((decodeHundE (elideO (ordHundExp (n % 1000)))).map
        fun x => 1000 * (n / 1000) + x) = some n
      rw [(bHundE_spec (show 1 ≤ n % 1000 by omega) (by omega)).1]
      show some (1000 * (n / 1000) + n % 1000) = some n
      congr 1
      omega

lemma ordExp_inj {n₁ n₂ : ℕ} (h11 : 1 ≤ n₁) (h12 : n₁ ≤ 999999)
    (h21 : 1 ≤ n₂) (h22 : n₂ ≤ 999999) (h : ordExp n₁ = ordExp n₂) : n₁ = n₂ := by
  have e1 := decodeOrd_ordExp h11 h12
  rw [h, decodeOrd_ordExp h21 h22] at e1
  injection e1 with e2
  exact e2.symm

/-! ### C7: tagger assembly and round trip -/

/-- The three marker crosses of `convert_abbreviation`: each abbreviation
marker is mapped to its feature name
(`accept_masc | accep_fem | accep_apocope`, without the period part). -/
def markerCore (s : Str) : List Str :=
  (if s = "º".toList then ["gender_masc".toList] else []) ++
    (if s = "ª".toList then ["gender_fem".toList] else []) ++
      (if s = "ᵉʳ".toList then ["apocope".toList] else [])

/-- Optional period deletion before each marker cross:
`delete_period = pynini.closure(pynutil.delete("."), 0, 1)` concatenated
with the three marker crosses. -/
def convAbbrevL (s : Str) : List Str :=
  markerCore s ++
    (match s with
      | c :: r => if c = '.' then markerCore r else []
      | [] => [])

/-- Modelled from the spec: the tagged token, i.e. the literal inserts of
`graph` around the ordinal text and the feature, wrapped by `add_tokens`
into an `ordinal` token. -/
def ordTok (txt f : Str) : Str :=
  "ordinal \x7b integer: \"".toList ++ txt ++
    "\" morphosyntactic_features: \"".toList ++ f ++ "\" \x7d".toList

/-- The tagger `fst` on an input string: all splits of the input, the
deterministic `ordinal_graph` on the left part, `convert_abbreviation` on
the right part, wrapped with the token template. -/
def ordTagger (u : Str) : List Str :=
  (splitsL u).flatMap fun q =>
    (ordinalDet q.1).flatMap fun txt =>
      (convAbbrevL q.2).map fun f => ordTok txt f

/-- Executable decoder for `ordTok`, used to prove the token injective. -/
def decodeTok (s : Str) : Option (Str × Str) :=
  match stripL "ordinal \x7b integer: \"".toList s with
  | none => none
  | some r =>
    match breakQ r with
    | (t, '"' :: r3) =>
      match stripL " morphosyntactic_features: \"".toList r3 with
      | none => none
      | some r4 =>
        match breakQ r4 with
        | (f, '"' :: r5) => if r5 = " \x7d".toList then some (t, f) else none
        | _ => none
    | _ => none

lemma decodeTok_ordTok {t f : Str} (ht : cfree '"' t = true)
    (hf : cfree '"' f = true) : decodeTok (ordTok t f) = some (t, f) := by
  have ht' := cfree_iff.mp ht
  have hf' := cfree_iff.mp hf
  have e1 : "\" morphosyntactic_features: \"".toList =
      '"' :: " morphosyntactic_features: \"".toList := rfl
  have e2 : "\" \x7d".toList = '"' :: " \x7d".toList := rfl
  have hsh : ordTok t f = "ordinal \x7b integer: \"".toList ++
      (t ++ '"' :: (" morphosyntactic_features: \"".toList ++
        (f ++ '"' :: " \x7d".toList))) := by
    rw [ordTok, e1, e2]
    simp [List.append_assoc]
  rw [decodeTok, hsh, stripL_self_append]
  simp only []
  rw [breakQ_append ht']
  simp only []
  rw [stripL_self_append]
  simp only []
  rw [breakQ_append hf']
  simp only []
  rw [if_true]

lemma ordTok_inj {t₁ t₂ f₁ f₂ : Str} (h1 : cfree '"' t₁ = true)
    (h2 : cfree '"' t₂ = true) (hf1 : cfree '"' f₁ = true)
    (hf2 : cfree '"' f₂ = true) (h : ordTok t₁ f₁ = ordTok t₂ f₂) :
    t₁ = t₂ ∧ f₁ = f₂ := by
  have e := congrArg decodeTok h
  rw [decodeTok_ordTok h1 hf1, decodeTok_ordTok h2 hf2] at e
  injection e with e1
  exact ⟨congrArg Prod.fst e1, congrArg Prod.snd e1⟩

lemma mem_ite_single {c : Prop} [inst : Decidable c] {a x : Str}
    (h : a ∈ (if c then [x] else [])) : a = x := by
  by_cases hc : c
  · rw [if_pos hc] at h
    simpa using h
  · rw [if_neg hc] at h
    cases h

lemma markerCore_vals {u f : Str} (hu : f ∈ markerCore u) :
    f = "gender_masc".toList ∨ f = "gender_fem".toList ∨
      f = "apocope".toList := by
  rw [markerCore] at hu
  rcases List.mem_append.mp hu with hv | hv
  · rcases List.mem_append.mp hv with hw | hw
    · exact Or.inl (mem_ite_single hw)
    · exact Or.inr (Or.inl (mem_ite_single hw))
  · exact Or.inr (Or.inr (mem_ite_single hv))

lemma convAbbrev_vals {s f : Str} (h : f ∈ convAbbrevL s) :
    f = "gender_masc".toList ∨ f = "gender_fem".toList ∨
      f = "apocope".toList := by
  rw [convAbbrevL.eq_def] at h
  rcases List.mem_append.mp h with h | h
  · exact markerCore_vals h
  · cases s with
    | nil => cases h
    | cons c r =>
      simp only [] at h
      by_cases hc : c = '.'
      · rw [if_pos hc] at h
        exact markerCore_vals h
      · rw [if_neg hc] at h
        cases h

lemma convAbbrev_qfree {s f : Str} (h : f ∈ convAbbrevL s) :
    cfree '"' f = true := by
  rcases convAbbrev_vals h with rfl | rfl | rfl <;> decide

lemma splits_mem_append (a b : Str) : (a, b) ∈ splitsL (a ++ b) := by
  simp only [splitsL, List.mem_map]
  refine ⟨a.length, List.mem_range.mpr ?_, ?_⟩
  · simp only [List.length_append]
    omega
  · simp

/-- C7: round trip of the ordinal tagger. For a digit string in the
supported range and an abbreviation marker, the token built from the
expected ordinal text and the marker's feature is produced by the tagger
on the concatenated input; and every input producing that token is the
same digit string followed by a marker carrying the same feature, so the
token determines the original digit string and feature tag. -/
theorem C7_round_trip {s : Str} {n : ℕ} {mk f : Str}
    (hp : parseDigits s = some n) (h1 : 1 ≤ n) (h2 : n ≤ 999999)
    (hf : f ∈ convAbbrevL mk) :
    ordTok (ordExp n) f ∈ ordTagger (s ++ mk) ∧
      ∀ u, ordTok (ordExp n) f ∈ ordTagger u →
        ∃ m₂, u = s ++ m₂ ∧ f ∈ convAbbrevL m₂ := by
  constructor
  · refine List.mem_flatMap.mpr ⟨(s, mk), splits_mem_append s mk, ?_⟩
    refine List.mem_flatMap.mpr ⟨ordExp n, ?_, ?_⟩
    · rw [ord_det_accept h1 h2 hp]
      exact List.mem_singleton.mpr rfl
    · exact List.mem_map.mpr ⟨f, hf, rfl⟩
  · intro u hu
    obtain ⟨q, hq, hu2⟩ := List.mem_flatMap.mp hu
    obtain ⟨txt, htxt, hu3⟩ := List.mem_flatMap.mp hu2
    obtain ⟨f₂, hf₂, htok⟩ := List.mem_map.mp hu3
    rcases ord_det_cases q.1 with hnil | ⟨m, hpm, hm1, hm2, hdet⟩
    · rw [hnil] at htxt
      cases htxt
    · rw [hdet] at htxt
      have htxt' : txt = ordExp m := List.mem_singleton.mp htxt
      subst htxt'
      have hinj := ordTok_inj (ordExp_qfree hm1 hm2) (ordExp_qfree h1 h2)
        (convAbbrev_qfree hf₂) (convAbbrev_qfree hf) htok
      have hmn : m = n := ordExp_inj hm1 hm2 h1 h2 hinj.1
      subst hmn
      have hq1 : q.1 = s := parseDigits_inj hpm hp
      refine ⟨q.2, ?_, ?_⟩
      · rw [splits_self hq, hq1]
      · rw [show f = f₂ from hinj.2.symm]
        exact hf₂

/-- Witness for C7 at the digit string 21 with the masculine marker. -/
theorem C7_round_trip_witness :
    ordTok (ordExp 21) "gender_masc".toList ∈
      ordTagger ("21".toList ++ "º".toList) :=
  (@C7_round_trip "21".toList 21 "º".toList "gender_masc".toList
    (by decide) (by decide) (by decide) (by decide)).1

end ItTN
